import Mathlib

/-!
# Verification of the gym-chatbot query pipeline

A shallow embedding, in Lean 4, of the pure string-processing core of
`gym_app/chatbot_tools.py` and the dispatch logic of
`gym_app/chatbot.py` from the web-based gym membership chatbot:

* `FAQFastPath.find_faq_match` (keyword-count FAQ selection),
* `QueryNormalizer` (`normalize_query`, `expand_keywords`,
  `matches_any_variation`, the plural/singular tables),
* `ChatbotTools.detect_intent` (keyword scoring, e-mail and
  possessive-name regex bonuses, arg-max intent selection),
* `ChatbotTools.route_query` (the ordered router chain), and
* the `GymChatbot.chat` FAQ → tools → AI dispatch order.

Python strings are modelled as `List Char` (wrapped in `String` at the
interfaces).  Character classes (`\w`, `\s`, `[A-Z]`, `[a-z]`, `\d`,
`str.lower`) are modelled at the ASCII level, which is the alphabet the
program's keyword tables and regexes are written in.  Each regex used by
the code is fixed and concrete, and is embedded by a dedicated matcher
whose equivalence with the regex is argued in its doc string.
-/

namespace GymBot

/-! ## Character-level primitives -/

/-- ASCII uppercase → lowercase table, modelling `str.lower` on the
ASCII range (every table and pattern in the program is ASCII). -/
def upperLowerTable : List (Char × Char) :=
  [('A', 'a'), ('B', 'b'), ('C', 'c'), ('D', 'd'), ('E', 'e'), ('F', 'f'),
   ('G', 'g'), ('H', 'h'), ('I', 'i'), ('J', 'j'), ('K', 'k'), ('L', 'l'),
   ('M', 'm'), ('N', 'n'), ('O', 'o'), ('P', 'p'), ('Q', 'q'), ('R', 'r'),
   ('S', 's'), ('T', 't'), ('U', 'u'), ('V', 'v'), ('W', 'w'), ('X', 'x'),
   ('Y', 'y'), ('Z', 'z')]

/-- Lowercase a single character (`str.lower`, ASCII fragment). -/
def lowerChar (c : Char) : Char :=
  ((upperLowerTable.find? (fun pr => pr.1 == c)).map Prod.snd).getD c

/-- Lowercase a character list (`str.lower`). -/
def lowerL (l : List Char) : List Char := l.map lowerChar

/-- Regex word character `\w` (ASCII fragment): letters, digits, `_`. -/
def isWordChar (c : Char) : Bool := c.isAlphanum || c == '_'

/-- Regex whitespace `\s` (ASCII fragment), which is also what
`str.split()` and `str.strip()` split/strip on. -/
def isSpaceChar (c : Char) : Bool :=
  c == ' ' || c == '\t' || c == '\n' || c == '\r' || c == '\x0b' || c == '\x0c'

/-- `[A-Z]` -/
def isUpperAZ (c : Char) : Bool := 'A' ≤ c && c ≤ 'Z'

/-- `[a-z]` -/
def isLowerAZ (c : Char) : Bool := 'a' ≤ c && c ≤ 'z'

/-- `\d` (ASCII digits). -/
def isDigitChar (c : Char) : Bool := '0' ≤ c && c ≤ '9'

/-- `startsWithL p l` : `p` is an initial segment of `l`. -/
def startsWithL : List Char → List Char → Bool
  | [], _ => true
  | _ :: _, [] => false
  | a :: p, b :: l => a == b && startsWithL p l

/-- Python's substring test `needle in hay`. -/
def containsL (n : List Char) : List Char → Bool
  | [] => startsWithL n []
  | c :: t => startsWithL n (c :: t) || containsL n t

/-- `containsS n s` : Python `n in s` on strings. -/
def containsS (n s : String) : Bool := containsL n.data s.data

/-- Does the list start with a word character? (`[]` counts as no.) -/
def headIsWord : List Char → Bool
  | [] => false
  | c :: _ => isWordChar c

/-- Number of positions of `l` at which `n` starts (occurrence count,
overlapping occurrences counted separately). -/
def occCountL (n : List Char) : List Char → Nat
  | [] => if startsWithL n [] then 1 else 0
  | c :: t => (if startsWithL n (c :: t) then 1 else 0) + occCountL n t

/-- Strip characters of class `f` from the front of a list. -/
def dropWhileL (f : Char → Bool) : List Char → List Char
  | [] => []
  | c :: t => if f c then dropWhileL f t else c :: t

/-- `str.strip(chars)` / `str.strip()`: remove characters of class `f`
from both ends. -/
def stripL (f : Char → Bool) (l : List Char) : List Char :=
  ((dropWhileL f ((dropWhileL f l).reverse)).reverse)

/-- `str.strip()` on a string (whitespace). -/
def stripWsS (s : String) : String := String.mk (stripL isSpaceChar s.data)

/-- Splitting a list at the first character failing `f` (the two halves
of a maximal `f`-run prefix). -/
def spanL (f : Char → Bool) : List Char → List Char × List Char
  | [] => ([], [])
  | c :: t => if f c then ((c :: (spanL f t).1), (spanL f t).2) else ([], c :: t)

/-- Python `str.split()` : split on whitespace runs, dropping empties.
Modelled by a right fold that closes the current word at each
whitespace character. -/
def splitWsL (l : List Char) : List (List Char) :=
  let step := fun (c : Char) (st : List Char × List (List Char)) =>
    if isSpaceChar c then ([], if st.1.isEmpty then st.2 else st.1 :: st.2)
    else (c :: st.1, st.2)
  let st := l.foldr step ([], [])
  if st.1.isEmpty then st.2 else st.1 :: st.2

/-- `str.split()` on a string. -/
def splitWsS (s : String) : List String := (splitWsL s.data).map String.mk

/-- `' '.join(ws)`. -/
def joinWsL : List (List Char) → List Char
  | [] => []
  | [w] => w
  | w :: ws => w ++ ' ' :: joinWsL ws

/-- `' '.join` on strings. -/
def joinWsS (ws : List String) : String := String.mk (joinWsL (ws.map String.data))

/-- First occurrence split: `breakOnSub sep l = some (pre, post)` when
`sep` occurs in `l`, with `l = pre ++ sep ++ post` at the leftmost
occurrence. -/
def breakOnSub (sep : List Char) : List Char → Option (List Char × List Char)
  | [] => if startsWithL sep [] then some ([], []) else none
  | c :: t =>
    if startsWithL sep (c :: t) then some ([], (c :: t).drop sep.length)
    else match breakOnSub sep t with
      | some (pre, post) => some (c :: pre, post)
      | none => none

/-- Python `str.split(sep)` for nonempty `sep` (successive leftmost
occurrences), with structural fuel: `fuel ≥ l.length` suffices, and the
wrapper `splitOnSubL` supplies it. -/
def splitOnSubFuel (sep : List Char) : Nat → List Char → List (List Char)
  | 0, l => [l]
  | Nat.succ fuel, l =>
    if sep.length = 0 then [l]
    else
      match breakOnSub sep l with
      | none => [l]
      | some (pre, post) => pre :: splitOnSubFuel sep fuel post

/-- Python `str.split(sep)` for the nonempty separators the router uses. -/
def splitOnSubL (sep : List Char) (l : List Char) : List (List Char) :=
  splitOnSubFuel sep (l.length + 1) l

/-! ## `QueryNormalizer` (`chatbot_tools.py`, lines 581–691) -/

/-- Embeds Python `re.sub(r'\b' + p + r'\b', s, ·)` for a pattern `p`
that begins and ends with word characters — every key of
`PLURAL_TO_SINGULAR` does.  For such `p`, the leading `\b` holds exactly
when the preceding character is not a word character (or the match is at
the start), and the trailing `\b` exactly when the following character
is not a word character (or the match ends the string).  The flag `w`
carries whether the character preceding the current position is a word
character; `re.sub` scans left to right and resumes scanning after each
replaced occurrence, whose last character (`p`'s last) is a word
character, so scanning resumes with `w := true`. -/
def subWBFuel (p s : List Char) : Nat → Bool → List Char → List Char
  | 0, _, l => l
  | Nat.succ fuel, w, l =>
    match l with
    | [] => []
    | c :: rest =>
      if 0 < p.length ∧ startsWithL p (c :: rest) = true ∧ w = false ∧
          headIsWord (List.drop p.length (c :: rest)) = false then
        s ++ subWBFuel p s fuel true (List.drop p.length (c :: rest))
      else
        c :: subWBFuel p s fuel (isWordChar c) rest

/-- The scan of `subWBFuel` consumes at least one character per step, so
any `fuel ≥ l.length` computes the same result. -/
def subWB (p s : List Char) (w : Bool) (l : List Char) : List Char :=
  subWBFuel p s l.length w l

/-- `QueryNormalizer.PLURAL_TO_SINGULAR`, in dict insertion order
(Python dicts iterate in insertion order). -/
def PLURAL_TO_SINGULAR : List (String × String) := [
  ("details", "detail"),
  ("members", "member"),
  ("payments", "payment"),
  ("plans", "plan"),
  ("passes", "pass"),
  ("sales", "sale"),
  ("stats", "stat"),
  ("statistics", "statistic"),
  ("analytics", "analytic"),
  ("reports", "report"),
  ("visits", "visit"),
  ("checkins", "checkin"),
  ("check-ins", "checkin"),
  ("memberships", "membership"),
  ("subscriptions", "subscription"),
  ("renewals", "renewal"),
  ("expirations", "expiration"),
  ("attendances", "attendance")]

/-- Association-list model of a Python dict: overwrite the value if the
key is present, else append.  (Used to embed dict comprehensions; only
the key→value mapping matters to the claims.) -/
def dictSet (d : List (String × String)) (k v : String) : List (String × String) :=
  if d.any (fun e => e.1 == k) then d.map (fun e => if e.1 == k then (k, v) else e)
  else d ++ [(k, v)]

/-- Dict lookup. -/
def dictGet? (d : List (String × String)) (k : String) : Option String :=
  (d.find? (fun e => e.1 == k)).map Prod.snd

/-- `SINGULAR_TO_PLURAL = {v: k for k, v in PLURAL_TO_SINGULAR.items()}`.
Note the value `"checkin"` occurs twice in `PLURAL_TO_SINGULAR`, so the
comprehension overwrites: `"checkin"` maps to `"check-ins"` (the later
key), and the table has 17 entries for 18 plural keys. -/
def SINGULAR_TO_PLURAL : List (String × String) :=
  PLURAL_TO_SINGULAR.foldl (fun d pr => dictSet d pr.2 pr.1) []

/-- `QueryNormalizer.WORD_VARIATIONS`. -/
def WORD_VARIATIONS : List (String × List String) := [
  ("info", ["information", "informations", "details", "detail", "data"]),
  ("detail", ["details", "info", "information"]),
  ("profile", ["profiles", "account", "accounts"]),
  ("member", ["members", "user", "users", "client", "clients"]),
  ("payment", ["payments", "transaction", "transactions"]),
  ("checkin", ["check-in", "check in", "checkins", "check-ins"]),
  ("revenue", ["sales", "income", "earnings", "proceeds"]),
  ("summary", ["summaries", "overview", "report", "reports"])]

/-- Lookup in `WORD_VARIATIONS`. -/
def variationsGet? (k : String) : Option (List String) :=
  (WORD_VARIATIONS.find? (fun e => e.1 == k)).map Prod.snd

/-- `QueryNormalizer.normalize_query` on character lists: lowercase,
then replace each plural with its singular, one `re.sub` pass per
table entry, in table order. -/
def normalizeL (l : List Char) : List Char :=
  PLURAL_TO_SINGULAR.foldl (fun acc pr => subWB pr.1.data pr.2.data false acc) (lowerL l)

/-- `QueryNormalizer.normalize_query`. -/
def normalize_query (q : String) : String := String.mk (normalizeL q.data)

/-- Python-set model: a duplicate-free list; `setAdd` is `set.add`
(membership is what the program consumes a set for). -/
def setAdd (s : List String) (x : String) : List String :=
  if s.contains x then s else s ++ [x]

/-- `if word in dict: expanded.add(phrase)` — add the element carried by
the option, if any. -/
def addIfSome (acc : List String) (o : Option String) : List String :=
  match o with
  | some x => setAdd acc x
  | none => acc

/-- `if word in WORD_VARIATIONS: for variation in ...: expanded.add(...)`. -/
def addVariations (words : List String) (i : Nat) (acc : List String) : List String :=
  match variationsGet? (words.getD i "") with
  | some vs => vs.foldl (fun a v => setAdd a (joinWsS (words.set i v))) acc
  | none => acc

/-- The inner loop body of `QueryNormalizer.expand_keywords` for word
position `i` of the split keyword `words`: add the plural form (if the
word is a singular), the singular form (if it is a plural), and each
listed variation, each phrase rebuilt with exactly position `i`
replaced. -/
def expandWordAt (words : List String) (acc : List String) (i : Nat) : List String :=
  addVariations words i
    (addIfSome
      (addIfSome acc
        ((dictGet? SINGULAR_TO_PLURAL (words.getD i "")).map
          (fun pl => joinWsS (words.set i pl))))
      ((dictGet? PLURAL_TO_SINGULAR (words.getD i "")).map
        (fun sg => joinWsS (words.set i sg))))

/-- `QueryNormalizer.expand_keywords`: start from `set(keywords)`, then
for each keyword and each word position add the one-position variants. -/
def expand_keywords (keywords : List String) : List String :=
  keywords.foldl
    (fun acc kw =>
      (List.range (splitWsS kw).length).foldl (expandWordAt (splitWsS kw)) acc)
    (keywords.foldl setAdd [])

/-- `QueryNormalizer.matches_any_variation`: some expanded keyword,
normalized, is a substring of the normalized query. -/
def matches_any_variation (query : String) (keywords : List String) : Bool :=
  (expand_keywords keywords).any
    (fun kw => containsS (normalize_query kw) (normalize_query query))

/-! ## `FAQFastPath` (`chatbot_tools.py`, lines 13–578) -/

/-- One FAQ entry: its keyword list and its answer text. -/
structure FAQEntry where
  keywords : List String
  answer : String

/-- `FAQFastPath.FAQ_DATABASE`: one entry per FAQ key, in dict insertion
order, each with its keyword list and answer text. -/
def FAQ_DATABASE : List FAQEntry := [
  ⟨["membership", "plan", "plans", "subscribe", "subscription", "packages", "what plans", "available plans"],
   "We offer flexible membership plans:\n- **Monthly Plan**: ₱2,999/month (30 days)\n- **Quarterly Plan**: ₱7,999/quarter (90 days)\n- **Annual Plan**: ₱29,999/year (365 days)\n- **Walk-in Pass**: ₱500/day (1-day access)\n\nEach plan includes unlimited access to all facilities and classes. Contact our staff for special corporate rates."⟩,
  ⟨["how much", "price", "cost", "fee", "charge", "expensive", "membership cost", "plan price"],
   "Membership costs range from ₱500/day (walk-in) to ₱29,999/year (annual plan).\nMost popular is our **Monthly Plan at ₱2,999**.\nAll plans include unlimited access to facilities, equipment, and classes.\nAsk our staff about discounts for referrals or bulk memberships!"⟩,
  ⟨["renew", "renewal", "extend", "extension", "expired", "expire", "after expiration", "reactivate"],
   "Renewing your membership is easy!\n1. Log into your account on the Membership Plans page\n2. Select your desired plan\n3. Complete the payment\n4. Your membership is activated immediately\n\nYou can renew before or after your current membership expires. No gaps needed!"⟩,
  ⟨["difference", "membership vs", "walk-in vs", "vs walk-in", "pass vs membership", "what is difference"],
   "**Membership vs Walk-in Pass**\n- **Membership**: Long-term access (30-365 days), discounted rates, access anytime, personal account\n- **Walk-in Pass**: Single-day or short-term access (1-7 days), pay per visit, no account needed\n\nChoose membership if you plan regular visits. Walk-in is perfect for guests or occasional visits."⟩,
  ⟨["benefit", "benefits", "included", "what do i get", "what comes with", "membership include"],
   "All memberships include:\n✓ Unlimited access to all equipment and facilities\n✓ Group fitness classes (at no extra cost)\n✓ Locker rooms with showers\n✓ Member mobile app for booking classes\n✓ Discounts on personal training (15% off)\n✓ Priority access to new classes and events"⟩,
  ⟨["transfer", "give to", "share", "someone else", "another person"],
   "Memberships are personal and cannot be transferred or shared.\nHowever, you can purchase separate memberships for family members or friends. Contact our staff for family package discounts (10-20% off)."⟩,
  ⟨["cancel", "cancellation", "stop", "pause", "refund", "want to cancel", "unsubscribe"],
   "To cancel your membership:\n1. Contact our staff at the gym or via email\n2. Provide your membership details\n3. We process cancellations within 24 hours\n\n**Important**: Refunds are available for unused portions if cancelled within 30 days of purchase. After 30 days, remaining balance can be used for future memberships."⟩,
  ⟨["pause", "freeze", "hold", "temporary", "vacation", "coming back"],
   "We offer membership freeze options:\n- **Up to 30 days**: Free pause for members in good standing\n- **Beyond 30 days**: Contact staff for custom arrangements\n\nThis is perfect for vacations or temporary situations. Your membership time doesn\x27t count while paused!"⟩,
  ⟨["family", "group", "referral", "friend", "multiple", "bulk", "discount"],
   "Great news! We offer family and group packages:\n- **Family Plan**: 2+ members = 10% discount each\n- **Referral Bonus**: Refer a friend, both get ₱500 credit\n- **Corporate Rates**: 5+ employees = 15% discount\n\nAsk our staff about these special offers!"⟩,
  ⟨["guest", "bring friend", "visitor", "visitor pass", "bring someone"],
   "Members can bring guests! Here\x27s how:\n- **Guest Pass**: ₱300/visit (1-day access)\n- **Unlimited**: Guests can visit anytime with member present\n- **Walk-in Option**: Guests can also purchase their own walk-in pass (₱500/day)\n\nA staff member will register the guest at check-in."⟩,
  ⟨["payment", "pay", "how to pay", "accept", "method", "cash", "gcash", "card", "credit"],
   "We accept two payment methods:\n💵 **Cash**: Direct payment at the gym\n📱 **GCash**: Mobile payment (fastest & safest)\n\nFor online memberships, GCash is strongly recommended. You\x27ll receive a payment reference number (e.g., PAY-20250115-123456) immediately."⟩,
  ⟨["confirm", "pending", "approval", "wait", "verify", "pending payment", "what does pending mean"],
   "Pending payments are waiting for staff approval:\n1. **GCash Payments**: Usually confirmed within 1-2 hours\n2. **Cash Payments**: Confirmed at payment desk\n\nYou\x27ll receive a notification once approved. Check your dashboard for status. For urgent confirmations, contact our staff."⟩,
  ⟨["reference", "receipt", "number", "reference number", "proof", "gcash reference"],
   "Your payment reference is your proof of payment!\nFormat: PAY-YYYYMMDD-XXXXXX (e.g., PAY-20250115-123456)\n\nKeep this for your records. Use it when:\n- Following up on pending payments\n- Resolving payment issues\n- Requesting refunds\n- Tax documentation"⟩,
  ⟨["history", "payment history", "past payment", "old payment", "previous", "receipt", "invoice"],
   "View your complete payment history:\n1. Log in to your member account\n2. Go to \"Payments\" section\n3. See all transactions with dates and amounts\n\nCan\x27t find your payment? Contact our staff with your member ID or email. We\x27ll help locate it!"⟩,
  ⟨["late", "overdue", "outstanding", "owe", "unpaid", "past due", "delinquent"],
   "If your membership payment is overdue:\n1. Your membership is temporarily inactive\n2. Contact us to settle the payment\n3. Upon payment, your membership reactivates immediately\n\nWe offer flexible payment arrangements. Talk to our staff—we want to help!"⟩,
  ⟨["refund", "refunding", "money back", "return", "wrong payment", "accidental charge"],
   "Refund Policy:\n- **Unused Memberships (within 30 days)**: Full refund available\n- **After 30 days**: Remaining balance credited to future membership\n- **Wrong Amount Paid**: Refund processed within 3-5 business days\n\nContact our staff with your payment reference to request a refund. We\x27ll process it quickly!"⟩,
  ⟨["invoice", "receipt", "bill", "documentation", "tax", "company", "proof of payment"],
   "To get an invoice or receipt:\n1. Log in to your account → Payments section\n2. Click \"Download Invoice\" (available immediately after payment)\n3. Or contact our staff to email you a formal invoice\n\nPerfect for company reimbursement or tax purposes!"⟩,
  ⟨["failed", "error", "declined", "unsuccessful", "didn\x27t work", "not accepted", "transaction failed"],
   "If your payment failed:\n1. **GCash Issues**: Check your GCash balance, ensure 3G/WiFi connection\n2. **Try Again**: Attempt the payment once more\n3. **Still Not Working**: Contact our staff immediately\n\nWe can help troubleshoot or accept cash payment as alternative."⟩,
  ⟨["kiosk", "pin", "kiosk pin", "check in", "check-in", "check out", "how to check in"],
   "Using your Kiosk PIN:\n1. Arrive at the gym and go to the kiosk\n2. Enter your 6-digit PIN (found in your account)\n3. Press \"Check In\" - the kiosk will confirm\n4. You\x27re now checked in! Enjoy your workout\n\n**Check Out**: Same process at the end—just press \"Check Out\"\nLost your PIN? Contact staff to generate a new one."⟩,
  ⟨["forgot", "lost", "reset", "don\x27t remember", "forget pin", "new pin", "generate pin"],
   "No problem! Getting a new PIN is easy:\n1. Ask staff at the front desk\n2. Provide your member ID or email\n3. Staff generates a new PIN instantly\n4. Your old PIN is deactivated\n\nTakes less than 1 minute. Ask any staff member!"⟩,
  ⟨["checked in twice", "two checkins", "duplicate", "multiple check", "already checked", "late checkout"],
   "Accidental double check-in? No worries!\n1. Contact a staff member immediately\n2. Show your membership ID\n3. Staff will correct the attendance record\n\nOur system allows correcting these within 24 hours without penalty."⟩,
  ⟨["phone", "mobile", "app", "not", "kiosk", "alternative", "without kiosk"],
   "Currently, check-in is kiosk-only for security and accuracy.\n**Coming Soon**: Mobile app check-in feature!\n\nUntil then:\n- Use the kiosk at the gym entrance\n- Ask staff if you need help\n- Staff can manually check you in if kiosk unavailable\n\nWe\x27re working on making this easier!"⟩,
  ⟨["visitor", "guest", "friend", "bring guest", "guest checkin"],
   "Guest check-in process:\n1. Guest arrives with member\n2. Staff registers guest at front desk (₱300)\n3. Staff checks in guest to the system\n4. Guest gets temporary access for the day\n\nEasy process takes just 2 minutes!"⟩,
  ⟨["kiosk broken", "kiosk down", "not working", "error", "machine issue", "help check in"],
   "Kiosk not working? Notify staff immediately!\n1. Alert any staff member\n2. Provide your PIN and member ID\n3. Staff will manually check you in\n4. You\x27ll still be able to access the gym\n\nWe maintain our kiosks regularly. Thank you for your patience if there\x27s a delay!"⟩,
  ⟨["hours", "open", "close", "time", "when", "operating hours", "schedule"],
   "Rhose Gym Hours:\n📅 **Monday - Friday**: 6:00 AM - 10:00 PM\n📅 **Saturday**: 7:00 AM - 9:00 PM\n📅 **Sunday**: 7:00 AM - 6:00 PM\n📅 **Holidays**: 8:00 AM - 5:00 PM (check calendar)\n\nMembers have 24-hour access with membership card (coming soon)!"⟩,
  ⟨["equipment", "machine", "facility", "facilities", "what do you have", "available", "treadmill"],
   "Our facilities include:\n💪 **Strength Training**: Free weights, dumbbells (5kg-50kg), weight machines\n🏃 **Cardio**: Treadmills (10), stationary bikes (8), ellipticals (6)\n📦 **Equipment**: Barbells, kettlebells, medicine balls, resistance bands\n🧘 **Wellness**: Yoga mats, foam rollers, stretching area\n🚿 **Amenities**: Locker rooms, showers, toilets, water fountains\n\nHiring personal trainer? All equipment available for sessions!"⟩,
  ⟨["rule", "policy", "etiquette", "do and don\x27t", "not allowed", "prohibited"],
   "Gym Etiquette & Rules:\n✓ **DO**: Wipe equipment after use, return weights to rack, use headphones, respect others\n✗ **DON\x27T**: Hog equipment, drop weights loudly, grunt excessively, photograph others\n📸 Photos/Videos: Permitted for personal use only (respect privacy)\n🎵 Music: Use headphones (no loud speakers)\n👕 Dress Code: Proper gym attire required (no street clothes)\n\nLet\x27s keep our gym clean and welcoming for everyone!"⟩,
  ⟨["locker", "storage", "belongings", "theft", "safe", "lock", "valuables"],
   "Locker & Storage:\n🔒 **Secure Lockers**: Available for rent (₱50/month or free with annual membership)\n📱 **Keep with You**: Don\x27t leave valuables unattended\n💰 **Gym Responsibility**: Not responsible for lost/stolen items\n\nTips:\n- Use lockers for all belongings\n- Never leave valuables in gym\n- Ask staff for temporary storage\n- Most lockers auto-lock after 15 mins\n\nBetter safe than sorry!"⟩,
  ⟨["water", "drink", "hydration", "fountain", "refill", "bottle"],
   "Staying Hydrated:\n💧 **Free Water Fountains**: Located throughout the gym\n🥤 **Bring Your Own**: Water bottles welcome (no outside beverages)\n☕ **Café Coming Soon**: We\x27re adding a café with refreshments soon!\n\nDrink plenty of water during your workout! Generally aim for 2-3 liters daily when exercising."⟩,
  ⟨["child", "kid", "baby", "childcare", "daycare", "bring kids"],
   "Childcare Services:\n🍼 **Available**: Limited supervised childcare during peak hours (6-9 AM, 4-7 PM weekdays)\n👶 **Age Range**: 3 months - 5 years\n💰 **Cost**: ₱200/hour per child\n\nRequirements:\n- Must book 24 hours in advance\n- Childcare staff trained in first aid\n- Modern, safe facility with toys and activities\n\nReserve your spot at the front desk!"⟩,
  ⟨["parking", "park", "car", "vehicle", "space", "lot"],
   "Parking at Rhose Gym:\n🅿️ **Free Parking**: Ample free parking for all members\n📍 **Location**: Adjacent to gym entrance, well-lit at night\n🚗 **Security**: 24-hour CCTV surveillance\n🏍️ **Motorcycles**: Designated motorcycle parking area\n\nOur parking is safe and convenient. No fees!"⟩,
  ⟨["shower", "wash", "bathroom", "shower facilities", "change", "towel"],
   "Shower & Locker Room:\n🚿 **Facilities**: Modern, clean shower stalls with hot water\n🧼 **Amenities**: Soap and shampoo provided (bring own for preference)\n🏖️ **Towels**: Complimentary small gym towels (bring own for full coverage)\n👕 **Changing**: Private changing rooms available\n\nPerfect to freshen up before returning to work or home!"⟩,
  ⟨["register", "join", "sign up", "create account", "new member", "how to register"],
   "Joining Rhose Gym is simple:\n1. Visit our website or app\n2. Click \"Join Now\" or \"Register\"\n3. Fill in your details (name, email, phone, etc.)\n4. Choose your membership plan\n5. Complete payment (Cash or GCash)\n6. Receive your member ID and PIN\n7. Start working out!\n\nTakes less than 10 minutes! Ask staff if you need help."⟩,
  ⟨["requirement", "what do i need", "what to bring", "document", "age", "minimum age"],
   "Registration Requirements:\n✓ Full name\n✓ Valid email address\n✓ Phone number\n✓ Age 13+ (parental consent required for minors)\n✓ Payment method (cash or GCash)\n\nOptional but helpful:\n- Emergency contact number\n- Medical conditions (we\x27ll adjust your plan)\n- Fitness goals\n\nThat\x27s it! We\x27re ready to welcome you!"⟩,
  ⟨["minor", "under 18", "teen", "young", "parent", "guardian", "permission"],
   "Minors Under 18:\n✓ **Age 13-17**: Requires parental/guardian consent and supervision initially\n✓ **Age 18+**: Can register independently\n📝 **Paperwork**: Consent form required (we\x27ll provide)\n👨‍⚖️ **Supervision**: First 3 visits should be with guardian present\n\nGreat that young people want to stay fit! We offer teen-friendly programs."⟩,
  ⟨["student", "discount", "school", "college", "university", "student rate"],
   "Student Discounts:\n🎓 **20% OFF**: All plans for valid student ID holders\n- High school students: ₱2,399/month (regular ₱2,999)\n- College students: Same 20% discount\n- Valid ID required\n\nGreat deal to stay healthy while studying! Register at our desk with your student ID."⟩,
  ⟨["senior", "senior citizen", "elderly", "age 60", "discount", "elderly discount"],
   "Senior Citizen Discounts:\n👴 **15% OFF**: All plans for members 60+\n- Senior programs: Low-impact classes, health monitoring\n- Flexible hours: Early morning rates available\n- Personal training: ₱300/session (regular ₱500)\n\nWe love our senior members! Special care for health and fitness goals."⟩,
  ⟨["pwd", "disabled", "disability", "wheelchair", "accessible", "special need"],
   "Persons with Disability (PWD):\n♿ **25% DISCOUNT**: All plans for PWD members (with PWD ID)\n♿ **Accessibility**: Wheelchair ramps, accessible bathrooms, elevators\n♿ **Assistance**: Staff trained to assist with equipment modifications\n♿ **Programming**: Special adaptive classes available\n\nInclusive gym experience for everyone! Contact management for specific accommodations."⟩,
  ⟨["beginner", "never", "new to gym", "first time", "help", "how to start", "no experience"],
   "Welcome! Here\x27s your beginner plan:\n🎯 **Week 1-2**: Get familiar with equipment, learn proper form\n🎯 **Week 3-4**: Start light workouts (3 days/week)\n🎯 **Week 5+**: Increase intensity and frequency\n\n**Sample Routine** (3 days/week):\n- Day 1: Upper body (push-ups, rows, shoulder press)\n- Day 2: Lower body (squats, lunges, leg press)\n- Day 3: Cardio + core (treadmill, bike, planks)\n\n📖 **FREE Orientation**: Ask our staff for a complimentary gym tour and equipment tutorial!"⟩,
  ⟨["plan", "routine", "program", "workout plan", "what should i do", "schedule"],
   "Workout Planning:\n🏋️ **Free Consultation**: Talk to our staff to create a plan based on your goals\n🏋️ **Personal Training**: ₱500/session (includes custom plan)\n🏋️ **Online Plans**: Available through our member app\n\nStart with:\n- 3-4 days/week training\n- 30-45 min per session\n- Mix of cardio and strength\n- 48-hour rest between same muscle groups\n\nGoals? Tell our staff—we\x27ll help design your ideal plan!"⟩,
  ⟨["class", "classes", "group", "yoga", "spin", "zumba", "group fitness"],
   "Group Fitness Classes (FREE for members!):\n🧘 **Yoga**: Mon-Wed-Fri 7 AM & 6 PM\n🚴 **Spinning**: Tue-Thu-Sat 6 AM & 7 PM\n💃 **Zumba**: Wed-Sat 5:30 PM\n🥊 **BoxFit**: Mon-Wed-Fri 5 PM\n🏃 **HIIT**: Tue-Thu-Sat 6:30 AM\n\nAll classes included with your membership! No extra fees. Book through our app."⟩,
  ⟨["trainer", "personal trainer", "coach", "training", "one-on-one", "private session"],
   "Personal Training:\n💪 **Cost**: ₱500/session (members) | ₱600 (non-members)\n💪 **Duration**: 60 minutes\n💪 **Availability**: 6 AM - 9 PM daily\n💪 **Certification**: All trainers certified and insured\n\nPackage deals available:\n- 5 sessions: ₱2,250 (10% discount)\n- 10 sessions: ₱4,200 (16% discount)\n\nContact our trainers to discuss your fitness goals!"⟩,
  ⟨["progress", "progress tracking", "measurement", "body composition", "weight"],
   "Tracking Your Progress:\n📊 **Free Assessment**: Monthly body composition analysis\n📊 **Measurements**: Height, weight, waist, body fat percentage\n📊 **Progress Report**: Quarterly fitness assessments\n📊 **App Tracking**: Log workouts in our mobile app\n\nOur staff can show you how to use our equipment with built-in progress tracking. Stay motivated!"⟩,
  ⟨["nutrition", "diet", "eating", "meal", "food", "protein", "supplement"],
   "Nutrition & Diet:\n🥗 **Expert Advice**: Ask our trainers for nutrition tips (free!)\n🥗 **Meal Planning**: Personal trainers can create meal plans (₱300)\n🥗 **Supplements**: We sell protein powder and supplements at member prices\n🥗 **General Tips**: Eat whole foods, protein per workout, stay hydrated\n\nComing soon: Nutritionist consultations available!"⟩,
  ⟨["login", "sign in", "password", "forgot password", "can\x27t login", "access account"],
   "Logging Into Your Account:\n1. Visit our website or open our app\n2. Click \"Login\" or \"Sign In\"\n3. Enter your email and password\n4. Click \"Remember Me\" for future logins\n\n**Forgot Password?**\n1. Click \"Forgot Password\" on login page\n2. Enter your email\n3. Check your email for reset link\n4. Create a new password\n\nCan\x27t log in? Contact support@rhosegym.com"⟩,
  ⟨["update", "change", "edit", "profile", "information", "phone", "address"],
   "Updating Your Account Info:\n1. Log in to your account\n2. Go to \"Profile\" or \"Account Settings\"\n3. Edit any field (name, phone, email, address, etc.)\n4. Click \"Save Changes\"\n\nChanges take effect immediately! Updated info helps us keep you informed."⟩,
  ⟨["verify", "email", "confirmation", "confirm email", "didn\x27t receive"],
   "Email Verification:\n✓ **Check Inbox**: Look for verification email\n✓ **Check Spam**: Sometimes emails go to spam\n✓ **Resend**: Click \"Resend Verification Email\" in account settings\n⏰ **Takes 5 mins**: Usually arrives within 5 minutes\n\nNot received? Contact support@rhosegym.com and we\x27ll help immediately!"⟩,
  ⟨["data", "privacy", "delete account", "download", "personal data", "what data"],
   "Your Data & Privacy:\n🔒 **Privacy Protected**: Your data is encrypted and secure\n📥 **Data Download**: Request your data through Settings → Privacy\n🗑️ **Data Deletion**: Request account deletion (requires 30-day notice)\n📋 **Data We Collect**: Name, email, phone, fitness info (never sold)\n\nYour privacy is our priority! Questions? Email privacy@rhosegym.com"⟩
]

/-- `sum(1 for kw in keywords if kw in query_lower)`: how many of the
keywords of entry `e` are substrings of the lowered query. -/
def faqCount (ql : List Char) (e : FAQEntry) : Nat :=
  (e.keywords.filter (fun kw => containsL kw.data ql)).length

/-- `FAQFastPath.find_faq_match`: lower the query; scan the database in
order keeping the first entry whose keyword-match count strictly exceeds
the best so far; return `(answer, count)` of the best entry if its count
is positive, else `(none, 0)`. -/
def find_faq_match (q : String) : Option String × Nat :=
  let ql := lowerL q.data
  let best := FAQ_DATABASE.foldl
    (fun (best : Option String × Nat) e =>
      if best.2 < faqCount ql e then (some e.answer, faqCount ql e) else best)
    (none, 0)
  if 0 < best.2 then best else (none, 0)

/-! ## Regex matchers used by `detect_intent` / `route_query` -/

/-- Character class `[\w\.-]` of the e-mail regex. -/
def isEmailChar (c : Char) : Bool := isWordChar c || c == '.' || c == '-'

/-- Embeds existence of a match of `re.search(r'[\w\.-]+@[\w\.-]+', ·)`.
A match exists iff some `'@'` has a class character immediately before
and after it (the `+`-groups cannot cross `'@'`, which is not in the
class), so a scan over consecutive character triples decides it. -/
def emailSearchB : List Char → Bool
  | a :: b :: c :: t => (isEmailChar a && b == '@' && isEmailChar c) || emailSearchB (b :: c :: t)
  | _ => false

/-- Head is an e-mail class character? -/
def headIsEmail : List Char → Bool
  | [] => false
  | c :: _ => isEmailChar c

/-- Embeds `re.search(r'[\w\.-]+@[\w\.-]+', ·).group(0)`.  The match is
leftmost: it is anchored at the first `'@'` that has a class character
on both sides, its first group is the maximal class run ending just
before that `'@'` (the greedy `+` cannot stop earlier, since the next
pattern character `'@'` matches no class character), and its second
group is the maximal class run after.  `run` accumulates the current
class run, reversed. -/
def emailGroup0Aux : List Char → List Char → Option (List Char)
  | [], _ => none
  | c :: t, run =>
    if c == '@' then
      if !run.isEmpty && headIsEmail t then
        some (run.reverse ++ '@' :: (spanL isEmailChar t).1)
      else emailGroup0Aux t []
    else if isEmailChar c then emailGroup0Aux t (c :: run)
    else emailGroup0Aux t []

/-- `group(0)` of the e-mail regex, as a string. -/
def emailGroup0 (l : List Char) : Option String :=
  (emailGroup0Aux l []).map String.mk

/-- `[A-Z][a-z]+` at the head of the list: the capital, the maximal
lowercase run (at least one character), and the remainder.  The greedy
`[a-z]+` never needs to backtrack in the possessive patterns below: any
character it could give back is lowercase, and every pattern continuing
after it (`'`, `s` followed by `\s`, or `\s`) either matches no
lowercase character or leads to an immediately equivalent parse (giving
back a final `s` to `s?` resumes at the same position). -/
def capWordG : List Char → Option (List Char × List Char)
  | [] => none
  | c :: t =>
    if isUpperAZ c then
      if (spanL isLowerAZ t).1.isEmpty then none
      else some (c :: (spanL isLowerAZ t).1, (spanL isLowerAZ t).2)
    else none

/-- Candidates produced by the greedy star `(?:\s+[A-Z][a-z]+)*` after a
first capitalized word: tuples of (consumed text, remainder, number of
capitalized words), longest first — the regex engine tries the maximal
number of iterations and backtracks one whole iteration at a time.
Inside an iteration `\s+` is maximal (no lowercase/uppercase letter is
whitespace) and the word run is maximal as above. -/
def chainCands : Nat → List Char → List Char → Nat → List (List Char × List Char × Nat)
  | 0, g, r, n => [(g, r, n)]
  | Nat.succ fuel, g, r, n =>
    if (spanL isSpaceChar r).1.isEmpty then [(g, r, n)]
    else
      match capWordG (spanL isSpaceChar r).2 with
      | some (w2, r2) =>
        chainCands fuel (g ++ (spanL isSpaceChar r).1 ++ w2) r2 (n + 1) ++ [(g, r, n)]
      | none => [(g, r, n)]

/-- Skip one occurrence of `c` if present (`c?` in a context where the
following pattern cannot consume `c`, so greediness is harmless). -/
def skipOpt (c : Char) : List Char → List Char
  | [] => []
  | d :: t => if d == c then t else d :: t

/-- The pattern tail `'?s?\s+(?:alt₁|alt₂|…)` (with `hasOpts = true`) or
`\s+(?:alt₁|alt₂|…)` (with `hasOpts = false`): optionally an apostrophe,
optionally `s`, then at least one whitespace character, then one of the
literal alternatives as a prefix of the remainder (the regexes are
unanchored, so nothing further is required).  `'?` and `s?` are safely
greedy: if the apostrophe (or `s`) is present but skipped, the next
pattern element (`s?` or `\s+`) cannot match it, so skipping is the only
way a match can continue. -/
def tailMatch (alts : List String) (hasOpts : Bool) (r : List Char) : Bool :=
  let r1 := if hasOpts then skipOpt '\x27' r else r
  let r2 := if hasOpts then skipOpt 's' r1 else r1
  !(spanL isSpaceChar r2).1.isEmpty &&
    alts.any (fun a => startsWithL a.data (spanL isSpaceChar r2).2)

/-- A match of the possessive-name shape starting exactly here:
`[A-Z][a-z]+((?:\s+[A-Z][a-z]+)*)` then the tail, requiring at least
`minW` capitalized words; returns the text of the capitalized-word chain
(regex group 1) of the preferred (greedy) parse. -/
def possAt (alts : List String) (hasOpts : Bool) (minW : Nat) (l : List Char) : Option (List Char) :=
  match capWordG l with
  | none => none
  | some (g0, r0) =>
    (chainCands r0.length g0 r0 1).findSome?
      (fun gc => if minW ≤ gc.2.2 && tailMatch alts hasOpts gc.2.1 then some gc.1 else none)

/-- `re.search` for the possessive-name shapes: try each start position
left to right (matches can only start at a capital, and `possAt` fails
in O(1) elsewhere), returning group 1 of the first match. -/
def searchPoss (alts : List String) (hasOpts : Bool) (minW : Nat) : List Char → Option (List Char)
  | [] => none
  | c :: t =>
    match possAt alts hasOpts minW (c :: t) with
    | some g => some g
    | none => searchPoss alts hasOpts minW t

/-! ## `ChatbotTools.detect_intent` (`chatbot_tools.py`, lines 713–786) -/

/-- The four intent categories. -/
inductive Intent
  | analytical
  | operational
  | member_lookup
  | informational
deriving DecidableEq, Repr

/-- `analytical_keywords`. -/
def analytical_keywords : List String := [
  "revenue", "sale", "report", "analytic", "statistic", "stat",
  "how many", "how much", "total", "summary", "performance",
  "growth", "trend", "attendance", "retention", "churn",
  "popular", "breakdown", "compare", "comparison", "vs",
  "this week", "this month", "today", "yesterday", "last week", "last month"]

/-- `operational_keywords`. -/
def operational_keywords : List String := [
  "confirm payment", "approve payment", "generate pin", "create sale",
  "record sale", "send reminder", "find member", "search member",
  "expiring", "pending", "inactive member", "checkin today",
  "who checked in", "mark", "update", "extend membership"]

/-- `lookup_keywords`. -/
def lookup_keywords : List String := [
  "show me", "find", "search", "lookup", "get detail",
  "member profile", "membership status", "payment history",
  "info", "detail", "profile", "what\x27s", "whats", "who\x27s", "whos",
  "info about", "detail about", "member info",
  "give me", "get me", "pull up", "look up"]

/-- `sum(1 for kw in kws if kw in qn)`. -/
def keywordScore (kws : List String) (qn : String) : Nat :=
  (kws.filter (fun kw => containsS kw qn)).length

/-- `has_email = '@' in query and re.search(r'[\w\.-]+@[\w\.-]+', query)`. -/
def has_email (query : String) : Bool :=
  query.data.contains '@' && emailSearchB query.data

/-- Alternative prefixes of `(?:info|details?|profile)`: a match of the
alternation group exists at a position iff one of `info`, `detail`,
`profile` is a literal prefix there (`details` extends `detail`). -/
def possAltsDetect : List String := ["info", "detail", "profile"]

/-- `has_possessive =
re.search(r"[A-Z][a-z]+(?:\s+[A-Z][a-z]+)*'?s?\s+(?:info|details?|profile)", query)`. -/
def has_possessive (query : String) : Bool :=
  (searchPoss possAltsDetect true 1 query.data).isSome

/-- Python `max(l, key=...)` over a nonempty association list: the first
element with the maximal value (later elements replace the current best
only when strictly greater). -/
def pyMaxBy : (Intent × ℚ) → List (Intent × ℚ) → (Intent × ℚ)
  | x, [] => x
  | x, y :: t => pyMaxBy (if x.2 < y.2 then y else x) t

/-- `analytical_score` of `detect_intent`. -/
def analytical_score (query : String) : Nat :=
  keywordScore analytical_keywords (normalize_query query)

/-- `operational_score` of `detect_intent`. -/
def operational_score (query : String) : Nat :=
  keywordScore operational_keywords (normalize_query query)

/-- `lookup_score` of `detect_intent`, after the e-mail (+3) and
possessive-name (+2) boosts. -/
def lookup_score (query : String) : Nat :=
  keywordScore lookup_keywords (normalize_query query)
    + (if has_email query then 3 else 0) + (if has_possessive query then 2 else 0)

/-- The `scores` dict of `detect_intent`, in insertion order;
`informational` carries the fixed baseline 0.5. -/
def intent_scores (query : String) : List (Intent × ℚ) :=
  [(.analytical, (analytical_score query : ℚ)),
   (.operational, (operational_score query : ℚ)),
   (.member_lookup, (lookup_score query : ℚ)),
   (.informational, mkRat 1 2)]

/-- `ChatbotTools.detect_intent`: count keyword hits of each category in
the normalized query, add the e-mail (+3) and possessive-name (+2)
bonuses to the lookup score, take the max-scoring category (ties to the
first in dict order analytical, operational, member_lookup,
informational; informational scores a fixed 0.5), and force
`informational` when the winning score is below 1. -/
def detect_intent (query : String) : Intent × ℚ :=
  let best := pyMaxBy (.analytical, (analytical_score query : ℚ))
    [(.operational, (operational_score query : ℚ)),
     (.member_lookup, (lookup_score query : ℚ)),
     (.informational, mkRat 1 2)]
  ((if best.2 < 1 then .informational else best.1), best.2)

/-! ## `ChatbotTools.route_query` (`chatbot_tools.py`, lines 1068–1288) -/

/-- `query.lower()` as a string. -/
def lowerS (q : String) : String := String.mk (lowerL q.data)

/-- `ChatbotTools._extract_period`. -/
def extract_period (ql : String) : String :=
  if containsS "today" ql then "today"
  else if containsS "yesterday" ql then "yesterday"
  else if containsS "this week" ql then "this_week"
  else if containsS "last week" ql then "last_week"
  else if containsS "this month" ql then "this_month"
  else if containsS "last month" ql then "last_month"
  else if containsS "this year" ql then "this_year"
  else "today"

/-- Digits to the number they denote (`int` on a digit string). -/
def natOfDigits (ds : List Char) : Nat :=
  ds.foldl (fun n c => n * 10 + (c.toNat - '0'.toNat)) 0

/-- Group 1 of `re.search(r'(\d+)\s*days?', ·)`: the first maximal digit
run followed by optional whitespace and `day`.  Scanning position by
position is equivalent: a match starting inside a digit run uses the
same remainder as the full run (the greedy `\d+` cannot stop before the
run ends, since `\s*` and `d` match no digit), so a run matches at one
of its digits iff it matches at all of them, and the first match found
is at a run start with the full run as group 1. -/
def extractDaysAux : List Char → Option (List Char)
  | [] => none
  | c :: t =>
    if isDigitChar c &&
        startsWithL "day".data
          (spanL isSpaceChar (spanL isDigitChar (c :: t)).2).2 then
      some (spanL isDigitChar (c :: t)).1
    else extractDaysAux t

/-- `ChatbotTools._extract_days`. -/
def extract_days (ql : String) (dflt : Nat) : Nat :=
  match extractDaysAux ql.data with
  | some run => natOfDigits run
  | none => dflt

/-- `re.search(r'(PAY-\d{8}-\d{6})', ·, re.IGNORECASE)` anchored at the
head: the pattern is fixed-width (19 characters), so it matches here iff
the first 19 characters have the shape, and the group is those
characters of the query verbatim (case preserved). -/
def payAt : List Char → Option (List Char)
  | p :: a :: y :: h1 :: d1 :: d2 :: d3 :: d4 :: d5 :: d6 :: d7 :: d8 ::
      h2 :: e1 :: e2 :: e3 :: e4 :: e5 :: e6 :: _ =>
    if lowerChar p == 'p' && lowerChar a == 'a' && lowerChar y == 'y' && h1 == '-' &&
        [d1, d2, d3, d4, d5, d6, d7, d8].all isDigitChar && h2 == '-' &&
        [e1, e2, e3, e4, e5, e6].all isDigitChar then
      some [p, a, y, h1, d1, d2, d3, d4, d5, d6, d7, d8, h2, e1, e2, e3, e4, e5, e6]
    else none
  | _ => none

/-- Leftmost match of the payment-reference pattern. -/
def extractPayAux : List Char → Option (List Char)
  | [] => none
  | c :: t =>
    match payAt (c :: t) with
    | some tok => some tok
    | none => extractPayAux t

/-- `re.search(r'(PAY-\d{8}-\d{6})', query, re.IGNORECASE)` with
`.group(1)`. -/
def extract_payment_ref (q : String) : Option String :=
  (extractPayAux q.data).map String.mk

/-- Router rule 1 trigger: revenue queries. -/
def revenue_trigger (q : String) : Bool :=
  matches_any_variation q ["revenue", "sale", "income", "earning"]

/-- Router rule 2 trigger: membership growth queries. -/
def growth_trigger (q : String) : Bool :=
  matches_any_variation q ["new member", "membership growth", "member growth", "how many new"]

/-- Router rule 3 trigger: attendance queries. -/
def attendance_trigger (q : String) : Bool :=
  matches_any_variation q ["attendance", "checkin", "visit", "peak hour", "busy"] ||
    containsS "who checked in" (lowerS q) || containsS "checked in today" (lowerS q)

/-- Router rule 4 trigger: retention queries. -/
def retention_trigger (q : String) : Bool :=
  matches_any_variation q ["retention", "churn", "renewal"]

/-- Router rule 5 trigger: plan popularity queries. -/
def plan_trigger (q : String) : Bool :=
  matches_any_variation q ["popular plan", "best-selling", "top plan", "most subscribed"]

/-- Router rule 6 trigger: pending payments queries. -/
def pending_trigger (q : String) : Bool :=
  matches_any_variation q ["pending payment", "outstanding"]

/-- Own-information trigger. -/
def own_info_trigger (q : String) : Bool :=
  matches_any_variation q
    ["show me my", "my information", "my detail", "my profile", "my info", "my account"]

/-- Membership-duration trigger (outer check). -/
def duration_trigger (q : String) : Bool :=
  matches_any_variation q
    ["how long", "days remaining", "how many days", "membership duration",
     "expires when", "when expire", "how long until"]

/-- `member_lookup_keywords` of `route_query`. -/
def member_lookup_keywords : List String := [
  "find member", "search member", "lookup member", "show me",
  "member info", "member detail", "member profile",
  "info about", "detail about", "profile of", "profile for",
  "whats", "what\x27s", "whos", "who\x27s",
  "info", "detail", "profile",
  "give me", "get me", "pull up", "look up",
  "information on", "information about"]

/-- `re.search(r'[A-Z][a-z]+(?:\s+[A-Z][a-z]+)+\s+(?:info|information|detail|details|profile|profiles)', query)`:
at least two capitalized words, no optional apostrophe/`s`; the
alternation reduces to the prefixes `info`/`detail`/`profile`. -/
def name_pattern (q : String) : Bool :=
  (searchPoss possAltsDetect false 2 q.data).isSome

/-- `is_member_lookup`: the keyword variations or the name pattern. -/
def is_member_lookup (q : String) : Bool :=
  matches_any_variation q member_lookup_keywords || name_pattern q

/-- Alternative prefixes of
`(?:info|information|detail|details|profile|profiles|data)`. -/
def possAltsRoute : List String := ["info", "detail", "profile", "data"]

/-- `re.search(r"([A-Z][a-z]+(?:\s+[A-Z][a-z]+)*)'?s?\s+(?:info|information|detail|details|profile|profiles|data)", query)`
with `.group(1).strip()`. -/
def possessive_name (q : String) : Option String :=
  (searchPoss possAltsRoute true 1 q.data).map (fun g => stripWsS (String.mk g))

/-- `extraction_keywords` (including the appended plural variants). -/
def extraction_keywords : List String := [
  "find", "search", "lookup", "show me", "give me", "get me",
  "info about", "detail about", "details about", "information about",
  "profile of", "profile for", "whats", "what\x27s", "info for",
  "detail for", "details for", "pull up", "look up",
  "infos about", "profiles of", "profiles for"]

/-- `remove_words` of the name-extraction loop. -/
def remove_words : List String := [
  "member", "members", "user", "users", "client", "clients",
  "info", "infos", "information", "informations",
  "detail", "details", "data",
  "profile", "profiles", "account", "accounts",
  "\x27s", "s", "the", "for", "about", "on", "of"]

/-- The strip set `"'\",.?!;:"` of `word.strip(...)`. -/
def isPunct (c : Char) : Bool :=
  c == '\x27' || c == '"' || c == ',' || c == '.' || c == '?' || c == '!' ||
    c == ';' || c == ':'

/-- The name-cleaning step applied to `parts[1]`: strip and split into
words (`.strip()` then `.split()` equals splitting on whitespace runs),
strip punctuation from each word, drop words in `remove_words` (compared
lowercased) or of length ≤ 1, keep at most 4, rejoin; succeed only if
something was kept and the joined name has length > 2. -/
def cleanName (p1 : List Char) : Option String :=
  let cleaned := (splitWsL p1).filterMap (fun w =>
    let wc := stripL isPunct w
    if !(remove_words.contains (String.mk (lowerL wc))) && 1 < wc.length then
      some wc
    else none)
  if !cleaned.isEmpty then
    let nm := joinWsL (cleaned.take 4)
    if 2 < nm.length then some (String.mk nm) else none
  else none

/-- One iteration of the extraction loop: if the keyword occurs in the
lowered query, split on it and clean `parts[1]`. -/
def tryExtract (ql : List Char) (kw : String) : Option String :=
  if containsL kw.data ql then
    match splitOnSubL kw.data ql with
    | _ :: p1 :: _ => cleanName p1
    | _ => none
  else none

/-- The extraction loop over `extraction_keywords` (first success wins,
failures fall through to the next keyword). -/
def extractName (ql : String) : Option String :=
  extraction_keywords.findSome? (tryExtract ql.data)

/-- The generate-PIN member extraction: for `"for"` then `"to"`, split
on the keyword and take `parts[1].strip()` if nonempty. -/
def genPinExtract (ql : String) : Option String :=
  ["for", "to"].findSome? (fun kw =>
    if containsS kw ql then
      match splitOnSubL kw.data ql.data with
      | _ :: p1 :: _ =>
        if (stripL isSpaceChar p1).isEmpty then none
        else some (String.mk (stripL isSpaceChar p1))
      | _ => none
    else none)

/-- The tool (with its extracted arguments) or direct answer that
`route_query` resolves to.  Every tool handler in the Python code
returns a string unconditionally (results, clarifications and permission
errors alike), so a routed tool means a non-`None` return. -/
inductive Route
  | revenue_report (period : String)
  | growth_report (period : String)
  | attendance_report (period : String)
  | todays_checkins
  | retention_analysis
  | plan_popularity (period : String)
  | pending_payments
  | confirm_payment (ref : String)
  | clarify (msg : String)
  | expiring_memberships (days : Nat)
  | inactive_members (days : Nat)
  | member_details (email : String)
  | own_information
  | my_membership_duration
  | member_info_by_email (email : String)
  | member_info_by_name (name : String)
  | generate_pin (member : String)
  | comprehensive_summary (period : String)
deriving DecidableEq, Repr

/-- Final router rule: comprehensive summary. -/
def routeSummary (ql : String) : Option Route :=
  if ["summary", "overview", "performance", "dashboard"].any (fun kw => containsS kw ql) then
    some (.comprehensive_summary (extract_period ql))
  else none

/-- Generate-PIN rule, then the summary rule. -/
def routeGenPin (ql : String) : Option Route :=
  if containsS "generate pin" ql || containsS "create pin" ql then
    match genPinExtract ql with
    | some member => some (.generate_pin member)
    | none => routeSummary ql
  else routeSummary ql

/-- The member-lookup block (`if is_member_lookup: ...`): e-mail lookup,
then possessive-name lookup, then the extraction loop; falling out of
the block continues with the generate-PIN rule. -/
def routeMemberLookup (q : String) (ql : String) : Option Route :=
  if is_member_lookup q then
    match (if containsS "@" q then emailGroup0 q.data else none) with
    | some em => some (.member_info_by_email em)
    | none =>
      match possessive_name q with
      | some name =>
        if name.data.isEmpty then
          match extractName ql with
          | some nm => some (.member_info_by_name nm)
          | none => routeGenPin ql
        else some (.member_info_by_name name)
      | none =>
        match extractName ql with
        | some nm => some (.member_info_by_name nm)
        | none => routeGenPin ql
  else routeGenPin ql

/-- RBAC rules: own information, then membership duration (outer
trigger plus the `my`/`expire`/… check on the normalized query), then
the member-lookup block. -/
def routeOwnInfo (q : String) (ql qn : String) : Option Route :=
  if own_info_trigger q then some .own_information
  else if duration_trigger q &&
      (["my", "i have", "i\x27ve", "expire", "left"].any (fun kw => containsS kw qn)) then
    some .my_membership_duration
  else routeMemberLookup q ql

/-- The standalone e-mail rule (`if '@' in query:` …): route to member
details only when the regex finds an e-mail and the tools have an
operations executor (`self.operations`, i.e. an authenticated user);
otherwise fall through. -/
def routeEmailTop (hasOps : Bool) (q : String) (ql qn : String) : Option Route :=
  match (if containsS "@" q then emailGroup0 q.data else none), hasOps with
  | some em, true => some (.member_details em)
  | _, _ => routeOwnInfo q ql qn

/-- `ChatbotTools.route_query`: the ordered rule chain; the first
matching rule wins.  `hasOps` models `self.operations is not None`. -/
def route_query (hasOps : Bool) (q : String) : Option Route :=
  let ql := lowerS q
  let qn := normalize_query q
  if revenue_trigger q then some (.revenue_report (extract_period ql))
  else if growth_trigger q then some (.growth_report (extract_period ql))
  else if attendance_trigger q then
    (if containsS "today" ql || containsS "who checked in" ql then some .todays_checkins
     else some (.attendance_report (extract_period ql)))
  else if retention_trigger q then some .retention_analysis
  else if plan_trigger q then some (.plan_popularity (extract_period ql))
  else if pending_trigger q then some .pending_payments
  else if containsS "confirm payment" qn then
    (match extract_payment_ref q with
     | some ref => some (.confirm_payment ref)
     | none => some (.clarify "Please provide a payment reference number (e.g., PAY-20231201-123456)"))
  else if containsS "expir" qn then some (.expiring_memberships (extract_days ql 7))
  else if containsS "inactive" qn then some (.inactive_members (extract_days ql 30))
  else routeEmailTop hasOps q ql qn

/-! ## `GymChatbot.chat` (`chatbot.py`, lines 509–570) -/

/-- Which component of `chat` produces the response. -/
inductive Handler
  | faq
  | tools
  | ai
deriving DecidableEq, Repr

/-- The intents for which `chat` consults the router. -/
def businessIntents : List Intent := [.analytical, .operational, .member_lookup]

/-- The dispatch order of `GymChatbot.chat`: the FAQ fast path first
(terminal when it returns an answer); otherwise detect the intent and,
for analytical/operational/member-lookup intents, try the router
(terminal when it returns a tool response); everything else goes to the
AI backend. -/
def chat_handler (hasOps : Bool) (q : String) : Handler :=
  match (find_faq_match q).1 with
  | some _ => .faq
  | none =>
    if businessIntents.contains (detect_intent q).1 then
      match route_query hasOps q with
      | some _ => .tools
      | none => .ai
    else .ai

/-! ## Specification-side definitions (phrased from the claims) -/

/-- The running maximum of `f` over a list, from a start value. -/
def maxFrom {α : Type} (f : α → Nat) (l : List α) (s : Nat) : Nat :=
  l.foldl (fun m e => max m (f e)) s

/-- The largest keyword-match count over the database (0 when empty). -/
def faqMaxCount (ql : List Char) : Nat :=
  maxFrom (faqCount ql) FAQ_DATABASE 0

/-- The FAQ result as claim C1 words it: the entry with the strictly
highest keyword-match count wins, a later entry displacing the current
best only on a strictly greater count — so ties keep the first entry in
corpus order, i.e. the winner is the first entry attaining the maximal
count — and if every count is 0 the result is `(none, 0)`. -/
def faqSpec (q : String) : Option String × Nat :=
  let ql := lowerL q.data
  let m := faqMaxCount ql
  if m = 0 then (none, 0)
  else ((FAQ_DATABASE.find? (fun e => faqCount ql e == m)).map FAQEntry.answer, m)

/-! ### C3: arg-max characterization of `detect_intent` -/

/-- Running maximum of the scores in an intent/score list. -/
def listMaxQ (x : ℚ) (l : List (Intent × ℚ)) : ℚ :=
  l.foldl (fun m y => max m y.2) x

/-- The maximal score among the four categories (informational baseline
included). -/
def specMaxScore (q : String) : ℚ :=
  listMaxQ ((analytical_score q : ℚ))
    [(.operational, (operational_score q : ℚ)),
     (.member_lookup, (lookup_score q : ℚ)),
     (.informational, mkRat 1 2)]

/-- The first category, in the fixed order analytical → operational →
member_lookup → informational, attaining the maximal score. -/
def specFirstMaxIntent (q : String) : Intent :=
  (((intent_scores q).find? (fun y => y.2 == specMaxScore q)).map Prod.fst).getD .informational

/-! ## Theorems -/

/-- The best-so-far fold of `find_faq_match`, generically. -/
def foldBest {α β : Type} (f : α → Nat) (ans : α → β) (l : List α)
    (acc : Option β × Nat) : Option β × Nat :=
  l.foldl (fun best e => if best.2 < f e then (some (ans e), f e) else best) acc

/-! ### Declarative possessive-name shapes (claim C7) -/

/-- A capitalized word `[A-Z][a-z]+`. -/
def IsCapWord (w : List Char) : Prop :=
  ∃ c t, w = c :: t ∧ isUpperAZ c = true ∧ t ≠ [] ∧ ∀ d ∈ t, isLowerAZ d = true

/-- A nonempty whitespace run `\s+`. -/
def IsWs (u : List Char) : Prop := u ≠ [] ∧ ∀ d ∈ u, isSpaceChar d = true

/-- `n` consecutive capitalized words separated by whitespace. -/
inductive CapChain : List Char → Nat → Prop
  | one (w : List Char) : IsCapWord w → CapChain w 1
  | more (w u rest : List Char) (n : Nat) :
      IsCapWord w → IsWs u → CapChain rest n → CapChain (w ++ u ++ rest) (n + 1)

/-- The claim's possessive-name shape: two or more consecutive
capitalized words, followed by `'s` or `s`, then whitespace, then one of
the info words (as written in the `detect_intent` regex alternation). -/
def ClaimPossessive (q : String) : Prop :=
  ∃ pre g n mk u a post, q.data = pre ++ g ++ mk ++ u ++ a ++ post ∧
    CapChain g n ∧ 2 ≤ n ∧ (mk = ['\x27', 's'] ∨ mk = ['s']) ∧ IsWs u ∧
    (a = "info".data ∨ a = "detail".data ∨ a = "profile".data)

/-- The shape the `detect_intent` possessive regex actually requires:
one or more capitalized words, an optional apostrophe, an optional `s`,
whitespace, then one of the info words. -/
def AmendedPossessive (q : String) : Prop :=
  ∃ pre g n mk u a post, q.data = pre ++ g ++ mk ++ u ++ a ++ post ∧
    CapChain g n ∧ 1 ≤ n ∧
    (mk = [] ∨ mk = ['\x27'] ∨ mk = ['s'] ∨ mk = ['\x27', 's']) ∧ IsWs u ∧
    (a = "info".data ∨ a = "detail".data ∨ a = "profile".data)

/-- The part of the possessive shape after the capitalized-word chain. -/
def TailShape (S : List Char) : Prop :=
  ∃ mk u a post, S = mk ++ u ++ a ++ post ∧
    (mk = [] ∨ mk = ['\x27'] ∨ mk = ['s'] ∨ mk = ['\x27', 's']) ∧ IsWs u ∧
    (a = "info".data ∨ a = "detail".data ∨ a = "profile".data)

/-- `v` is a legal one-word substitution for the word `w`: its plural
form, its singular form, or a listed variation. -/
def VariantOf (w v : String) : Prop :=
  dictGet? SINGULAR_TO_PLURAL w = some v ∨ dictGet? PLURAL_TO_SINGULAR w = some v ∨
    (∃ vs, variationsGet? w = some vs ∧ v ∈ vs)

/-- `e` is obtained from the keyword `kw` by substituting exactly one
word position (and nothing else). -/
def OneSub (kw e : String) : Prop :=
  ∃ i v, i < (splitWsS kw).length ∧ VariantOf ((splitWsS kw).getD i "") v ∧
    v ≠ (splitWsS kw).getD i "" ∧ e = joinWsS ((splitWsS kw).set i v)

/-! ## Run decomposition for the idempotence of `normalize_query` -/

/-- The word-character class of a run (its first character; `[]` counts
as non-word). -/
def runWord : List Char → Bool
  | [] => false
  | c :: _ => isWordChar c

/-- May a run of class `b` follow a context of class `prev`?  (`none` is
the start of the string; adjacent maximal runs alternate.) -/
def neRun : Option Bool → Bool → Bool
  | none, _ => true
  | some a, b => !(a == b)

/-- Well-formed run decomposition after a context of class `prev`: every
run nonempty and uniform, adjacent runs (and the context) alternate. -/
def wfB : Option Bool → List (List Char) → Bool
  | _, [] => true
  | prev, r :: rest =>
    !r.isEmpty && r.all (fun c => isWordChar c == runWord r) && neRun prev (runWord r) &&
      wfB (some (runWord r)) rest

/-- The scan flag of `subWB` corresponding to a context class: the
previous character is a word character exactly for `some true`. -/
def flagOf (prev : Option Bool) : Bool := prev == some true

/-- Decompose a character list into its maximal uniform runs
(fuel-driven; `fuel ≥ l.length` computes the decomposition). -/
def runsFuel : Nat → List Char → List (List Char)
  | 0, _ => []
  | _ + 1, [] => []
  | fuel + 1, c :: t =>
    (c :: (spanL (fun d => isWordChar d == isWordChar c) t).1) ::
      runsFuel fuel (spanL (fun d => isWordChar d == isWordChar c) t).2

/-- Maximal uniform runs of a character list. -/
def runs (l : List Char) : List (List Char) := runsFuel l.length l

/-- Run-level action of one `re.sub(r'\b'+plural+r'\b', singular, ...)`
pass for an all-word-character plural: replace every maximal word run
equal to the plural by the singular. -/
def mapW (p s : List Char) (rs : List (List Char)) : List (List Char) :=
  rs.map (fun r => if r = p then s else r)

/-- The three runs of the hyphenated plural `check-ins`. -/
def checkRun : List Char := ['c', 'h', 'e', 'c', 'k']

/-- See `checkRun`. -/
def insRun : List Char := ['i', 'n', 's']

/-- The singular `checkin` as a run. -/
def checkinRun : List Char := ['c', 'h', 'e', 'c', 'k', 'i', 'n']

/-- Run-level action of the `check-ins` → `checkin` pass: replace each
occurrence of the run triple `check` `-` `ins` (scanning left to right,
resuming after a replacement) by the single word run `checkin`. -/
def sub3 : List (List Char) → List (List Char)
  | r1 :: r2 :: r3 :: rest =>
    if r1 = checkRun ∧ r2 = ['-'] ∧ r3 = insRun then
      checkinRun :: sub3 rest
    else
      r1 :: sub3 (r2 :: r3 :: rest)
  | rs => rs

/-- Does the run triple `check` `-` `ins` occur? -/
def hasTriple : List (List Char) → Bool
  | r1 :: r2 :: r3 :: rest =>
    (r1 == checkRun && r2 == ['-'] && r3 == insRun) || hasTriple (r2 :: r3 :: rest)
  | _ => false

/-- A table pair whose plural and singular are nonempty all-word
strings (every pair except `check-ins` → `checkin`). -/
def goodPair (pr : String × String) : Bool :=
  !pr.1.data.isEmpty && pr.1.data.all isWordChar &&
    !pr.2.data.isEmpty && pr.2.data.all isWordChar

/-- The run-level action of one table pass. -/
def runPass (rs : List (List Char)) (pr : String × String) : List (List Char) :=
  if goodPair pr then mapW pr.1.data pr.2.data rs else sub3 rs

/-! ## Lemmas and claim theorems -/

theorem subWBFuel_fuel_irrel (p s : List Char) :
    ∀ fuel fuel' w l, l.length ≤ fuel → l.length ≤ fuel' →
      subWBFuel p s fuel w l = subWBFuel p s fuel' w l := by
  intro fuel
  induction fuel with
  | zero =>
    intro fuel' w l hl _
    have : l = [] := List.length_eq_zero.mp (Nat.le_zero.mp hl)
    subst this
    cases fuel' <;> rfl
  | succ fuel ih =>
    intro fuel' w l hl hl'
    match l with
    | [] => cases fuel' <;> rfl
    | c :: rest =>
      match fuel' with
      | 0 => simp at hl'
      | Nat.succ fuel'' =>
        simp only [subWBFuel]
        split
        · rename_i h
          have hp := h.1
          have hd : (List.drop p.length (c :: rest)).length ≤ fuel := by
            have := List.length_drop p.length (c :: rest)
            simp only [List.length_cons] at *
            omega
          have hd' : (List.drop p.length (c :: rest)).length ≤ fuel'' := by
            have := List.length_drop p.length (c :: rest)
            simp only [List.length_cons] at *
            omega
          rw [ih fuel'' true _ hd hd']
        · have h1 : rest.length ≤ fuel := by
            simp only [List.length_cons] at hl; omega
          have h1' : rest.length ≤ fuel'' := by
            simp only [List.length_cons] at hl'; omega
          rw [ih fuel'' (isWordChar c) rest h1 h1']

@[simp] theorem subWB_nil (p s : List Char) (w : Bool) : subWB p s w [] = [] := rfl

theorem subWB_cons (p s : List Char) (w : Bool) (c : Char) (rest : List Char) :
    subWB p s w (c :: rest) =
      if 0 < p.length ∧ startsWithL p (c :: rest) = true ∧ w = false ∧
          headIsWord (List.drop p.length (c :: rest)) = false then
        s ++ subWB p s true (List.drop p.length (c :: rest))
      else
        c :: subWB p s (isWordChar c) rest := by
  show subWBFuel p s (rest.length + 1) w (c :: rest) = _
  simp only [subWBFuel]
  split
  · rename_i h
    have hd : (List.drop p.length (c :: rest)).length ≤ rest.length := by
      have := List.length_drop p.length (c :: rest)
      simp only [List.length_cons] at *
      omega
    rw [subWBFuel_fuel_irrel p s rest.length (List.drop p.length (c :: rest)).length true _
      hd (Nat.le_refl _)]
    rfl
  · rfl

theorem find?_cons_eq {α : Type} {p : α → Bool} {x : α} {l : List α} :
    (x :: l).find? p = if p x then some x else l.find? p := by
  cases h : p x <;> simp [List.find?, h]

theorem le_maxFrom {α : Type} (f : α → Nat) : ∀ (l : List α) (s : Nat), s ≤ maxFrom f l s := by
  intro l
  induction l with
  | nil => intro s; exact Nat.le_refl s
  | cons e l ih =>
    intro s
    calc s ≤ max s (f e) := Nat.le_max_left _ _
    _ ≤ maxFrom f l (max s (f e)) := ih _

theorem foldBest_of_le {α β : Type} (f : α → Nat) (ans : α → β) : ∀ (l : List α) (b : Option β) (s : Nat),
    maxFrom f l s ≤ s → foldBest f ans l (b, s) = (b, s) := by
  intro l
  induction l with
  | nil => intro b s _; rfl
  | cons e l ih =>
    intro b s h
    have hM : maxFrom f (e :: l) s = maxFrom f l (max s (f e)) := rfl
    have h1 : max s (f e) ≤ maxFrom f l (max s (f e)) := le_maxFrom f _ _
    rw [hM] at h
    have hfe : f e ≤ s := by
      have := Nat.le_max_right s (f e)
      omega
    have hmax : max s (f e) = s := by omega
    show foldBest f ans l (if s < f e then (some (ans e), f e) else (b, s)) = (b, s)
    rw [if_neg (by omega)]
    exact ih b s (by rw [hmax] at h; exact h)

theorem foldBest_of_lt {α β : Type} (f : α → Nat) (ans : α → β) : ∀ (l : List α) (b : Option β) (s : Nat),
    s < maxFrom f l s →
    ∃ e, l.find? (fun x => f x == maxFrom f l s) = some e ∧
      foldBest f ans l (b, s) = (some (ans e), f e) ∧ f e = maxFrom f l s := by
  intro l
  induction l with
  | nil => intro b s h; exact absurd h (by simp [maxFrom])
  | cons e l ih =>
    intro b s h
    have hM : maxFrom f (e :: l) s = maxFrom f l (max s (f e)) := rfl
    have hstep : foldBest f ans (e :: l) (b, s) =
        foldBest f ans l (if s < f e then (some (ans e), f e) else (b, s)) := rfl
    by_cases hfe : f e ≤ s
    · have hmax : max s (f e) = s := by omega
      rw [hM, hmax] at h ⊢
      obtain ⟨w, hw1, hw2, hw3⟩ := ih b s h
      refine ⟨w, ?_, ?_, hw3⟩
      · rw [find?_cons_eq, if_neg ?_]
        · exact hw1
        · simp only [beq_iff_eq]
          omega
      · rw [hstep, if_neg (by omega)]
        exact hw2
    · push_neg at hfe
      have hmax : max s (f e) = f e := by omega
      rw [hM, hmax] at h ⊢
      by_cases hM2 : maxFrom f l (f e) ≤ f e
      · have heq : maxFrom f l (f e) = f e :=
          Nat.le_antisymm hM2 (le_maxFrom f l (f e))
        refine ⟨e, ?_, ?_, heq.symm⟩
        · rw [find?_cons_eq, if_pos (by simp [heq])]
        · rw [hstep, if_pos hfe]
          exact foldBest_of_le f ans l (some (ans e)) (f e) hM2
      · push_neg at hM2
        obtain ⟨w, hw1, hw2, hw3⟩ := ih (some (ans e)) (f e) hM2
        refine ⟨w, ?_, ?_, hw3⟩
        · rw [find?_cons_eq, if_neg ?_]
          · exact hw1
          · simp only [beq_iff_eq]
            omega
        · rw [hstep, if_pos hfe]
          exact hw2

/-- C1: for every query string, `find_faq_match` lower-cases the query,
counts for each FAQ entry how many of its keywords are literal
substrings of the lowered query, and returns the answer and count of the
entry with the strictly highest count, a later entry displacing the
current best only on a strictly greater count (so ties keep the first
entry in corpus order); if every count is 0 it returns `(none, 0)`. -/
theorem C1_find_faq_match_first_argmax (q : String) : find_faq_match q = faqSpec q := by
  simp only [find_faq_match, faqSpec, faqMaxCount]
  have hfold : FAQ_DATABASE.foldl
      (fun (best : Option String × Nat) e =>
        if best.2 < faqCount (lowerL q.data) e then (some e.answer, faqCount (lowerL q.data) e) else best)
      (none, 0) = foldBest (faqCount (lowerL q.data)) FAQEntry.answer FAQ_DATABASE (none, 0) := rfl
  rw [hfold]
  by_cases h : maxFrom (faqCount (lowerL q.data)) FAQ_DATABASE 0 = 0
  · rw [foldBest_of_le _ _ _ _ _ (by omega), if_pos h]
    simp
  · have hlt : 0 < maxFrom (faqCount (lowerL q.data)) FAQ_DATABASE 0 := Nat.pos_of_ne_zero h
    obtain ⟨w, hw1, hw2, hw3⟩ :=
      foldBest_of_lt (faqCount (lowerL q.data)) FAQEntry.answer FAQ_DATABASE none 0 hlt
    rw [hw2, if_neg h, hw1]
    simp [hw3]
    exact h

theorem le_listMaxQ : ∀ (l : List (Intent × ℚ)) (x : ℚ), x ≤ listMaxQ x l := by
  intro l
  induction l with
  | nil => intro x; exact le_refl x
  | cons y l ih =>
    intro x
    calc x ≤ max x y.2 := le_max_left _ _
    _ ≤ listMaxQ (max x y.2) l := ih _

theorem pyMaxBy_spec : ∀ (l : List (Intent × ℚ)) (x : Intent × ℚ),
    ∃ w, (x :: l).find? (fun y => y.2 == listMaxQ x.2 l) = some w ∧
      pyMaxBy x l = w ∧ w.2 = listMaxQ x.2 l := by
  intro l
  induction l with
  | nil =>
    intro x
    exact ⟨x, by simp [List.find?, listMaxQ], rfl, rfl⟩
  | cons y l ih =>
    intro x
    have hM : listMaxQ x.2 (y :: l) = listMaxQ (max x.2 y.2) l := rfl
    have hstep : pyMaxBy x (y :: l) = pyMaxBy (if x.2 < y.2 then y else x) l := rfl
    by_cases hxy : x.2 < y.2
    · have hx' : (if x.2 < y.2 then y else x) = y := if_pos hxy
      have hmax : max x.2 y.2 = y.2 := max_eq_right (le_of_lt hxy)
      obtain ⟨w, hw1, hw2, hw3⟩ := ih y
      refine ⟨w, ?_, ?_, ?_⟩
      · rw [find?_cons_eq, if_neg ?_, hM, hmax]
        · exact hw1
        · simp only [beq_iff_eq, hM, hmax]
          have : y.2 ≤ listMaxQ y.2 l := le_listMaxQ l y.2
          intro hcon
          rw [hcon] at hxy
          exact absurd (lt_of_lt_of_le hxy this) (lt_irrefl _)
      · rw [hstep, hx']
        exact hw2
      · rw [hM, hmax]
        exact hw3
    · have hx' : (if x.2 < y.2 then y else x) = x := if_neg hxy
      have hmax : max x.2 y.2 = x.2 := max_eq_left (not_lt.mp hxy)
      obtain ⟨w, hw1, hw2, hw3⟩ := ih x
      rw [hM, hmax]
      refine ⟨w, ?_, ?_, hw3⟩
      · by_cases hxM : x.2 = listMaxQ x.2 l
        · rw [find?_cons_eq, if_pos (by simpa using hxM)]
          rw [find?_cons_eq, if_pos (by simpa using hxM)] at hw1
          exact hw1
        · have hyM : ¬ y.2 = listMaxQ x.2 l := by
            have hxle : x.2 ≤ listMaxQ x.2 l := le_listMaxQ l x.2
            have : y.2 ≤ x.2 := not_lt.mp hxy
            exact ne_of_lt (lt_of_le_of_lt this (lt_of_le_of_ne hxle hxM))
          rw [find?_cons_eq, if_neg (by simpa using hxM),
            find?_cons_eq, if_neg (by simpa using hyM)]
          rw [find?_cons_eq, if_neg (by simpa using hxM)] at hw1
          exact hw1
      · rw [hstep, hx']
        exact hw2

/-- C3: for every query, `detect_intent` returns the category whose
score is maximal among analytical, operational, member_lookup and
informational (the latter always scoring the fixed baseline 0.5); on
ties the first of analytical → operational → member_lookup →
informational attaining the maximum wins; and the returned confidence
is that maximal score. -/
theorem C3_detect_intent_first_max (q : String) :
    detect_intent q = (specFirstMaxIntent q, specMaxScore q) := by
  obtain ⟨w, hw1, hw2, hw3⟩ := pyMaxBy_spec
    [(.operational, (operational_score q : ℚ)),
     (.member_lookup, (lookup_score q : ℚ)),
     (.informational, mkRat 1 2)]
    (.analytical, (analytical_score q : ℚ))
  have hspec : specFirstMaxIntent q = w.1 := by
    unfold specFirstMaxIntent intent_scores
    have : specMaxScore q = listMaxQ ((analytical_score q : ℚ))
      [(.operational, (operational_score q : ℚ)),
       (.member_lookup, (lookup_score q : ℚ)),
       (.informational, mkRat 1 2)] := rfl
    rw [this]
    rw [show ([(.analytical, (analytical_score q : ℚ)),
      (.operational, (operational_score q : ℚ)),
      (.member_lookup, (lookup_score q : ℚ)),
      (.informational, mkRat 1 2)] : List (Intent × ℚ)) =
      (Intent.analytical, (analytical_score q : ℚ)) ::
        [(.operational, (operational_score q : ℚ)),
         (.member_lookup, (lookup_score q : ℚ)),
         (.informational, mkRat 1 2)] from rfl]
    rw [hw1]
    rfl
  have hMeq : specMaxScore q = listMaxQ ((analytical_score q : ℚ))
      [(.operational, (operational_score q : ℚ)),
       (.member_lookup, (lookup_score q : ℚ)),
       (.informational, mkRat 1 2)] := rfl
  unfold detect_intent
  rw [hw2]
  by_cases hlt : w.2 < 1
  · -- all keyword scores are below 1, hence 0; the max is 1/2 and the
    -- first category attaining it is informational
    have hhalf : mkRat 1 2 = (1 : ℚ)/2 := by
      rw [Rat.mkRat_eq_divInt, Rat.divInt_eq_div]
      norm_num
    have hM4 : w.2 = max (max (max ((analytical_score q : ℚ))
        ((operational_score q : ℚ))) ((lookup_score q : ℚ))) (mkRat 1 2) := by
      rw [hw3]; rfl
    have hA : ((analytical_score q : ℚ)) < 1 := by
      refine lt_of_le_of_lt ?_ hlt
      rw [hM4]
      exact le_trans (le_trans (le_max_left _ _) (le_max_left _ _)) (le_max_left _ _)
    have hO : ((operational_score q : ℚ)) < 1 := by
      refine lt_of_le_of_lt ?_ hlt
      rw [hM4]
      exact le_trans (le_trans (le_max_right _ _) (le_max_left _ _)) (le_max_left _ _)
    have hL : ((lookup_score q : ℚ)) < 1 := by
      refine lt_of_le_of_lt ?_ hlt
      rw [hM4]
      exact le_trans (le_max_right _ _) (le_max_left _ _)
    have hA0 : analytical_score q = 0 := by
      have : analytical_score q < 1 := by exact_mod_cast hA
      omega
    have hO0 : operational_score q = 0 := by
      have : operational_score q < 1 := by exact_mod_cast hO
      omega
    have hL0 : lookup_score q = 0 := by
      have : lookup_score q < 1 := by exact_mod_cast hL
      omega
    have hw2half : w.2 = mkRat 1 2 := by
      rw [hM4, hA0, hO0, hL0, hhalf]
      norm_num
    have hfirst : specFirstMaxIntent q = .informational := by
      unfold specFirstMaxIntent intent_scores
      have hMS : specMaxScore q = w.2 := by rw [hw3]; rfl
      rw [hMS, hw2half, hA0, hO0, hL0]
      rw [find?_cons_eq, if_neg (by simp [hhalf]),
        find?_cons_eq, if_neg (by simp [hhalf]),
        find?_cons_eq, if_neg (by simp [hhalf]),
        find?_cons_eq, if_pos (by simp)]
      rfl
    simp only [if_pos hlt]
    rw [hfirst]
    have hMS : specMaxScore q = w.2 := by rw [hw3]; rfl
    rw [hMS]
  · simp only [if_neg hlt]
    rw [hspec, hMeq, hw3]

theorem mkRat_half : mkRat 1 2 = (1 : ℚ)/2 := by
  rw [Rat.mkRat_eq_divInt, Rat.divInt_eq_div]
  norm_num

/-- C2, counterexample: the query `"total"` satisfies the claim's
hypothesis — its normalized form contains exactly one occurrence of
exactly one keyword (`"total"`), belonging to exactly one of the three
business keyword lists (analytical), and it has no e-mail token and no
possessive-name pattern — yet `detect_intent` returns
`(analytical, 1)`, not `informational`: a single stray keyword scores
exactly 1, which is not below the `score < 1` threshold. -/
theorem C2_counterexample :
    keywordScore analytical_keywords (normalize_query "total") = 1 ∧
    keywordScore operational_keywords (normalize_query "total") = 0 ∧
    keywordScore lookup_keywords (normalize_query "total") = 0 ∧
    occCountL "total".data (normalize_query "total").data = 1 ∧
    has_email "total" = false ∧ has_possessive "total" = false ∧
    detect_intent "total" = (.analytical, 1) := by
  refine ⟨by decide, by decide, by decide, by decide, by decide, by decide, ?_⟩
  decide

/-- C2, amended: for every query with no e-mail token and no
possessive-name pattern whose normalized form contains exactly one
keyword of exactly one of the three business keyword lists,
`detect_intent` returns that keyword's category with confidence 1 (not
`informational`): the minimum-confidence rule `score < 1` only fires
when no keyword at all matched. -/
theorem C2_single_keyword_wins (q : String)
    (he : has_email q = false) (hp : has_possessive q = false) :
    (keywordScore analytical_keywords (normalize_query q) = 1 ∧
     keywordScore operational_keywords (normalize_query q) = 0 ∧
     keywordScore lookup_keywords (normalize_query q) = 0 →
     detect_intent q = (.analytical, 1)) ∧
    (keywordScore analytical_keywords (normalize_query q) = 0 ∧
     keywordScore operational_keywords (normalize_query q) = 1 ∧
     keywordScore lookup_keywords (normalize_query q) = 0 →
     detect_intent q = (.operational, 1)) ∧
    (keywordScore analytical_keywords (normalize_query q) = 0 ∧
     keywordScore operational_keywords (normalize_query q) = 0 ∧
     keywordScore lookup_keywords (normalize_query q) = 1 →
     detect_intent q = (.member_lookup, 1)) := by
  refine ⟨?_, ?_, ?_⟩ <;> rintro ⟨h1, h2, h3⟩ <;>
    simp only [detect_intent, analytical_score, operational_score, lookup_score,
      h1, h2, h3, he, hp, if_false, Bool.false_eq_true] <;>
    norm_num [pyMaxBy, mkRat_half]

/-- C2 witness: the amended statement applied at the stray-keyword query
`"total"`. -/
theorem C2_single_keyword_wins_witness : detect_intent "total" = (.analytical, 1) :=
  (C2_single_keyword_wins "total" (by decide) (by decide)).1 ⟨by decide, by decide, by decide⟩

/-! ### List and scanning helper lemmas -/

theorem startsWithL_append_self : ∀ (a b : List Char), startsWithL a (a ++ b) = true := by
  intro a
  induction a with
  | nil => intro b; rfl
  | cons c t ih => intro b; simp [startsWithL, ih]

theorem startsWithL_ex : ∀ {a l : List Char}, startsWithL a l = true → ∃ post, l = a ++ post := by
  intro a
  induction a with
  | nil => intro l _; exact ⟨l, rfl⟩
  | cons c t ih =>
    intro l h
    match l with
    | [] => simp [startsWithL] at h
    | d :: l' =>
      simp only [startsWithL, Bool.and_eq_true, beq_iff_eq] at h
      obtain ⟨post, hp⟩ := ih h.2
      exact ⟨post, by rw [h.1, hp]; rfl⟩

theorem spanL_eq_append (f : Char → Bool) : ∀ l, (spanL f l).1 ++ (spanL f l).2 = l := by
  intro l
  induction l with
  | nil => rfl
  | cons c t ih =>
    simp only [spanL]
    split
    · simpa using ih
    · rfl

theorem spanL_one_all (f : Char → Bool) : ∀ l, ∀ c ∈ (spanL f l).1, f c = true := by
  intro l
  induction l with
  | nil => intro c h; simp [spanL] at h
  | cons d t ih =>
    intro c h
    simp only [spanL] at h
    split at h
    · rename_i hd
      simp only [List.mem_cons] at h
      rcases h with h | h
      · exact h ▸ hd
      · exact ih c h
    · simp at h

theorem spanL_two_head (f : Char → Bool) : ∀ l c r, (spanL f l).2 = c :: r → f c = false := by
  intro l
  induction l with
  | nil => intro c r h; simp [spanL] at h
  | cons d t ih =>
    intro c r h
    simp only [spanL] at h
    split at h
    · exact ih c r h
    · rename_i hd
      cases h
      exact Bool.not_eq_true _ ▸ (by simpa using hd)

theorem spanL_all_append (f : Char → Bool) {t : List Char} (ht : ∀ c ∈ t, f c = true) :
    ∀ rest, spanL f (t ++ rest) = (t ++ (spanL f rest).1, (spanL f rest).2) := by
  induction t with
  | nil => intro rest; rfl
  | cons c t' ih =>
    intro rest
    have hc : f c = true := ht c (List.mem_cons_self c t')
    have ht' : ∀ d ∈ t', f d = true := fun d hd => ht d (List.mem_cons_of_mem c hd)
    simp only [List.cons_append, spanL, hc, if_pos]
    rw [show t'.append rest = t' ++ rest from rfl, ih ht']

theorem spanL_cons_neg (f : Char → Bool) {c : Char} (h : f c = false) (t : List Char) :
    spanL f (c :: t) = ([], c :: t) := by
  simp [spanL, h]

theorem findSome?_ex {α β : Type} {f : α → Option β} : ∀ {l : List α} {y : β},
    l.findSome? f = some y → ∃ x ∈ l, f x = some y := by
  intro l
  induction l with
  | nil => intro y h; simp [List.findSome?] at h
  | cons x t ih =>
    intro y h
    rw [List.findSome?] at h
    match hx : f x with
    | some z => rw [hx] at h; cases h; exact ⟨x, List.mem_cons_self x t, hx⟩
    | none =>
      rw [hx] at h
      obtain ⟨w, hw1, hw2⟩ := ih h
      exact ⟨w, List.mem_cons_of_mem x hw1, hw2⟩

theorem findSome?_of_mem {α β : Type} {f : α → Option β} : ∀ {l : List α} {x : α} {y : β},
    x ∈ l → f x = some y → (l.findSome? f).isSome = true := by
  intro l
  induction l with
  | nil => intro x y h; simp at h
  | cons z t ih =>
    intro x y hm hf
    rw [List.findSome?]
    match hz : f z with
    | some w => simp
    | none =>
      rcases List.mem_cons.mp hm with h | h
      · subst h; rw [hf] at hz; cases hz
      · exact ih h hf

theorem capChain_pos {g : List Char} {n : Nat} (h : CapChain g n) : 1 ≤ n := by
  cases h <;> omega

theorem capChain_snoc {g : List Char} {n : Nat} {u w : List Char}
    (hg : CapChain g n) (hu : IsWs u) (hw : IsCapWord w) :
    CapChain (g ++ (u ++ w)) (n + 1) := by
  induction hg with
  | one w0 hw0 =>
    rw [← List.append_assoc]
    exact CapChain.more w0 u w 1 hw0 hu (CapChain.one w hw)
  | more w0 u0 rest m hw0 hu0 _ ih =>
    have : w0 ++ u0 ++ rest ++ (u ++ w) = w0 ++ u0 ++ (rest ++ (u ++ w)) := by
      simp [List.append_assoc]
    rw [this]
    exact CapChain.more w0 u0 (rest ++ (u ++ w)) (m + 1) hw0 hu0 ih

theorem capWordG_sound {l g0 r0 : List Char} (h : capWordG l = some (g0, r0)) :
    IsCapWord g0 ∧ g0 ++ r0 = l := by
  match l with
  | [] => simp [capWordG] at h
  | c :: t =>
    simp only [capWordG] at h
    split at h
    · split at h
      · cases h
      · rename_i hup hrun
        cases h
        constructor
        · exact ⟨c, (spanL isLowerAZ t).1, rfl, hup, by simpa using hrun,
            spanL_one_all isLowerAZ t⟩
        · simp [spanL_eq_append isLowerAZ t]
    · cases h

theorem chainCands_sound : ∀ (fuel : Nat) (g r : List Char) (n : Nat)
    (gc : List Char × List Char × Nat), CapChain g n →
    gc ∈ chainCands fuel g r n → CapChain gc.1 gc.2.2 ∧ gc.1 ++ gc.2.1 = g ++ r := by
  intro fuel
  induction fuel with
  | zero =>
    intro g r n gc hg hm
    simp only [chainCands, List.mem_singleton] at hm
    subst hm
    exact ⟨hg, rfl⟩
  | succ fuel ih =>
    intro g r n gc hg hm
    rw [chainCands] at hm
    by_cases hws : (spanL isSpaceChar r).1.isEmpty
    · rw [if_pos hws] at hm
      simp only [List.mem_singleton] at hm
      subst hm
      exact ⟨hg, rfl⟩
    · rw [if_neg hws] at hm
      match hcw : capWordG (spanL isSpaceChar r).2 with
      | none =>
        rw [hcw] at hm
        simp only [List.mem_singleton] at hm
        subst hm
        exact ⟨hg, rfl⟩
      | some (w2, r2) =>
        rw [hcw] at hm
        rcases List.mem_append.mp hm with hm1 | hm1
        · have hu : IsWs (spanL isSpaceChar r).1 :=
            ⟨by simpa using hws, spanL_one_all isSpaceChar r⟩
          obtain ⟨hcap, heq⟩ := capWordG_sound hcw
          have hchain : CapChain (g ++ (spanL isSpaceChar r).1 ++ w2) (n + 1) := by
            have := capChain_snoc hg hu hcap
            simpa [List.append_assoc] using this
          obtain ⟨h1, h2⟩ := ih (g ++ (spanL isSpaceChar r).1 ++ w2) r2 (n + 1) gc hchain hm1
          refine ⟨h1, ?_⟩
          rw [h2]
          have hr : (spanL isSpaceChar r).1 ++ (w2 ++ r2) = r := by
            rw [heq]
            exact spanL_eq_append isSpaceChar r
          simp only [List.append_assoc]
          rw [hr]
        · simp only [List.mem_singleton] at hm1
          subst hm1
          exact ⟨hg, rfl⟩

theorem skipOpt_cases (c : Char) (l : List Char) :
    (skipOpt c l = l) ∨ (∃ t, l = c :: t ∧ skipOpt c l = t) := by
  match l with
  | [] => left; rfl
  | d :: t =>
    simp only [skipOpt]
    by_cases h : d = c
    · right
      exact ⟨t, by rw [h], by simp [h]⟩
    · left
      rw [if_neg (by simpa using h)]

theorem tailMatch_sound {r : List Char} (h : tailMatch possAltsDetect true r = true) :
    ∃ mk u a post, r = mk ++ u ++ a ++ post ∧
      (mk = [] ∨ mk = ['\x27'] ∨ mk = ['s'] ∨ mk = ['\x27', 's']) ∧ IsWs u ∧
      (a = "info".data ∨ a = "detail".data ∨ a = "profile".data) := by
  have main : ∀ R2 : List Char, (!(spanL isSpaceChar R2).1.isEmpty) = true →
      (possAltsDetect.any (fun a => startsWithL a.data (spanL isSpaceChar R2).2)) = true →
      ∃ u a post, R2 = u ++ a ++ post ∧ IsWs u ∧
        (a = "info".data ∨ a = "detail".data ∨ a = "profile".data) := by
    intro R2 hws hany
    obtain ⟨a, ha, hsw⟩ := List.any_eq_true.mp hany
    obtain ⟨post, hpost⟩ := startsWithL_ex hsw
    refine ⟨(spanL isSpaceChar R2).1, a.data, post, ?_,
      ⟨by simpa using hws, spanL_one_all _ _⟩, ?_⟩
    · rw [List.append_assoc, ← hpost]
      exact (spanL_eq_append isSpaceChar R2).symm
    · simp only [possAltsDetect, List.mem_cons, List.not_mem_nil, or_false] at ha
      rcases ha with h | h | h <;> simp [h]
  simp only [tailMatch, if_true, Bool.and_eq_true] at h
  obtain ⟨hws, hany⟩ := h
  rcases skipOpt_cases '\x27' r with h1 | ⟨t1, ht1, ht1'⟩
  · rcases skipOpt_cases 's' (skipOpt '\x27' r) with h2 | ⟨t2, ht2, ht2'⟩
    · rw [h2, h1] at hws hany
      obtain ⟨u, a, post, hdec, hu, ha⟩ := main r hws hany
      exact ⟨[], u, a, post, by simpa using hdec, by simp, hu, ha⟩
    · rw [ht2'] at hws hany
      rw [h1] at ht2
      obtain ⟨u, a, post, hdec, hu, ha⟩ := main t2 hws hany
      refine ⟨['s'], u, a, post, ?_, by simp, hu, ha⟩
      rw [ht2, hdec]
      simp
  · rcases skipOpt_cases 's' (skipOpt '\x27' r) with h2 | ⟨t2, ht2, ht2'⟩
    · rw [h2, ht1'] at hws hany
      obtain ⟨u, a, post, hdec, hu, ha⟩ := main t1 hws hany
      refine ⟨['\x27'], u, a, post, ?_, by simp, hu, ha⟩
      rw [ht1, hdec]
      simp
    · rw [ht2'] at hws hany
      rw [ht1'] at ht2
      obtain ⟨u, a, post, hdec, hu, ha⟩ := main t2 hws hany
      refine ⟨['\x27', 's'], u, a, post, ?_, by simp, hu, ha⟩
      rw [ht1, ht2, hdec]
      simp

theorem possAt_sound {l g : List Char} (h : possAt possAltsDetect true 1 l = some g) :
    ∃ gg n mk u a post, l = gg ++ mk ++ u ++ a ++ post ∧ CapChain gg n ∧ 1 ≤ n ∧
      (mk = [] ∨ mk = ['\x27'] ∨ mk = ['s'] ∨ mk = ['\x27', 's']) ∧ IsWs u ∧
      (a = "info".data ∨ a = "detail".data ∨ a = "profile".data) := by
  simp only [possAt] at h
  match hcw : capWordG l with
  | none => rw [hcw] at h; cases h
  | some (g0, r0) =>
    rw [hcw] at h
    obtain ⟨gc, hgc1, hgc2⟩ := findSome?_ex h
    obtain ⟨hcap, heq⟩ := capWordG_sound hcw
    have hbase : CapChain g0 1 := CapChain.one g0 hcap
    obtain ⟨hchain, happ⟩ := chainCands_sound r0.length g0 r0 1 gc hbase hgc1
    split at hgc2
    · rename_i hcond
      cases hgc2
      obtain ⟨mk, u, a, post, hdec, hmk, hu, ha⟩ :=
        tailMatch_sound (Bool.and_eq_true _ _ ▸ hcond).2
      refine ⟨gc.1, gc.2.2, mk, u, a, post, ?_, hchain, capChain_pos hchain, hmk, hu, ha⟩
      rw [← heq, ← happ, hdec]
      simp [List.append_assoc]
    · cases hgc2

theorem searchPoss_sound : ∀ {l g : List Char},
    searchPoss possAltsDetect true 1 l = some g →
    ∃ pre X, l = pre ++ X ∧ possAt possAltsDetect true 1 X = some g := by
  intro l
  induction l with
  | nil => intro g h; simp [searchPoss] at h
  | cons c t ih =>
    intro g h
    rw [searchPoss] at h
    match hp : possAt possAltsDetect true 1 (c :: t) with
    | some g' =>
      rw [hp] at h
      cases h
      exact ⟨[], c :: t, rfl, hp⟩
    | none =>
      rw [hp] at h
      obtain ⟨pre, X, hX1, hX2⟩ := ih h
      exact ⟨c :: pre, X, by rw [hX1]; rfl, hX2⟩

/-- Soundness half of C7 (amended): a regex hit yields the declarative
decomposition. -/
theorem has_possessive_sound {q : String} (h : has_possessive q = true) :
    AmendedPossessive q := by
  simp only [has_possessive, Option.isSome_iff_exists] at h
  obtain ⟨g, hg⟩ := h
  obtain ⟨pre, X, hX1, hX2⟩ := searchPoss_sound hg
  obtain ⟨gg, n, mk, u, a, post, hdec, hchain, hn, hmk, hu, ha⟩ := possAt_sound hX2
  exact ⟨pre, gg, n, mk, u, a, post, by rw [hX1, hdec]; simp [List.append_assoc],
    hchain, hn, hmk, hu, ha⟩

theorem chainCands_base : ∀ (fuel : Nat) (g r : List Char) (n : Nat),
    (g, r, n) ∈ chainCands fuel g r n := by
  intro fuel g r n
  match fuel with
  | 0 => simp [chainCands]
  | Nat.succ fl =>
    rw [chainCands]
    split
    · simp
    · match hcw : capWordG (spanL isSpaceChar r).2 with
      | none => simp
      | some (w2, r2) => simp

theorem chainCands_shift (pre : List Char) (k : Nat) : ∀ (fuel : Nat) (g r : List Char) (n : Nat),
    chainCands fuel (pre ++ g) r (n + k) =
      (chainCands fuel g r n).map (fun gc => (pre ++ gc.1, gc.2.1, gc.2.2 + k)) := by
  intro fuel
  induction fuel with
  | zero => intro g r n; rfl
  | succ fl ih =>
    intro g r n
    rw [chainCands, chainCands]
    split
    · rfl
    · match hcw : capWordG (spanL isSpaceChar r).2 with
      | none => rfl
      | some (w2, r2) =>
        simp only [List.map_append, List.map_cons, List.map_nil]
        congr 1
        have hassoc : pre ++ g ++ (spanL isSpaceChar r).1 ++ w2 =
            pre ++ (g ++ (spanL isSpaceChar r).1 ++ w2) := by
          simp [List.append_assoc]
        rw [hassoc, show n + k + 1 = n + 1 + k by omega]
        exact ih (g ++ (spanL isSpaceChar r).1 ++ w2) r2 (n + 1)

theorem isCapWord_len {w : List Char} (h : IsCapWord w) : 2 ≤ w.length := by
  obtain ⟨c, t, rfl, _, htne, _⟩ := h
  simp only [List.length_cons]
  match t, htne with
  | _ :: _, _ => simp

theorem chainCands_fuel_irrel : ∀ (fuel fuel' : Nat) (g r : List Char) (n : Nat),
    r.length ≤ fuel → r.length ≤ fuel' →
    chainCands fuel g r n = chainCands fuel' g r n := by
  intro fuel
  induction fuel with
  | zero =>
    intro fuel' g r n h h'
    have : r = [] := List.length_eq_zero.mp (Nat.le_zero.mp h)
    subst this
    match fuel' with
    | 0 => rfl
    | Nat.succ fl => simp [chainCands, spanL]
  | succ fl ih =>
    intro fuel' g r n h h'
    match fuel' with
    | 0 =>
      have : r = [] := List.length_eq_zero.mp (Nat.le_zero.mp h')
      subst this
      simp [chainCands, spanL]
    | Nat.succ fl' =>
      by_cases hsp : (spanL isSpaceChar r).1.isEmpty
      · rw [chainCands, chainCands, if_pos hsp, if_pos hsp]
      · rw [chainCands, chainCands, if_neg hsp, if_neg hsp]
        match hcw : capWordG (spanL isSpaceChar r).2 with
        | none => simp only [hcw]
        | some (w2, r2) =>
          simp only [hcw]
          congr 1
          have hsp' := spanL_eq_append isSpaceChar r
          obtain ⟨hcap, heq⟩ := capWordG_sound hcw
          have hws' : 1 ≤ (spanL isSpaceChar r).1.length := by
            match hsp1 : (spanL isSpaceChar r).1 with
            | [] => rw [hsp1] at hsp; simp at hsp
            | _ :: _ => simp
          have h2len : (spanL isSpaceChar r).2.length = w2.length + r2.length := by
            rw [← heq]
            simp
          have hlen : r.length =
              (spanL isSpaceChar r).1.length + (spanL isSpaceChar r).2.length := by
            conv_lhs => rw [← hsp']
            exact List.length_append _ _
          have hw2 : 2 ≤ w2.length := isCapWord_len hcap
          exact ih fl' (g ++ (spanL isSpaceChar r).1 ++ w2) r2 (n + 1)
            (by omega) (by omega)

theorem capChain_head {g : List Char} {n : Nat} (h : CapChain g n) :
    ∃ c t, g = c :: t ∧ isUpperAZ c = true := by
  induction h with
  | one w hw =>
    obtain ⟨c, t, rfl, hup, _, _⟩ := hw
    exact ⟨c, t, rfl, hup⟩
  | more w u rest m hw _ _ _ =>
    obtain ⟨c, t, rfl, hup, _, _⟩ := hw
    exact ⟨c, t ++ u ++ rest, by simp, hup⟩

theorem space_char_props {d : Char} (hd : isSpaceChar d = true) :
    (d == '\x27') = false ∧ (d == 's') = false ∧ isLowerAZ d = false ∧
      isUpperAZ d = false := by
  simp only [isSpaceChar, Bool.or_eq_true, beq_iff_eq] at hd
  have hd' : d = ' ' ∨ d = '\t' ∨ d = '\n' ∨ d = '\r' ∨ d = '\x0b' ∨ d = '\x0c' := by
    tauto
  rcases hd' with h | h | h | h | h | h <;> subst h <;> decide

theorem capWordG_complete {w : List Char} (hw : IsCapWord w) (rest : List Char) :
    capWordG (w ++ rest) =
      some (w ++ (spanL isLowerAZ rest).1, (spanL isLowerAZ rest).2) := by
  obtain ⟨c, t, rfl, hup, htne, htlow⟩ := hw
  simp only [List.cons_append, capWordG, hup, if_pos]
  rw [spanL_all_append isLowerAZ htlow rest]
  have hne : ((t ++ (spanL isLowerAZ rest).1).isEmpty) = false := by
    match t, htne with
    | _ :: _, _ => rfl
  simp [hne]

/-- The alternatives have non-space, non-lowercase-eating heads and are
members of `possAltsDetect`. -/
theorem alt_head_props {a : List Char}
    (ha : a = "info".data ∨ a = "detail".data ∨ a = "profile".data) :
    ∃ c t, a = c :: t ∧ isSpaceChar c = false ∧ isLowerAZ c = true := by
  rcases ha with h | h | h <;> subst h
  · exact ⟨'i', _, rfl, by decide, by decide⟩
  · exact ⟨'d', _, rfl, by decide, by decide⟩
  · exact ⟨'p', _, rfl, by decide, by decide⟩

theorem any_alt {a post : List Char}
    (ha : a = "info".data ∨ a = "detail".data ∨ a = "profile".data) :
    (possAltsDetect.any (fun s => startsWithL s.data (a ++ post))) = true := by
  rw [List.any_eq_true]
  rcases ha with h | h | h <;> subst h
  · exact ⟨"info", by simp [possAltsDetect], startsWithL_append_self _ _⟩
  · exact ⟨"detail", by simp [possAltsDetect], startsWithL_append_self _ _⟩
  · exact ⟨"profile", by simp [possAltsDetect], startsWithL_append_self _ _⟩

theorem tailMatch_complete {mk u a post : List Char}
    (hmk : mk = [] ∨ mk = ['\x27'] ∨ mk = ['\x27', 's'])
    (hu : IsWs u) (ha : a = "info".data ∨ a = "detail".data ∨ a = "profile".data) :
    tailMatch possAltsDetect true (mk ++ u ++ a ++ post) = true := by
  obtain ⟨hune, husp⟩ := hu
  obtain ⟨d, u', rfl⟩ : ∃ d u', u = d :: u' := by
    match u, hune with
    | d :: u', _ => exact ⟨d, u', rfl⟩
  have hd := husp d (List.mem_cons_self _ _)
  obtain ⟨hd1, hd2, _, _⟩ := space_char_props hd
  have hspan : spanL isSpaceChar ((d :: u') ++ (a ++ post)) =
      ((d :: u') ++ (spanL isSpaceChar (a ++ post)).1, (spanL isSpaceChar (a ++ post)).2) :=
    spanL_all_append isSpaceChar husp (a ++ post)
  obtain ⟨c0, t0, ha0, hc0sp, _⟩ := alt_head_props ha
  have hspan2 : spanL isSpaceChar (a ++ post) = ([], a ++ post) := by
    rw [ha0]
    exact spanL_cons_neg isSpaceChar hc0sp _
  have hkey : (!(spanL isSpaceChar ((d :: u') ++ (a ++ post))).1.isEmpty) = true ∧
      (possAltsDetect.any
        (fun s => startsWithL s.data (spanL isSpaceChar ((d :: u') ++ (a ++ post))).2)) = true := by
    rw [hspan, hspan2]
    exact ⟨rfl, any_alt ha⟩
  rcases hmk with h | h | h <;> subst h
  · show tailMatch possAltsDetect true ((d :: u') ++ a ++ post) = true
    simp only [tailMatch, if_true]
    have hskip1 : skipOpt '\x27' ((d :: u') ++ a ++ post) = (d :: u') ++ a ++ post := by
      simp [skipOpt, hd1]
    have hskip2 : skipOpt 's' ((d :: u') ++ a ++ post) = (d :: u') ++ a ++ post := by
      simp [skipOpt, hd2]
    rw [hskip1, hskip2, Bool.and_eq_true, List.append_assoc]
    exact hkey
  · show tailMatch possAltsDetect true (['\x27'] ++ (d :: u') ++ a ++ post) = true
    simp only [tailMatch, if_true]
    have hskip1 : skipOpt '\x27' (['\x27'] ++ (d :: u') ++ a ++ post) =
        (d :: u') ++ a ++ post := by
      simp [skipOpt]
    have hskip2 : skipOpt 's' ((d :: u') ++ a ++ post) = (d :: u') ++ a ++ post := by
      simp [skipOpt, hd2]
    rw [hskip1, hskip2, Bool.and_eq_true, List.append_assoc]
    exact hkey
  · show tailMatch possAltsDetect true (['\x27', 's'] ++ (d :: u') ++ a ++ post) = true
    simp only [tailMatch, if_true]
    have hskip1 : skipOpt '\x27' (['\x27', 's'] ++ (d :: u') ++ a ++ post) =
        ['s'] ++ (d :: u') ++ a ++ post := by
      simp [skipOpt]
    have hskip2 : skipOpt 's' (['s'] ++ (d :: u') ++ a ++ post) = (d :: u') ++ a ++ post := by
      simp [skipOpt]
    rw [hskip1, hskip2, Bool.and_eq_true, List.append_assoc]
    exact hkey

theorem findSome?_isSome_of_mem {α β : Type} {f : α → Option β} {l : List α} {x : α}
    (hm : x ∈ l) (hf : (f x).isSome = true) : (l.findSome? f).isSome = true := by
  rw [Option.isSome_iff_exists] at hf
  obtain ⟨y, hy⟩ := hf
  exact findSome?_of_mem hm hy

/-- After a capitalized-word chain, a `TailShape` remainder makes
`possAt` succeed: the greedy word run absorbs at most a marker `s`, the
base (or an extended) candidate of the star survives, and the tail
check accepts. -/
theorem possAt_complete : ∀ {g : List Char} {n : Nat}, CapChain g n →
    ∀ {S : List Char}, TailShape S →
    (possAt possAltsDetect true 1 (g ++ S)).isSome = true := by
  intro g n hg
  induction hg with
  | one w hw =>
    intro S hS
    obtain ⟨mk, u, a, post, rfl, hmk, hu, ha⟩ := hS
    obtain ⟨d, u', rfl⟩ : ∃ d u', u = d :: u' := by
      match u, hu.1 with
      | d :: u', _ => exact ⟨d, u', rfl⟩
    have hd := hu.2 d (List.mem_cons_self _ _)
    obtain ⟨_, _, hdlow, _⟩ := space_char_props hd
    rcases hmk with h | h | h | h <;> subst h <;>
      simp only [List.nil_append, List.cons_append, List.append_assoc]
    · have hcw : capWordG (w ++ (d :: (u' ++ (a ++ post)))) =
          some (w, d :: (u' ++ (a ++ post))) := by
        rw [capWordG_complete hw _, spanL_cons_neg isLowerAZ hdlow]
        simp
      have htail : tailMatch possAltsDetect true (d :: (u' ++ (a ++ post))) = true := by
        have := @tailMatch_complete [] (d :: u') a post (Or.inl rfl) hu ha
        simpa using this
      simp only [possAt, hcw]
      apply findSome?_isSome_of_mem (chainCands_base _ _ _ _)
      simp [htail]
    · have hcw : capWordG (w ++ ('\x27' :: (d :: (u' ++ (a ++ post))))) =
          some (w, '\x27' :: (d :: (u' ++ (a ++ post)))) := by
        rw [capWordG_complete hw _, spanL_cons_neg isLowerAZ (by decide)]
        simp
      have htail : tailMatch possAltsDetect true ('\x27' :: (d :: (u' ++ (a ++ post)))) = true := by
        have := @tailMatch_complete ['\x27'] (d :: u') a post (Or.inr (Or.inl rfl)) hu ha
        simpa using this
      simp only [possAt, hcw]
      apply findSome?_isSome_of_mem (chainCands_base _ _ _ _)
      simp [htail]
    · have hsp : spanL isLowerAZ ('s' :: (d :: (u' ++ (a ++ post)))) =
          (['s'], d :: (u' ++ (a ++ post))) := by
        rw [spanL, if_pos (by decide), spanL_cons_neg isLowerAZ hdlow]
      have hcw : capWordG (w ++ ('s' :: (d :: (u' ++ (a ++ post))))) =
          some (w ++ ['s'], d :: (u' ++ (a ++ post))) := by
        rw [capWordG_complete hw _, hsp]
      have htail : tailMatch possAltsDetect true (d :: (u' ++ (a ++ post))) = true := by
        have := @tailMatch_complete [] (d :: u') a post (Or.inl rfl) hu ha
        simpa using this
      simp only [possAt, hcw]
      apply findSome?_isSome_of_mem (chainCands_base _ _ _ _)
      simp [htail]
    · have hcw : capWordG (w ++ ('\x27' :: ('s' :: (d :: (u' ++ (a ++ post)))))) =
          some (w, '\x27' :: ('s' :: (d :: (u' ++ (a ++ post))))) := by
        rw [capWordG_complete hw _, spanL_cons_neg isLowerAZ (by decide)]
        simp
      have htail : tailMatch possAltsDetect true
          ('\x27' :: ('s' :: (d :: (u' ++ (a ++ post))))) = true := by
        have := @tailMatch_complete ['\x27', 's'] (d :: u') a post (Or.inr (Or.inr rfl)) hu ha
        simpa using this
      simp only [possAt, hcw]
      apply findSome?_isSome_of_mem (chainCands_base _ _ _ _)
      simp [htail]
  | more w u' rest m hw hu' hrest ih =>
    intro S hS
    obtain ⟨du, u₂, rfl⟩ : ∃ du u₂, u' = du :: u₂ := by
      match u', hu'.1 with
      | du :: u₂, _ => exact ⟨du, u₂, rfl⟩
    have hdu := hu'.2 du (List.mem_cons_self _ _)
    obtain ⟨_, _, hdulow, _⟩ := space_char_props hdu
    have hX : w ++ (du :: u₂) ++ rest ++ S = w ++ (du :: (u₂ ++ (rest ++ S))) := by
      simp [List.append_assoc]
    rw [hX]
    -- the first capitalized word: the run stops at the whitespace
    have hcw : capWordG (w ++ (du :: (u₂ ++ (rest ++ S)))) =
        some (w, du :: (u₂ ++ (rest ++ S))) := by
      rw [capWordG_complete hw _, spanL_cons_neg isLowerAZ hdulow]
      simp
    -- destructure the inductive hypothesis on the sub-chain
    have ihS := ih hS
    match hcw1 : capWordG (rest ++ S) with
    | none => rw [possAt, hcw1] at ihS; simp at ihS
    | some (g1, r1) =>
      rw [possAt, hcw1] at ihS
      rw [Option.isSome_iff_exists] at ihS
      obtain ⟨y, hy⟩ := ihS
      obtain ⟨cand, hcmem, hcf⟩ := findSome?_ex hy
      have hcond : (1 ≤ cand.2.2 && tailMatch possAltsDetect true cand.2.1) = true := by
        by_cases hc : (1 ≤ cand.2.2 && tailMatch possAltsDetect true cand.2.1) = true
        · exact hc
        · rw [if_neg hc] at hcf; cases hcf
      -- lengths for the fuel bookkeeping
      obtain ⟨hg1cap, hg1eq⟩ := capWordG_sound hcw1
      have hg1len : 2 ≤ g1.length := isCapWord_len hg1cap
      have hRlen : rest.length + S.length = g1.length + r1.length := by
        have : (rest ++ S).length = (g1 ++ r1).length := by rw [hg1eq]
        simpa using this
      match hfl : (du :: (u₂ ++ (rest ++ S))).length with
      | 0 => simp at hfl
      | Nat.succ fl =>
        have hfl' : u₂.length + rest.length + S.length = fl := by
          simp only [List.length_cons, List.length_append] at hfl
          omega
        have hr1fl : r1.length ≤ fl := by omega
        -- the whitespace span at the head of the remainder
        have hspansp : spanL isSpaceChar (du :: (u₂ ++ (rest ++ S))) =
            (du :: u₂, rest ++ S) := by
          obtain ⟨ch, ct, hrh, hup⟩ := capChain_head hrest
          have hne : spanL isSpaceChar (rest ++ S) = ([], rest ++ S) := by
            rw [hrh, List.cons_append]
            refine spanL_cons_neg isSpaceChar ?_ _
            rcases hsp : isSpaceChar ch with _ | _
            · rfl
            · obtain ⟨_, _, _, hupf⟩ := space_char_props hsp
              rw [hupf] at hup
              cases hup
          have := spanL_all_append isSpaceChar hu'.2 (rest ++ S)
          simp only [List.cons_append] at this
          rw [this, hne, List.append_nil]
        -- unfold one step of the candidate chain
        have hchain : chainCands (Nat.succ fl) w (du :: (u₂ ++ (rest ++ S))) 1 =
            chainCands fl (w ++ (du :: u₂) ++ g1) r1 2 ++
              [(w, du :: (u₂ ++ (rest ++ S)), 1)] := by
          rw [chainCands, hspansp]
          rw [if_neg (by simp)]
          rw [hcw1]
        simp only [possAt, hcw]
        rw [hfl, hchain]
        -- the shifted candidate from the sub-chain is in the extended chain
        have hshift : chainCands fl (w ++ (du :: u₂) ++ g1) r1 2 =
            (chainCands fl g1 r1 1).map
              (fun gc => ((w ++ (du :: u₂)) ++ gc.1, gc.2.1, gc.2.2 + 1)) := by
          have hasc : w ++ (du :: u₂) ++ g1 = (w ++ (du :: u₂)) ++ g1 := by
            simp [List.append_assoc]
          rw [hasc, show (2 : Nat) = 1 + 1 from rfl]
          exact chainCands_shift (w ++ (du :: u₂)) 1 fl g1 r1 1
        have hfuel : chainCands fl g1 r1 1 = chainCands r1.length g1 r1 1 :=
          chainCands_fuel_irrel fl r1.length g1 r1 1 hr1fl (Nat.le_refl _)
        have hmem' : ((w ++ (du :: u₂)) ++ cand.1, cand.2.1, cand.2.2 + 1) ∈
            chainCands fl (w ++ (du :: u₂) ++ g1) r1 2 := by
          rw [hshift, hfuel]
          exact List.mem_map.mpr ⟨cand, hcmem, rfl⟩
        apply findSome?_isSome_of_mem (List.mem_append_left _ hmem')
        have h1 : (1 ≤ cand.2.2 + 1 && tailMatch possAltsDetect true cand.2.1) = true := by
          rw [Bool.and_eq_true] at hcond ⊢
          exact ⟨by simp, hcond.2⟩
        simp only [h1, if_pos]
        rfl

theorem searchPoss_complete : ∀ (pre X : List Char),
    (possAt possAltsDetect true 1 X).isSome = true →
    (searchPoss possAltsDetect true 1 (pre ++ X)).isSome = true := by
  intro pre
  induction pre with
  | nil =>
    intro X h
    match X with
    | [] => simp [possAt, capWordG] at h
    | c :: t =>
      rw [Option.isSome_iff_exists] at h
      obtain ⟨y, hy⟩ := h
      simp only [List.nil_append, searchPoss, hy]
      rfl
  | cons c pre' ih =>
    intro X h
    simp only [List.cons_append, searchPoss]
    match hp : possAt possAltsDetect true 1 (c :: (pre' ++ X)) with
    | some g => rfl
    | none => exact ih X h

/-- Completeness half of C7 (amended): the declarative decomposition
makes the regex matcher succeed. -/
theorem has_possessive_complete {q : String} (h : AmendedPossessive q) :
    has_possessive q = true := by
  obtain ⟨pre, g, n, mk, u, a, post, hdec, hchain, _, hmk, hu, ha⟩ := h
  have hshape : TailShape (mk ++ u ++ a ++ post) :=
    ⟨mk, u, a, post, rfl, hmk, hu, ha⟩
  have hq : q.data = pre ++ (g ++ (mk ++ u ++ a ++ post)) := by
    rw [hdec]
    simp [List.append_assoc]
  rw [has_possessive, hq]
  exact searchPoss_complete pre _ (possAt_complete hchain hshape)

theorem capChain_upper_count {g : List Char} {n : Nat} (h : CapChain g n) :
    n ≤ (g.filter isUpperAZ).length := by
  induction h with
  | one w hw =>
    obtain ⟨c, t, rfl, hup, _, _⟩ := hw
    simp [List.filter, hup]
  | more w u rest m hw hu hrest ih =>
    have hsplit : ((w ++ u ++ rest).filter isUpperAZ).length =
        (w.filter isUpperAZ).length + (u.filter isUpperAZ).length +
          (rest.filter isUpperAZ).length := by
      simp [List.filter_append]
      omega
    have hw1 : 1 ≤ (w.filter isUpperAZ).length := by
      obtain ⟨c, t, rfl, hup, _, _⟩ := hw
      simp [List.filter, hup]
    omega

theorem claimPossessive_two_uppers {q : String} (h : ClaimPossessive q) :
    2 ≤ (q.data.filter isUpperAZ).length := by
  obtain ⟨pre, g, n, mk, u, a, post, hdec, hchain, hn, _, _, _⟩ := h
  have hg := capChain_upper_count hchain
  rw [hdec]
  simp only [List.filter_append, List.length_append]
  omega

/-- C7, counterexample: the query `"Alice info"` contains only a single
capitalized word with no `'s`/`s` marker (its single uppercase letter
rules out any two-capitalized-word possessive shape), yet
`detect_intent` adds the +2 possessive bonus: the regex makes both every
additional capitalized word and the whole possessive marker optional, so
the member-lookup score becomes 1 + 2 = 3. -/
theorem C7_counterexample :
    has_possessive "Alice info" = true ∧
    detect_intent "Alice info" = (.member_lookup, 3) ∧
    ¬ ClaimPossessive "Alice info" := by
  refine ⟨by decide, by decide, fun h => ?_⟩
  have h2 := claimPossessive_two_uppers h
  have h1 : (("Alice info".data).filter isUpperAZ).length = 1 := by decide
  omega

/-- C7, amended: `detect_intent` adds the possessive-name bonus (the +2
on the member-lookup score, decided by `has_possessive`) exactly when
the query contains one or more consecutive capitalized words, optionally
followed by an apostrophe, optionally by `s`, then whitespace and one of
the info words `info`, `detail`(`s`), `profile` — both the additional
capitalized words and the possessive marker are optional. -/
theorem C7_possessive_bonus_iff (q : String) :
    has_possessive q = true ↔ AmendedPossessive q :=
  ⟨has_possessive_sound, has_possessive_complete⟩

/-- C8, counterexample: `PLURAL_TO_SINGULAR` maps both `"checkins"` and
`"check-ins"` to `"checkin"`, so the dict comprehension building
`SINGULAR_TO_PLURAL` overwrites: `"checkin"` maps to `"check-ins"`, not
back to `"checkins"` — the two maps are not mutually inverse and
composing them sends the plural key `"checkins"` to `"check-ins"`. -/
theorem C8_counterexample :
    ("checkins", "checkin") ∈ PLURAL_TO_SINGULAR ∧
    ("check-ins", "checkin") ∈ PLURAL_TO_SINGULAR ∧
    dictGet? SINGULAR_TO_PLURAL "checkin" = some "check-ins" ∧
    ¬ dictGet? SINGULAR_TO_PLURAL "checkin" = some "checkins" := by
  refine ⟨by decide, by decide, by decide, by decide⟩

/-- C8, amended: `SINGULAR_TO_PLURAL` is the inverse of
`PLURAL_TO_SINGULAR` except at the one value collision: for every pair
`(p, s)` of the plural→singular table with `p ≠ "checkins"`, the
singular→plural table maps `s` back to `p`; every entry of the
singular→plural table arises from a plural→singular entry; and the
collision value `"checkin"` maps to `"check-ins"`, the later of the two
plural keys sharing it. -/
theorem C8_inverse_except_checkins :
    (∀ pr ∈ PLURAL_TO_SINGULAR, pr.1 ≠ "checkins" →
      dictGet? SINGULAR_TO_PLURAL pr.2 = some pr.1) ∧
    (∀ pr ∈ SINGULAR_TO_PLURAL, (pr.2, pr.1) ∈ PLURAL_TO_SINGULAR) ∧
    dictGet? SINGULAR_TO_PLURAL "checkin" = some "check-ins" := by
  refine ⟨by decide, by decide, by decide⟩

/-- C8 witness: the amended inverse property applied at the entry
`("members", "member")`. -/
theorem C8_inverse_except_checkins_witness :
    dictGet? SINGULAR_TO_PLURAL "member" = some "members" :=
  C8_inverse_except_checkins.1 ("members", "member") (by decide) (by decide)

theorem mem_setAdd_self (acc : List String) (x : String) : x ∈ setAdd acc x := by
  rw [setAdd]
  split
  · rename_i h
    exact List.mem_of_elem_eq_true h
  · simp

theorem mem_setAdd_mono {acc : List String} {y : String} (x : String)
    (h : y ∈ acc) : y ∈ setAdd acc x := by
  rw [setAdd]
  split
  · exact h
  · exact List.mem_append_left _ h

theorem mem_setAdd_cases {acc : List String} {x y : String}
    (h : y ∈ setAdd acc x) : y ∈ acc ∨ y = x := by
  rw [setAdd] at h
  split at h
  · exact Or.inl h
  · rcases List.mem_append.mp h with h1 | h1
    · exact Or.inl h1
    · exact Or.inr (List.mem_singleton.mp h1)

theorem setAdd_nodup {acc : List String} (x : String) (h : acc.Nodup) :
    (setAdd acc x).Nodup := by
  rw [setAdd]
  split
  · exact h
  · rename_i hc
    have hx : x ∉ acc := fun hm => hc (List.elem_eq_true_of_mem hm)
    simpa [List.nodup_append] using ⟨h, hx⟩

theorem addIfSome_mono {acc : List String} {y : String} (o : Option String)
    (h : y ∈ acc) : y ∈ addIfSome acc o := by
  cases o with
  | none => exact h
  | some x => exact mem_setAdd_mono _ h

theorem addIfSome_cases {acc : List String} {o : Option String} {y : String}
    (h : y ∈ addIfSome acc o) : y ∈ acc ∨ o = some y := by
  cases o with
  | none => exact Or.inl h
  | some x =>
    rcases mem_setAdd_cases h with h1 | h1
    · exact Or.inl h1
    · exact Or.inr (by rw [h1])

theorem addIfSome_nodup {acc : List String} (o : Option String) (h : acc.Nodup) :
    (addIfSome acc o).Nodup := by
  cases o with
  | none => exact h
  | some x => exact setAdd_nodup _ h

theorem foldl_setAdd_img_cases (g : String → String) :
    ∀ (vs : List String) (a : List String) {y : String},
    y ∈ vs.foldl (fun b v => setAdd b (g v)) a → y ∈ a ∨ ∃ v ∈ vs, y = g v := by
  intro vs
  induction vs with
  | nil => intro a y h; exact Or.inl h
  | cons v vs ih =>
    intro a y h
    rw [List.foldl_cons] at h
    rcases ih _ h with h1 | ⟨v', hv1, hv2⟩
    · rcases mem_setAdd_cases h1 with h2 | h2
      · exact Or.inl h2
      · exact Or.inr ⟨v, List.mem_cons_self _ _, h2⟩
    · exact Or.inr ⟨v', List.mem_cons_of_mem _ hv1, hv2⟩

theorem foldl_setAdd_img_mono (g : String → String) :
    ∀ (vs : List String) (a : List String) {y : String},
    y ∈ a → y ∈ vs.foldl (fun b v => setAdd b (g v)) a := by
  intro vs
  induction vs with
  | nil => intro a y h; exact h
  | cons v vs ih =>
    intro a y h
    rw [List.foldl_cons]
    exact ih _ (mem_setAdd_mono _ h)

theorem foldl_setAdd_img_nodup (g : String → String) :
    ∀ (vs : List String) (a : List String), a.Nodup →
    (vs.foldl (fun b v => setAdd b (g v)) a).Nodup := by
  intro vs
  induction vs with
  | nil => intro a h; exact h
  | cons v vs ih =>
    intro a h
    rw [List.foldl_cons]
    exact ih _ (setAdd_nodup _ h)

theorem addVariations_mono {words : List String} {i : Nat} {acc : List String}
    {y : String} (h : y ∈ acc) : y ∈ addVariations words i acc := by
  cases hv : variationsGet? (words.getD i "") with
  | none =>
    rw [addVariations, hv]
    exact h
  | some vs =>
    rw [addVariations, hv]
    exact foldl_setAdd_img_mono _ vs _ h

theorem addVariations_cases {words : List String} {i : Nat} {acc : List String}
    {y : String} (h : y ∈ addVariations words i acc) :
    y ∈ acc ∨ ∃ vs, variationsGet? (words.getD i "") = some vs ∧
      ∃ v ∈ vs, y = joinWsS (words.set i v) := by
  rw [addVariations] at h
  cases hv : variationsGet? (words.getD i "") with
  | none => rw [hv] at h; exact Or.inl h
  | some vs =>
    rw [hv] at h
    rcases foldl_setAdd_img_cases _ vs _ h with h1 | ⟨v, hv1, hv2⟩
    · exact Or.inl h1
    · exact Or.inr ⟨vs, rfl, v, hv1, hv2⟩

theorem addVariations_nodup {words : List String} {i : Nat} {acc : List String}
    (h : acc.Nodup) : (addVariations words i acc).Nodup := by
  rw [addVariations]
  cases hv : variationsGet? (words.getD i "") with
  | none => exact h
  | some vs => exact foldl_setAdd_img_nodup _ vs _ h

theorem dictGet?_mem {d : List (String × String)} {k v : String}
    (h : dictGet? d k = some v) : (k, v) ∈ d := by
  rw [dictGet?] at h
  match hf : d.find? (fun e => e.1 == k) with
  | none => rw [hf] at h; cases h
  | some e =>
    rw [hf] at h
    have hmem := List.mem_of_find?_eq_some hf
    have hp := List.find?_some hf
    simp only [beq_iff_eq] at hp
    cases h
    have he : e = (k, e.2) := by
      rw [Prod.ext_iff]
      exact ⟨hp, rfl⟩
    rwa [← he]

theorem variationsGet?_mem {k : String} {vs : List String}
    (h : variationsGet? k = some vs) : (k, vs) ∈ WORD_VARIATIONS := by
  rw [variationsGet?] at h
  match hf : WORD_VARIATIONS.find? (fun e => e.1 == k) with
  | none => rw [hf] at h; cases h
  | some e =>
    rw [hf] at h
    have hmem := List.mem_of_find?_eq_some hf
    have hp := List.find?_some hf
    simp only [beq_iff_eq] at hp
    cases h
    have he : e = (k, e.2) := by
      rw [Prod.ext_iff]
      exact ⟨hp, rfl⟩
    rwa [← he]

theorem variant_ne {w v : String} (h : VariantOf w v) : v ≠ w := by
  have t1 : ∀ pr ∈ SINGULAR_TO_PLURAL, ¬ pr.2 = pr.1 := by decide
  have t2 : ∀ pr ∈ PLURAL_TO_SINGULAR, ¬ pr.2 = pr.1 := by decide
  have t3 : ∀ pr ∈ WORD_VARIATIONS, ¬ pr.1 ∈ pr.2 := by decide
  rcases h with h | h | ⟨vs, h, hv⟩
  · exact t1 (w, v) (dictGet?_mem h)
  · exact t2 (w, v) (dictGet?_mem h)
  · intro hvw
    subst hvw
    exact t3 (v, vs) (variationsGet?_mem h) hv

theorem expandWordAt_mono {words acc : List String} {i : Nat} {y : String}
    (h : y ∈ acc) : y ∈ expandWordAt words acc i :=
  addVariations_mono (addIfSome_mono _ (addIfSome_mono _ h))

theorem expandWordAt_cases {words acc : List String} {i : Nat} {y : String}
    (h : y ∈ expandWordAt words acc i) :
    y ∈ acc ∨ ∃ v, VariantOf (words.getD i "") v ∧ y = joinWsS (words.set i v) := by
  rw [expandWordAt] at h
  rcases addVariations_cases h with h1 | ⟨vs, hvs, v, hv, hy⟩
  · rcases addIfSome_cases h1 with h2 | h2
    · rcases addIfSome_cases h2 with h3 | h3
      · exact Or.inl h3
      · rcases Option.map_eq_some'.mp h3 with ⟨pl, hpl, hy⟩
        exact Or.inr ⟨pl, Or.inl hpl, hy.symm⟩
    · rcases Option.map_eq_some'.mp h2 with ⟨sg, hsg, hy⟩
      exact Or.inr ⟨sg, Or.inr (Or.inl hsg), hy.symm⟩
  · exact Or.inr ⟨v, Or.inr (Or.inr ⟨vs, hvs, hv⟩), hy⟩

theorem expandWordAt_nodup {words acc : List String} {i : Nat}
    (h : acc.Nodup) : (expandWordAt words acc i).Nodup :=
  addVariations_nodup (addIfSome_nodup _ (addIfSome_nodup _ h))

theorem foldl_expandWordAt_mono (words : List String) :
    ∀ (is : List Nat) (acc : List String) {y : String},
    y ∈ acc → y ∈ is.foldl (expandWordAt words) acc := by
  intro is
  induction is with
  | nil => intro a y h; exact h
  | cons i is ih =>
    intro a y h
    rw [List.foldl_cons]
    exact ih _ (expandWordAt_mono h)

theorem foldl_expandWordAt_cases (words : List String) :
    ∀ (is : List Nat) (acc : List String) {y : String},
    y ∈ is.foldl (expandWordAt words) acc →
    y ∈ acc ∨ ∃ i ∈ is, ∃ v, VariantOf (words.getD i "") v ∧
      y = joinWsS (words.set i v) := by
  intro is
  induction is with
  | nil => intro a y h; exact Or.inl h
  | cons i is ih =>
    intro a y h
    rw [List.foldl_cons] at h
    rcases ih _ h with h1 | ⟨i', hi1, v, hv, hy⟩
    · rcases expandWordAt_cases h1 with h2 | ⟨v, hv, hy⟩
      · exact Or.inl h2
      · exact Or.inr ⟨i, List.mem_cons_self _ _, v, hv, hy⟩
    · exact Or.inr ⟨i', List.mem_cons_of_mem _ hi1, v, hv, hy⟩

theorem foldl_expandWordAt_nodup (words : List String) :
    ∀ (is : List Nat) (acc : List String), acc.Nodup →
    (is.foldl (expandWordAt words) acc).Nodup := by
  intro is
  induction is with
  | nil => intro a h; exact h
  | cons i is ih =>
    intro a h
    rw [List.foldl_cons]
    exact ih _ (expandWordAt_nodup h)

theorem foldl_kw_mono :
    ∀ (kws : List String) (acc : List String) {y : String},
    y ∈ acc → y ∈ kws.foldl
      (fun a kw => (List.range (splitWsS kw).length).foldl (expandWordAt (splitWsS kw)) a)
      acc := by
  intro kws
  induction kws with
  | nil => intro a y h; exact h
  | cons kw kws ih =>
    intro a y h
    rw [List.foldl_cons]
    exact ih _ (foldl_expandWordAt_mono _ _ _ h)

theorem foldl_kw_cases :
    ∀ (kws : List String) (acc : List String) {y : String},
    y ∈ kws.foldl
      (fun a kw => (List.range (splitWsS kw).length).foldl (expandWordAt (splitWsS kw)) a)
      acc →
    y ∈ acc ∨ ∃ kw ∈ kws, OneSub kw y := by
  intro kws
  induction kws with
  | nil => intro a y h; exact Or.inl h
  | cons kw kws ih =>
    intro a y h
    rw [List.foldl_cons] at h
    rcases ih _ h with h1 | ⟨kw', hkw1, hsub⟩
    · rcases foldl_expandWordAt_cases _ _ _ h1 with h2 | ⟨i, hi, v, hv, hy⟩
      · exact Or.inl h2
      · refine Or.inr ⟨kw, List.mem_cons_self _ _, i, v, List.mem_range.mp hi, hv, variant_ne hv, hy⟩
    · exact Or.inr ⟨kw', List.mem_cons_of_mem _ hkw1, hsub⟩

theorem foldl_kw_nodup :
    ∀ (kws : List String) (acc : List String), acc.Nodup →
    (kws.foldl
      (fun a kw => (List.range (splitWsS kw).length).foldl (expandWordAt (splitWsS kw)) a)
      acc).Nodup := by
  intro kws
  induction kws with
  | nil => intro a h; exact h
  | cons kw kws ih =>
    intro a h
    rw [List.foldl_cons]
    exact ih _ (foldl_expandWordAt_nodup _ _ _ h)

theorem foldl_setAdd_mem_iff :
    ∀ (l a : List String) (y : String), y ∈ l.foldl setAdd a ↔ y ∈ a ∨ y ∈ l := by
  intro l
  induction l with
  | nil => intro a y; simp
  | cons x l ih =>
    intro a y
    rw [List.foldl_cons, ih]
    constructor
    · rintro (h | h)
      · rcases mem_setAdd_cases h with h | h
        · exact Or.inl h
        · exact Or.inr (h ▸ List.mem_cons_self _ _)
      · exact Or.inr (List.mem_cons_of_mem _ h)
    · rintro (h | h)
      · exact Or.inl (mem_setAdd_mono _ h)
      · rcases List.mem_cons.mp h with h | h
        · subst h; exact Or.inl (mem_setAdd_self _ _)
        · exact Or.inr h

theorem foldl_setAdd_nodup :
    ∀ (l a : List String), a.Nodup → (l.foldl setAdd a).Nodup := by
  intro l
  induction l with
  | nil => intro a h; exact h
  | cons x l ih =>
    intro a h
    rw [List.foldl_cons]
    exact ih _ (setAdd_nodup _ h)

/-- **C10.** `expand_keywords` returns a duplicate-free collection that
contains every input keyword unchanged, and every other returned element
is obtained from an input keyword by replacing exactly one word position
with that word\x27s plural form, singular form, or a listed variation —
never substitutions at two or more positions. -/
theorem C10_expand_keywords_shape (keywords : List String) :
    (expand_keywords keywords).Nodup ∧
    (∀ k ∈ keywords, k ∈ expand_keywords keywords) ∧
    (∀ e ∈ expand_keywords keywords, e ∈ keywords ∨ ∃ kw ∈ keywords, OneSub kw e) := by
  refine ⟨?_, ?_, ?_⟩
  · exact foldl_kw_nodup _ _ (foldl_setAdd_nodup _ _ List.nodup_nil)
  · intro k hk
    exact foldl_kw_mono _ _ ((foldl_setAdd_mem_iff _ _ _).mpr (Or.inr hk))
  · intro e he
    rw [expand_keywords] at he
    rcases foldl_kw_cases _ _ he with h | h
    · exact Or.inl (((foldl_setAdd_mem_iff _ _ _).mp h).resolve_left (List.not_mem_nil e))
    · exact Or.inr h

/-- `C10_expand_keywords_shape` applied at a concrete keyword list. -/
theorem C10_expand_keywords_shape_witness :
    "member info" ∈ expand_keywords ["member info"] :=
  (C10_expand_keywords_shape ["member info"]).2.1 "member info" (by decide)

set_option maxRecDepth 100000 in
/-- **C4**, counterexample: the query `"overview"` misses the FAQ and is
classified `informational`, so `chat` never consults the router even
though the router would match it (the summary rule); it goes to the AI
backend although the router is not unmatched. -/
theorem C4_counterexample :
    (find_faq_match "overview").1 = none ∧
    (detect_intent "overview").1 = .informational ∧
    route_query true "overview" = some (.comprehensive_summary "today") ∧
    chat_handler true "overview" = .ai :=
  ⟨by decide, by decide, by decide, by decide⟩

/-- **C4**, amended: the FAQ fast path is consulted first and is
terminal on a non-null answer; a query that misses the FAQ is routed
only when its detected intent is analytical, operational or
member_lookup, and routing is then terminal on a match; the AI backend
is reached exactly when the FAQ misses and either the intent is not a
business intent (so the router is never consulted) or the router
returns no match. -/
theorem C4_chat_dispatch (hasOps : Bool) (q : String) :
    (chat_handler hasOps q = .faq ↔ (find_faq_match q).1 ≠ none) ∧
    (chat_handler hasOps q = .tools ↔ (find_faq_match q).1 = none ∧
      (detect_intent q).1 ∈ businessIntents ∧ route_query hasOps q ≠ none) ∧
    (chat_handler hasOps q = .ai ↔ (find_faq_match q).1 = none ∧
      ((detect_intent q).1 ∉ businessIntents ∨ route_query hasOps q = none)) := by
  unfold chat_handler
  cases hf : (find_faq_match q).1 with
  | some a => simp
  | none =>
    by_cases hb : (detect_intent q).1 ∈ businessIntents
    · rw [if_pos (List.elem_iff.mpr hb)]
      cases hr : route_query hasOps q with
      | some r => simp [hb, hr]
      | none => simp [hb, hr]
    · rw [if_neg (fun hc => hb (List.elem_iff.mp hc))]
      simp [hb]

set_option maxRecDepth 100000 in
/-- **C5**, counterexample: the normalized query contains
`"confirm payment"` and carries a well-formed reference token, but the
earlier revenue rule matches the word `"income"` first, so the router
returns the revenue report, not the payment confirmation. -/
theorem C5_counterexample :
    containsS "confirm payment"
      (normalize_query "income confirm payment PAY-20251122-123456") = true ∧
    extract_payment_ref "income confirm payment PAY-20251122-123456" =
      some "PAY-20251122-123456" ∧
    route_query true "income confirm payment PAY-20251122-123456" =
      some (.revenue_report "today") :=
  ⟨by decide, by decide, by decide⟩

/-- **C5**, amended: provided none of the six earlier router rules
(revenue, growth, attendance, retention, plan popularity, pending
payments) fires, a normalized query containing `"confirm payment"`
routes to the payment-confirmation tool with the extracted
`PAY-\d\x7b8\x7d-\d\x7b6\x7d` token when one is present, and otherwise to a
clarification response asking for a reference number — never to the
unmatched sentinel. -/
theorem C5_confirm_payment_route (hasOps : Bool) (q : String)
    (h1 : revenue_trigger q = false) (h2 : growth_trigger q = false)
    (h3 : attendance_trigger q = false) (h4 : retention_trigger q = false)
    (h5 : plan_trigger q = false) (h6 : pending_trigger q = false)
    (h7 : containsS "confirm payment" (normalize_query q) = true) :
    route_query hasOps q =
      (match extract_payment_ref q with
       | some ref => some (.confirm_payment ref)
       | none => some (.clarify "Please provide a payment reference number (e.g., PAY-20231201-123456)")) := by
  unfold route_query
  simp [h1, h2, h3, h4, h5, h6, h7]

set_option maxRecDepth 100000 in
/-- `C5_confirm_payment_route` applied at the concrete query
`"confirm payment PAY-20251122-123456"`. -/
theorem C5_confirm_payment_route_witness :
    route_query true "confirm payment PAY-20251122-123456" =
      some (.confirm_payment "PAY-20251122-123456") :=
  (C5_confirm_payment_route true "confirm payment PAY-20251122-123456"
    (by decide) (by decide) (by decide) (by decide) (by decide) (by decide)
    (by decide)).trans (by decide)

set_option maxRecDepth 100000 in
/-- **C6**, counterexample: `"sale attendance summary"` satisfies both
the attendance trigger and the summary trigger, yet the router selects
neither group: the still-earlier revenue rule matches `"sale"` first. -/
theorem C6_counterexample :
    attendance_trigger "sale attendance summary" = true ∧
    containsS "summary" (lowerS "sale attendance summary") = true ∧
    route_query true "sale attendance summary" = some (.revenue_report "today") :=
  ⟨by decide, by decide, by decide⟩

/-- **C6**, amended: provided the two rules before the attendance rule
(revenue, growth) do not fire, a query satisfying the attendance
trigger — in particular one also satisfying the later summary trigger —
routes inside the attendance group, to today\x27s check-ins or to the
attendance report, and never to the comprehensive summary. -/
theorem C6_attendance_before_summary (hasOps : Bool) (q : String)
    (h1 : revenue_trigger q = false) (h2 : growth_trigger q = false)
    (h3 : attendance_trigger q = true)
    (h4 : ["summary", "overview", "performance", "dashboard"].any
      (fun kw => containsS kw (lowerS q)) = true) :
    (route_query hasOps q = some .todays_checkins ∨
      route_query hasOps q = some (.attendance_report (extract_period (lowerS q)))) ∧
    ∀ p, route_query hasOps q ≠ some (.comprehensive_summary p) := by
  have hroute : route_query hasOps q =
      (if containsS "today" (lowerS q) || containsS "who checked in" (lowerS q)
       then some Route.todays_checkins
       else some (.attendance_report (extract_period (lowerS q)))) := by
    unfold route_query
    simp [h1, h2, h3]
  constructor
  · rw [hroute]
    by_cases ht : (containsS "today" (lowerS q) || containsS "who checked in" (lowerS q)) = true
    · rw [if_pos ht]; exact Or.inl rfl
    · rw [if_neg ht]; exact Or.inr rfl
  · intro p
    rw [hroute]
    by_cases ht : (containsS "today" (lowerS q) || containsS "who checked in" (lowerS q)) = true
    · rw [if_pos ht]; simp
    · rw [if_neg ht]; simp

set_option maxRecDepth 100000 in
/-- `C6_attendance_before_summary` applied at the concrete query
`"attendance summary today"`. -/
theorem C6_attendance_before_summary_witness :
    route_query true "attendance summary today" = some Route.todays_checkins ∨
    route_query true "attendance summary today" =
      some (.attendance_report (extract_period (lowerS "attendance summary today"))) :=
  (C6_attendance_before_summary true "attendance summary today"
    (by decide) (by decide) (by decide) (by decide)).1

theorem spanL_snd_length_le (f : Char → Bool) (l : List Char) :
    (spanL f l).2.length ≤ l.length := by
  have h := congrArg List.length (spanL_eq_append f l)
  rw [List.length_append] at h
  omega

theorem runsFuel_flatten :
    ∀ (fuel : Nat) (l : List Char), l.length ≤ fuel → (runsFuel fuel l).flatten = l := by
  intro fuel
  induction fuel with
  | zero =>
    intro l hl
    have : l = [] := List.length_eq_zero.mp (Nat.le_zero.mp hl)
    subst this
    rfl
  | succ fuel ih =>
    intro l hl
    match l with
    | [] => rfl
    | c :: t =>
      simp only [runsFuel, List.flatten_cons, List.cons_append]
      have h2 : (spanL (fun d => isWordChar d == isWordChar c) t).2.length ≤ fuel := by
        have := spanL_snd_length_le (fun d => isWordChar d == isWordChar c) t
        simp only [List.length_cons] at hl
        omega
      rw [ih _ h2, spanL_eq_append]

theorem runsFuel_wf :
    ∀ (fuel : Nat) (l : List Char) (prev : Option Bool), l.length ≤ fuel →
      (∀ c t, l = c :: t → neRun prev (isWordChar c) = true) →
      wfB prev (runsFuel fuel l) = true := by
  intro fuel
  induction fuel with
  | zero =>
    intro l prev hl _
    have : l = [] := List.length_eq_zero.mp (Nat.le_zero.mp hl)
    subst this
    rfl
  | succ fuel ih =>
    intro l prev hl hne
    match l with
    | [] => rfl
    | c :: t =>
      simp only [runsFuel, wfB, Bool.and_eq_true]
      refine ⟨⟨⟨by simp, ?_⟩, ?_⟩, ?_⟩
      · rw [List.all_eq_true]
        intro d hd
        rcases List.mem_cons.mp hd with h | h
        · subst h; simp [runWord]
        · have := spanL_one_all (fun d => isWordChar d == isWordChar c) t d h
          simpa [runWord] using this
      · exact hne c t rfl
      · have h2 : (spanL (fun d => isWordChar d == isWordChar c) t).2.length ≤ fuel := by
          have := spanL_snd_length_le (fun d => isWordChar d == isWordChar c) t
          simp only [List.length_cons] at hl
          omega
        refine ih _ _ h2 ?_
        intro d t' hd
        have := spanL_two_head (fun d => isWordChar d == isWordChar c) t d t' hd
        simp only [beq_eq_false_iff_ne, ne_eq] at this
        simp only [neRun, runWord, Bool.not_eq_true', beq_eq_false_iff_ne, ne_eq]
        exact fun h => this h.symm

theorem runs_flatten (l : List Char) : (runs l).flatten = l :=
  runsFuel_flatten l.length l (Nat.le_refl _)

theorem runs_wf (l : List Char) : wfB none (runs l) = true :=
  runsFuel_wf l.length l none (Nat.le_refl _) (fun _ _ _ => rfl)

/-- Scanning a run of non-word characters never matches a pattern that
begins with a word character: the characters are copied and the scan
leaves the run with a non-word flag. -/
theorem subWB_copy_nonword (p s : List Char) (pc : Char) (p' : List Char)
    (hp : p = pc :: p') (hpc : isWordChar pc = true) :
    ∀ (r : List Char) (tail : List Char) (w : Bool), r ≠ [] →
      (∀ c ∈ r, isWordChar c = false) →
      subWB p s w (r ++ tail) = r ++ subWB p s false tail := by
  intro r
  induction r with
  | nil => intro tail w h _; exact absurd rfl h
  | cons c r' ih =>
    intro tail w _ hnw
    have hc : isWordChar c = false := hnw c (List.mem_cons_self _ _)
    rw [List.cons_append, subWB_cons, if_neg]
    · cases r' with
      | nil => simp only [List.nil_append, List.cons_append, hc]
      | cons d r'' =>
        rw [ih tail (isWordChar c) (by simp)
          (fun e he => hnw e (List.mem_cons_of_mem _ he))]
        simp
    · intro hcond
      have hsw := hcond.2.1
      subst hp
      simp only [startsWithL, Bool.and_eq_true, beq_iff_eq] at hsw
      rw [hsw.1] at hpc
      rw [hpc] at hc
      cases hc

/-- Scanning word characters with a word-flag never matches (`\b`
fails): the characters are copied and the flag stays word. -/
theorem subWB_copy_word_flag (p s : List Char) :
    ∀ (r : List Char) (tail : List Char), (∀ c ∈ r, isWordChar c = true) →
      subWB p s true (r ++ tail) = r ++ subWB p s true tail := by
  intro r
  induction r with
  | nil => intro tail _; rfl
  | cons c r' ih =>
    intro tail hw
    have hc : isWordChar c = true := hw c (List.mem_cons_self _ _)
    rw [List.cons_append, subWB_cons, if_neg]
    · rw [hc, ih tail (fun e he => hw e (List.mem_cons_of_mem _ he))]
      simp
    · intro hcond
      cases hcond.2.2.1
  

/-- A word-bounded match at the start of the pattern itself: the
replacement is emitted and the scan resumes after it with a word flag. -/
theorem subWB_match_self (p s : List Char) (tail : List Char) (hp : p ≠ [])
    (htail : headIsWord tail = false) :
    subWB p s false (p ++ tail) = s ++ subWB p s true tail := by
  match p, hp with
  | pc :: p', _ =>
    rw [List.cons_append, subWB_cons, if_pos]
    · have hd : List.drop (pc :: p').length (pc :: (p' ++ tail)) = tail := by
        rw [← List.cons_append]
        exact List.drop_left _ _
      rw [hd]
    · refine ⟨by simp, ?_, rfl, ?_⟩
      · rw [← List.cons_append]
        exact startsWithL_append_self _ _
      · rw [← List.cons_append, List.drop_left]
        exact htail

/-- Peeling a left factor off a successful `startsWithL`: the pattern
begins with the factor and its remainder matches after it. -/
theorem startsWithL_append_split :
    ∀ (a p t : List Char), a.length ≤ p.length → startsWithL p (a ++ t) = true →
      startsWithL (p.drop a.length) t = true ∧ p.take a.length = a := by
  intro a
  induction a with
  | nil => intro p t _ h; exact ⟨h, rfl⟩
  | cons c a' ih =>
    intro p t hlen h
    match p with
    | [] => simp at hlen
    | pc :: p' =>
      simp only [List.cons_append, startsWithL, Bool.and_eq_true, beq_iff_eq] at h
      simp only [List.length_cons] at hlen
      obtain ⟨h1, h2⟩ := ih p' t (Nat.le_of_succ_le_succ hlen) h.2
      simp only [List.length_cons, List.drop_succ_cons, List.take_succ_cons]
      exact ⟨h1, by rw [h2, h.1]⟩

/-- Scanning a complete word run different from an all-word pattern
never matches anywhere in the run (at its start the token comparison
fails, inside it the `\b` flag fails); the run is copied and the flag
ends word. -/
theorem subWB_copy_word_run (p s : List Char)
    (hpw : ∀ c ∈ p, isWordChar c = true)
    (r tail : List Char) (hr : r ≠ []) (hrw : ∀ c ∈ r, isWordChar c = true)
    (hne : r ≠ p) (htail : headIsWord tail = false) :
    subWB p s false (r ++ tail) = r ++ subWB p s true tail := by
  match r, hr with
  | c :: r', _ =>
    rw [List.cons_append, subWB_cons, if_neg]
    · rw [hrw c (List.mem_cons_self _ _),
        subWB_copy_word_flag p s r' tail (fun e he => hrw e (List.mem_cons_of_mem _ he))]
      rfl
    · intro hcond
      obtain ⟨hlen, hsw, _, hhead⟩ := hcond
      rw [← List.cons_append] at hsw hhead
      rcases Nat.lt_trichotomy p.length (c :: r').length with hlt | heq | hgt
      · have hdrop : List.drop p.length ((c :: r') ++ tail) =
            List.drop p.length (c :: r') ++ tail :=
          List.drop_append_of_le_length (Nat.le_of_lt hlt)
        have hne2 : List.drop p.length (c :: r') ≠ [] := by
          intro h0
          have := congrArg List.length h0
          rw [List.length_drop, List.length_nil] at this
          omega
        obtain ⟨d, rd, hd⟩ := List.exists_cons_of_ne_nil hne2
        have hdmem : d ∈ c :: r' :=
          List.mem_of_mem_drop (by rw [hd]; exact List.mem_cons_self _ _)
        rw [hdrop, hd] at hhead
        simp only [List.cons_append, headIsWord] at hhead
        rw [hrw d hdmem] at hhead
        cases hhead
      · obtain ⟨post, hpost⟩ := startsWithL_ex hsw
        exact hne (List.append_inj hpost heq.symm).1
      · obtain ⟨h1, _⟩ := startsWithL_append_split (c :: r') p tail (Nat.le_of_lt hgt) hsw
        have hne2 : p.drop (c :: r').length ≠ [] := by
          intro h0
          have := congrArg List.length h0
          rw [List.length_drop, List.length_nil] at this
          omega
        obtain ⟨d, rd, hd⟩ := List.exists_cons_of_ne_nil hne2
        have hdmem : d ∈ p :=
          List.mem_of_mem_drop (by rw [hd]; exact List.mem_cons_self _ _)
        rw [hd] at h1
        obtain ⟨post, hpost⟩ := startsWithL_ex h1
        rw [hpost] at htail
        simp only [List.cons_append, headIsWord] at htail
        rw [hpw d hdmem] at htail
        cases htail

theorem runWord_of_all_word {r : List Char} (hne : r ≠ [])
    (hw : ∀ c ∈ r, isWordChar c = true) : runWord r = true := by
  match r, hne with
  | c :: r', _ => exact hw c (List.mem_cons_self _ _)

/-- **Bridge A**: on a well-formed run decomposition, the character
scan of `subWB` for an all-word pattern and all-word replacement is the
run-level substitution `mapW`. -/
theorem bridgeA (p s : List Char) (hp : p ≠ []) (hpw : ∀ c ∈ p, isWordChar c = true) :
    ∀ (rs : List (List Char)) (prev : Option Bool), wfB prev rs = true →
      subWB p s (flagOf prev) rs.flatten = (mapW p s rs).flatten := by
  intro rs
  induction rs with
  | nil => intro prev _; rfl
  | cons r rest ih =>
    intro prev hwf
    simp only [wfB, Bool.and_eq_true] at hwf
    obtain ⟨⟨⟨hne, hall⟩, hprev⟩, hrest⟩ := hwf
    have hrne : r ≠ [] := by simpa using hne
    cases hw : runWord r with
    | false =>
      have hnw : ∀ c ∈ r, isWordChar c = false := by
        intro c hc
        have := List.all_eq_true.mp hall c hc
        rw [hw] at this
        simpa using this
      match p, hp with
      | pc :: p', _ =>
        have hpc : isWordChar pc = true := hpw pc (List.mem_cons_self _ _)
        rw [List.flatten_cons,
          subWB_copy_nonword (pc :: p') s pc p' rfl hpc r rest.flatten (flagOf prev) hrne hnw,
          show (false : Bool) = flagOf (some false) from rfl,
          ih (some false) (by rw [hw] at hrest; exact hrest)]
        have hrp : r ≠ pc :: p' := by
          intro h
          have := hnw pc (by rw [h]; exact List.mem_cons_self _ _)
          rw [hpc] at this
          cases this
        simp [mapW, hrp]
    | true =>
      have hww : ∀ c ∈ r, isWordChar c = true := by
        intro c hc
        have := List.all_eq_true.mp hall c hc
        rw [hw] at this
        simpa using this
      have hf : flagOf prev = false := by
        cases prev with
        | none => rfl
        | some a =>
          cases a with
          | true => rw [hw] at hprev; simp [neRun] at hprev
          | false => rfl
      have htl : headIsWord rest.flatten = false := by
        cases rest with
        | nil => rfl
        | cons r2 rest' =>
          rw [hw] at hrest
          simp only [wfB, Bool.and_eq_true] at hrest
          obtain ⟨⟨⟨hne2, hall2⟩, hprev2⟩, _⟩ := hrest
          have hw2 : runWord r2 = false := by
            simp only [neRun, Bool.not_eq_true', beq_eq_false_iff_ne, ne_eq] at hprev2
            cases hq : runWord r2 with
            | false => rfl
            | true => exact absurd hq.symm hprev2
          match r2, (by simpa using hne2 : r2 ≠ []) with
          | d :: r2', _ =>
            have := List.all_eq_true.mp hall2 d (List.mem_cons_self _ _)
            rw [hw2] at this
            simp only [List.flatten_cons, List.cons_append, headIsWord]
            simpa using this
      rw [hw] at hrest
      by_cases hrp : r = p
      · subst hrp
        rw [List.flatten_cons, hf, subWB_match_self r s rest.flatten hp htl,
          show (true : Bool) = flagOf (some true) from rfl, ih (some true) hrest]
        simp [mapW]
      · rw [List.flatten_cons, hf,
          subWB_copy_word_run p s hpw r rest.flatten hrne hww hrp htl,
          show (true : Bool) = flagOf (some true) from rfl, ih (some true) hrest]
        simp [mapW, hrp]

/-- `mapW` preserves well-formedness when the replacement is a nonempty
all-word run (like every singular in the table). -/
theorem mapW_wf (p s : List Char) (hpne : p ≠ []) (hpw : ∀ c ∈ p, isWordChar c = true)
    (hsne : s ≠ []) (hsw : ∀ c ∈ s, isWordChar c = true) :
    ∀ (rs : List (List Char)) (prev : Option Bool), wfB prev rs = true →
      wfB prev (mapW p s rs) = true := by
  intro rs
  induction rs with
  | nil => intro prev _; rfl
  | cons r rest ih =>
    intro prev hwf
    simp only [wfB, Bool.and_eq_true] at hwf
    obtain ⟨⟨⟨hne, hall⟩, hprev⟩, hrest⟩ := hwf
    simp only [mapW, List.map_cons]
    by_cases hrp : r = p
    · subst hrp
      have hwr : runWord r = true := runWord_of_all_word (by simpa using hne) hpw
      have hws : runWord s = true := runWord_of_all_word hsne hsw
      rw [if_pos rfl]
      simp only [wfB, Bool.and_eq_true]
      refine ⟨⟨⟨by simpa using hsne, ?_⟩, ?_⟩, ?_⟩
      · rw [List.all_eq_true]
        intro c hc
        rw [hws, hsw c hc]
        rfl
      · rw [hws]
        rw [hwr] at hprev
        exact hprev
      · rw [hws]
        have := ih (some (runWord r)) hrest
        rw [hwr] at this
        exact this
    · simp only [if_neg hrp, wfB, Bool.and_eq_true]
      exact ⟨⟨⟨hne, hall⟩, hprev⟩, ih (some (runWord r)) hrest⟩

/-- If no run equals the plural, the pass does nothing. -/
theorem mapW_id_of_not_mem (p s : List Char) (rs : List (List Char)) (h : p ∉ rs) :
    mapW p s rs = rs := by
  unfold mapW
  conv_rhs => rw [← List.map_id rs]
  apply List.map_congr_left
  intro r hr
  rw [if_neg (fun he : r = p => h (by rw [← he]; exact hr))]
  rfl

/-- Every run of the output of `mapW` is the singular or an input run. -/
theorem mapW_mem {p s : List Char} {rs : List (List Char)} {x : List Char}
    (h : x ∈ mapW p s rs) : x = s ∨ x ∈ rs := by
  obtain ⟨r, hr, he⟩ := List.mem_map.mp h
  by_cases hrp : r = p
  · rw [if_pos hrp] at he
    exact Or.inl he.symm
  · rw [if_neg hrp] at he
    exact Or.inr (by rw [← he]; exact hr)

/-- After `mapW p s`, the plural `p` occurs as no run (provided the
singular is not the plural). -/
theorem mapW_post (p s : List Char) (rs : List (List Char)) (hne : s ≠ p) :
    p ∉ mapW p s rs := by
  intro h
  rcases mapW_mem h with h1 | h1
  · exact hne h1.symm
  · obtain ⟨r, hr, he⟩ := List.mem_map.mp h
    by_cases hrp : r = p
    · rw [if_pos hrp] at he
      exact hne he
    · rw [if_neg hrp] at he
      exact hrp he

/-- A well-formed run list following a word context starts with a
non-word character (or is empty). -/
theorem headIsWord_flatten_of_wf (rest : List (List Char))
    (hwf : wfB (some true) rest = true) : headIsWord rest.flatten = false := by
  cases rest with
  | nil => rfl
  | cons r2 rest' =>
    simp only [wfB, Bool.and_eq_true] at hwf
    obtain ⟨⟨⟨hne2, hall2⟩, hprev2⟩, _⟩ := hwf
    have hw2 : runWord r2 = false := by
      simp only [neRun, Bool.not_eq_true', beq_eq_false_iff_ne, ne_eq] at hprev2
      cases hq : runWord r2 with
      | false => rfl
      | true => exact absurd hq.symm hprev2
    match r2, (by simpa using hne2 : r2 ≠ []) with
    | d :: r2', _ =>
      have := List.all_eq_true.mp hall2 d (List.mem_cons_self _ _)
      rw [hw2] at this
      simp only [List.flatten_cons, List.cons_append, headIsWord]
      simpa using this

/-- The head of any list matched by a nonempty `startsWithL` pattern has
the pattern's head character class. -/
theorem headIsWord_of_startsWith {d : Char} {q t : List Char}
    (h : startsWithL (d :: q) t = true) : headIsWord t = isWordChar d := by
  obtain ⟨post, hpost⟩ := startsWithL_ex h
  rw [hpost]
  rfl

/-- Copying a word run when the pattern does not match at its start:
interior positions fail the leading `\b` (the flag is word), so the run
is copied and the flag ends word. -/
theorem subWB_copy_word_start (p s : List Char) (r tail : List Char) (hr : r ≠ [])
    (hrw : ∀ c ∈ r, isWordChar c = true)
    (hnm : ¬(0 < p.length ∧ startsWithL p (r ++ tail) = true ∧
        headIsWord (List.drop p.length (r ++ tail)) = false)) :
    subWB p s false (r ++ tail) = r ++ subWB p s true tail := by
  match r, hr with
  | c :: r', _ =>
    rw [List.cons_append, subWB_cons, if_neg]
    · rw [hrw c (List.mem_cons_self _ _),
        subWB_copy_word_flag p s r' tail (fun e he => hrw e (List.mem_cons_of_mem _ he))]
      rfl
    · intro hcond
      rw [← List.cons_append] at hcond
      exact hnm ⟨hcond.1, hcond.2.1, hcond.2.2.2⟩

/-- On a well-formed decomposition, a word-bounded occurrence of
`check-ins` can start at a word run only at an exact `check` `-` `ins`
run triple; anywhere else the scan condition is false. -/
theorem checkins_no_match (r : List Char) (rest : List (List Char))
    (hr : r ≠ []) (hrw : ∀ c ∈ r, isWordChar c = true)
    (hwf : wfB (some true) rest = true)
    (hnm : ¬(r = checkRun ∧ ∃ r4, rest = ['-'] :: insRun :: r4)) :
    ¬(0 < ("check-ins".data).length ∧
      startsWithL ("check-ins".data) (r ++ rest.flatten) = true ∧
      headIsWord (List.drop ("check-ins".data).length (r ++ rest.flatten)) = false) := by
  rintro ⟨-, hsw, hhead⟩
  have hflat : headIsWord rest.flatten = false := headIsWord_flatten_of_wf rest hwf
  have hrpos : 0 < r.length := List.length_pos.mpr hr
  have hrcheck : r = checkRun := by
    by_cases hlen : 6 ≤ r.length
    · exfalso
      have hsplit : r.take 6 ++ (r.drop 6 ++ rest.flatten) = r ++ rest.flatten := by
        rw [← List.append_assoc, List.take_append_drop]
      rw [← hsplit] at hsw
      have h6 : (r.take 6).length = 6 := by
        rw [List.length_take]
        omega
      obtain ⟨-, htake⟩ := startsWithL_append_split (r.take 6) ("check-ins".data)
        (r.drop 6 ++ rest.flatten) (by rw [h6]; decide) hsw
      rw [h6] at htake
      have hdash : '-' ∈ r.take 6 := by
        rw [← htake]
        decide
      exact absurd (hrw '-' (List.take_subset 6 r hdash)) (by decide)
    · push_neg at hlen
      obtain ⟨h1, h2⟩ := startsWithL_append_split r ("check-ins".data) rest.flatten
        (by have h9 : ("check-ins".data).length = 9 := by decide
            omega) hsw
      by_cases h5 : r.length = 5
      · rw [h5] at h2
        rw [← h2]
        decide
      · exfalso
        have hk : r.length = 1 ∨ r.length = 2 ∨ r.length = 3 ∨ r.length = 4 := by omega
        obtain ⟨d, q, hdq⟩ : ∃ d q, ("check-ins".data).drop r.length = d :: q := by
          rcases hk with hk | hk | hk | hk <;> rw [hk] <;> exact ⟨_, _, rfl⟩
        have hhw : isWordChar d = true := by
          have : headIsWord (("check-ins".data).drop r.length) = true := by
            rcases hk with hk | hk | hk | hk <;> rw [hk] <;> decide
          rw [hdq] at this
          exact this
        rw [hdq] at h1
        have h := headIsWord_of_startsWith h1
        rw [hflat, hhw] at h
        simp at h
  subst hrcheck
  obtain ⟨h1, -⟩ := startsWithL_append_split checkRun ("check-ins".data) rest.flatten
    (by decide) hsw
  have hd5 : ("check-ins".data).drop checkRun.length = '-' :: "ins".data := by decide
  rw [hd5] at h1
  match rest, hwf, hnm, hflat, hhead, h1 with
  | [], _, _, _, _, h1 => simp [startsWithL] at h1
  | r2 :: rest3, hwf, hnm, hflat, hhead, h1 =>
    simp only [wfB, Bool.and_eq_true] at hwf
    obtain ⟨⟨⟨hne2, hall2⟩, hprev2⟩, hwf3⟩ := hwf
    have hw2 : runWord r2 = false := by
      cases hq : runWord r2 with
      | false => rfl
      | true => rw [hq] at hprev2; simp [neRun] at hprev2
    have hr2nw : ∀ c ∈ r2, isWordChar c = false := by
      intro c hc
      have := List.all_eq_true.mp hall2 c hc
      rw [hw2] at this
      simpa using this
    have hr2ne : r2 ≠ [] := by simpa using hne2
    have hr2 : r2 = ['-'] := by
      rw [List.flatten_cons] at h1
      match r2, hr2ne, hr2nw, h1 with
      | e :: r2', _, hr2nw, h1 =>
        rw [List.cons_append] at h1
        simp only [startsWithL, Bool.and_eq_true, beq_iff_eq] at h1
        obtain ⟨he, h1'⟩ := h1
        subst he
        match r2', hr2nw, h1' with
        | [], _, _ => rfl
        | e' :: r2'', hr2nw, h1' =>
          exfalso
          simp only [List.cons_append, startsWithL, Bool.and_eq_true, beq_iff_eq] at h1'
          have := hr2nw e' (by simp)
          rw [← h1'.1] at this
          exact absurd this (by decide)
    subst hr2
    have h1' : startsWithL ("ins".data) rest3.flatten = true := by
      rw [List.flatten_cons, List.singleton_append] at h1
      simp only [startsWithL, Bool.and_eq_true, beq_iff_eq] at h1
      exact h1.2
    rw [show runWord ['-'] = false from rfl] at hwf3
    match rest3, hwf3, hnm, hhead, h1' with
    | [], _, _, _, h1' => simp [show ("ins".data) = 'i' :: 'n' :: 's' :: [] from rfl, startsWithL] at h1'
    | r3 :: rest4, hwf3, hnm, hhead, h1' =>
      simp only [wfB, Bool.and_eq_true] at hwf3
      obtain ⟨⟨⟨hne3, hall3⟩, hprev3⟩, hwf4⟩ := hwf3
      have hw3 : runWord r3 = true := by
        cases hq : runWord r3 with
        | true => rfl
        | false => rw [hq] at hprev3; simp [neRun] at hprev3
      have hr3w : ∀ c ∈ r3, isWordChar c = true := by
        intro c hc
        have := List.all_eq_true.mp hall3 c hc
        rw [hw3] at this
        simpa using this
      have hr3ne : r3 ≠ [] := by simpa using hne3
      have hr3pos : 0 < r3.length := List.length_pos.mpr hr3ne
      rw [List.flatten_cons] at h1'
      rcases Nat.lt_trichotomy r3.length 3 with hlt | heq | hgt
      · -- the third run is a strict prefix of `ins`: the next character
        -- of the pattern is a word character at a non-word position
        obtain ⟨h1'', -⟩ := startsWithL_append_split r3 ("ins".data) rest4.flatten
          (by have : ("ins".data).length = 3 := by decide
              omega) h1'
        have hk3 : r3.length = 1 ∨ r3.length = 2 := by omega
        obtain ⟨d, q, hdq⟩ : ∃ d q, ("ins".data).drop r3.length = d :: q := by
          rcases hk3 with hk | hk <;> rw [hk] <;> exact ⟨_, _, rfl⟩
        have hhw : isWordChar d = true := by
          have : headIsWord (("ins".data).drop r3.length) = true := by
            rcases hk3 with hk | hk <;> rw [hk] <;> decide
          rw [hdq] at this
          exact this
        rw [hdq] at h1''
        have h := headIsWord_of_startsWith h1''
        rw [hw3] at hwf4
        rw [headIsWord_flatten_of_wf rest4 hwf4, hhw] at h
        simp at h
      · -- exact `ins`: the forbidden triple
        obtain ⟨-, htake⟩ := startsWithL_append_split r3 ("ins".data) rest4.flatten
          (by have h3 : ("ins".data).length = 3 := by decide
              omega) h1'
        have hr3 : r3 = insRun := by
          rw [heq] at htake
          rw [← htake]
          decide
        exact hnm ⟨rfl, rest4, by rw [hr3]⟩
      · -- `ins` is a strict prefix of the third run: the trailing `\b` fails
        have h9 : ("check-ins".data).length = 9 := by decide
        rw [h9] at hhead
        have hflat2 : ((['-'] : List Char) :: r3 :: rest4).flatten =
            ['-'] ++ (r3 ++ rest4.flatten) := by
          simp [List.flatten_cons]
        rw [hflat2] at hhead
        have hassoc : checkRun ++ (['-'] ++ (r3 ++ rest4.flatten)) =
            ("check-".data) ++ (r3 ++ rest4.flatten) := by
          rw [← List.append_assoc]
          congr 1
        rw [hassoc] at hhead
        have hdrop9 : List.drop 9 (("check-".data) ++ (r3 ++ rest4.flatten)) =
            List.drop 3 (r3 ++ rest4.flatten) := by
          rw [show (9 : Nat) = ("check-".data).length + 3 from by decide]
          rw [List.drop_append]
        rw [hdrop9, List.drop_append_of_le_length (by omega)] at hhead
        have hne4 : r3.drop 3 ≠ [] := by
          intro h0
          have := congrArg List.length h0
          rw [List.length_drop, List.length_nil] at this
          omega
        obtain ⟨d, rd, hd⟩ := List.exists_cons_of_ne_nil hne4
        have hdmem : d ∈ r3 :=
          List.mem_of_mem_drop (by rw [hd]; exact List.mem_cons_self _ _)
        rw [hd] at hhead
        simp only [List.cons_append, headIsWord] at hhead
        rw [hr3w d hdmem] at hhead
        simp at hhead

/-- `sub3` skips a run that does not head a `check` `-` `ins` triple. -/
theorem sub3_cons (r : List Char) (rest : List (List Char))
    (h : ¬(r = checkRun ∧ ∃ r4, rest = ['-'] :: insRun :: r4)) :
    sub3 (r :: rest) = r :: sub3 rest := by
  match rest with
  | [] => rfl
  | [r2] => rfl
  | r2 :: r3 :: rest4 =>
    have hx : ¬(r = checkRun ∧ r2 = ['-'] ∧ r3 = insRun) := by
      rintro ⟨h1, h2, h3⟩
      exact h ⟨h1, rest4, by rw [h2, h3]⟩
    simp only [sub3]
    rw [if_neg hx]

/-- **Bridge B**: on a well-formed run decomposition, the character scan
of `subWB` for the hyphenated pattern `check-ins` is the run-level
triple substitution `sub3`. -/
theorem bridgeB :
    ∀ (n : Nat) (rs : List (List Char)) (prev : Option Bool), rs.length ≤ n →
      wfB prev rs = true →
      subWB ("check-ins".data) ("checkin".data) (flagOf prev) rs.flatten =
        (sub3 rs).flatten := by
  intro n
  induction n with
  | zero =>
    intro rs prev hn _
    have : rs = [] := List.length_eq_zero.mp (Nat.le_zero.mp hn)
    subst this
    rfl
  | succ n ih =>
    intro rs prev hn hwf
    match rs with
    | [] => rfl
    | r :: rest =>
      simp only [List.length_cons] at hn
      simp only [wfB, Bool.and_eq_true] at hwf
      obtain ⟨⟨⟨hne, hall⟩, hprev⟩, hrest⟩ := hwf
      have hrne : r ≠ [] := by simpa using hne
      cases hw : runWord r with
      | false =>
        have hnw : ∀ c ∈ r, isWordChar c = false := by
          intro c hc
          have := List.all_eq_true.mp hall c hc
          rw [hw] at this
          simpa using this
        rw [hw] at hrest
        rw [List.flatten_cons,
          subWB_copy_nonword ("check-ins".data) ("checkin".data) 'c' ("heck-ins".data)
            (by decide) (by decide) r rest.flatten (flagOf prev) hrne hnw,
          show (false : Bool) = flagOf (some false) from rfl,
          ih rest (some false) (by omega) hrest]
        have hrc : ¬(r = checkRun ∧ ∃ r4, rest = ['-'] :: insRun :: r4) := by
          rintro ⟨h1, -⟩
          subst h1
          exact absurd (hnw 'c' (by decide)) (by decide)
        rw [sub3_cons r rest hrc, List.flatten_cons]
      | true =>
        have hww : ∀ c ∈ r, isWordChar c = true := by
          intro c hc
          have := List.all_eq_true.mp hall c hc
          rw [hw] at this
          simpa using this
        have hf : flagOf prev = false := by
          cases prev with
          | none => rfl
          | some a =>
            cases a with
            | true => rw [hw] at hprev; simp [neRun] at hprev
            | false => rfl
        rw [hw] at hrest
        by_cases hm : r = checkRun ∧ ∃ r4, rest = ['-'] :: insRun :: r4
        · obtain ⟨hrc, r4, hr4⟩ := hm
          subst hrc
          subst hr4
          have hwf4 : wfB (some true) r4 = true := by
            simp only [wfB, Bool.and_eq_true] at hrest
            have h3 := hrest.2.2
            rw [show runWord insRun = true from by decide] at h3
            exact h3
          have hflat : (checkRun :: ['-'] :: insRun :: r4).flatten =
              ("check-ins".data) ++ r4.flatten := by
            simp only [List.flatten_cons]
            rw [← List.append_assoc, ← List.append_assoc]
            congr 1
          have hhd : headIsWord r4.flatten = false := headIsWord_flatten_of_wf r4 hwf4
          rw [hflat, hf,
            subWB_match_self ("check-ins".data) ("checkin".data) r4.flatten (by decide) hhd,
            show (true : Bool) = flagOf (some true) from rfl,
            ih r4 (some true) (by simp only [List.length_cons] at hn; omega) hwf4]
          have hs : sub3 (checkRun :: ['-'] :: insRun :: r4) = checkinRun :: sub3 r4 := by
            simp [sub3]
          rw [hs, List.flatten_cons]
          congr 1
        · have hnm := checkins_no_match r rest hrne hww hrest hm
          rw [List.flatten_cons, hf,
            subWB_copy_word_start ("check-ins".data) ("checkin".data) r rest.flatten hrne
              hww hnm,
            show (true : Bool) = flagOf (some true) from rfl,
            ih rest (some true) (by omega) hrest,
            sub3_cons r rest hm, List.flatten_cons]

/-- One-step unfolding of `wfB`. -/
theorem wfB_cons_iff (prev : Option Bool) (r : List Char) (rest : List (List Char)) :
    wfB prev (r :: rest) = true ↔
      ((!r.isEmpty) = true ∧ (r.all fun c => isWordChar c == runWord r) = true ∧
        neRun prev (runWord r) = true ∧ wfB (some (runWord r)) rest = true) := by
  show (_ && _ && _ && _) = true ↔ _
  simp only [Bool.and_eq_true, and_assoc]

/-- Unfolding of the triple test on three or more runs. -/
theorem hasTriple_cons3 (a b c : List Char) (ll : List (List Char)) :
    hasTriple (a :: b :: c :: ll) =
      ((a == checkRun && b == ['-'] && c == insRun) || hasTriple (b :: c :: ll)) := rfl

/-- `sub3` preserves well-formedness. -/
theorem sub3_wf :
    ∀ (n : Nat) (rs : List (List Char)) (prev : Option Bool), rs.length ≤ n →
      wfB prev rs = true → wfB prev (sub3 rs) = true := by
  intro n
  induction n with
  | zero =>
    intro rs prev hn hwf
    have : rs = [] := List.length_eq_zero.mp (Nat.le_zero.mp hn)
    subst this
    exact hwf
  | succ n ih =>
    intro rs prev hn hwf
    match rs with
    | [] => exact hwf
    | [r] => exact hwf
    | [r, r'] => exact hwf
    | r1 :: r2 :: r3 :: rest4 =>
      simp only [List.length_cons] at hn
      by_cases hm : r1 = checkRun ∧ r2 = ['-'] ∧ r3 = insRun
      · obtain ⟨h1, h2, h3⟩ := hm
        subst h1; subst h2; subst h3
        rw [show sub3 (checkRun :: ['-'] :: insRun :: rest4) = checkinRun :: sub3 rest4 from
          by simp [sub3]]
        obtain ⟨-, -, hprev1, hd1⟩ :=
          (wfB_cons_iff prev checkRun (['-'] :: insRun :: rest4)).mp hwf
        obtain ⟨-, -, -, hd2⟩ :=
          (wfB_cons_iff (some (runWord checkRun)) ['-'] (insRun :: rest4)).mp hd1
        obtain ⟨-, -, -, hd3⟩ := (wfB_cons_iff (some (runWord ['-'])) insRun rest4).mp hd2
        rw [show runWord insRun = true from by decide] at hd3
        refine (wfB_cons_iff prev checkinRun (sub3 rest4)).mpr
          ⟨by decide, by decide, ?_, ?_⟩
        · rw [show runWord checkinRun = true from by decide]
          rw [show runWord checkRun = true from by decide] at hprev1
          exact hprev1
        · rw [show runWord checkinRun = true from by decide]
          exact ih rest4 (some true) (by omega) hd3
      · have hx : ¬(r1 = checkRun ∧ ∃ r4, (r2 :: r3 :: rest4) = ['-'] :: insRun :: r4) := by
          rintro ⟨ha, r4, hb⟩
          injection hb with hb1 hb2
          injection hb2 with hb3 hb4
          exact hm ⟨ha, hb1, hb3⟩
        rw [sub3_cons r1 (r2 :: r3 :: rest4) hx]
        obtain ⟨ha, hb, hc, hd⟩ := (wfB_cons_iff prev r1 (r2 :: r3 :: rest4)).mp hwf
        exact (wfB_cons_iff prev r1 (sub3 (r2 :: r3 :: rest4))).mpr
          ⟨ha, hb, hc, ih (r2 :: r3 :: rest4) (some (runWord r1))
            (by simp only [List.length_cons]; omega) hd⟩

/-- Every run of `sub3 rs` is `checkin` or an input run. -/
theorem sub3_mem :
    ∀ (n : Nat) (rs : List (List Char)) (x : List Char), rs.length ≤ n →
      x ∈ sub3 rs → x = checkinRun ∨ x ∈ rs := by
  intro n
  induction n with
  | zero =>
    intro rs x hn hx
    have : rs = [] := List.length_eq_zero.mp (Nat.le_zero.mp hn)
    subst this
    cases hx
  | succ n ih =>
    intro rs x hn hx
    match rs with
    | [] => exact Or.inr hx
    | [r] => exact Or.inr hx
    | [r, r'] => exact Or.inr hx
    | r1 :: r2 :: r3 :: rest4 =>
      simp only [List.length_cons] at hn
      by_cases hm : r1 = checkRun ∧ r2 = ['-'] ∧ r3 = insRun
      · rw [show sub3 (r1 :: r2 :: r3 :: rest4) = checkinRun :: sub3 rest4 from by
          obtain ⟨h1, h2, h3⟩ := hm
          subst h1; subst h2; subst h3
          simp [sub3]] at hx
        rcases List.mem_cons.mp hx with h | h
        · exact Or.inl h
        · rcases ih rest4 x (by omega) h with h | h
          · exact Or.inl h
          · exact Or.inr (by simp [h])
      · have hx2 : ¬(r1 = checkRun ∧ ∃ r4, (r2 :: r3 :: rest4) = ['-'] :: insRun :: r4) := by
          rintro ⟨ha, r4, hb⟩
          injection hb with hb1 hb2
          injection hb2 with hb3 hb4
          exact hm ⟨ha, hb1, hb3⟩
        rw [sub3_cons r1 (r2 :: r3 :: rest4) hx2] at hx
        rcases List.mem_cons.mp hx with h | h
        · exact Or.inr (by simp [h])
        · rcases ih (r2 :: r3 :: rest4) x (by simp only [List.length_cons]; omega) h with h | h
          · exact Or.inl h
          · exact Or.inr (List.mem_cons_of_mem _ h)

/-- If the triple does not occur, `sub3` does nothing. -/
theorem sub3_id_of_no_triple :
    ∀ (n : Nat) (rs : List (List Char)), rs.length ≤ n →
      hasTriple rs = false → sub3 rs = rs := by
  intro n
  induction n with
  | zero =>
    intro rs hn _
    have : rs = [] := List.length_eq_zero.mp (Nat.le_zero.mp hn)
    subst this
    rfl
  | succ n ih =>
    intro rs hn ht
    match rs with
    | [] => rfl
    | [r] => rfl
    | [r, r'] => rfl
    | r1 :: r2 :: r3 :: rest4 =>
      simp only [List.length_cons] at hn
      rw [hasTriple_cons3] at ht
      obtain ⟨hhead, htail⟩ := Bool.or_eq_false_iff.mp ht
      have hm : ¬(r1 = checkRun ∧ r2 = ['-'] ∧ r3 = insRun) := by
        rintro ⟨h1, h2, h3⟩
        subst h1; subst h2; subst h3
        exact absurd hhead (by decide)
      have hx : ¬(r1 = checkRun ∧ ∃ r4, (r2 :: r3 :: rest4) = ['-'] :: insRun :: r4) := by
        rintro ⟨ha, r4, hb⟩
        injection hb with hb1 hb2
        injection hb2 with hb3 hb4
        exact hm ⟨ha, hb1, hb3⟩
      rw [sub3_cons r1 (r2 :: r3 :: rest4) hx,
        ih (r2 :: r3 :: rest4) (by simp only [List.length_cons]; omega) htail]

/-- Elimination for a triple occurrence at the head of a cons. -/
theorem hasTriple_cons_elim {a : List Char} {l : List (List Char)}
    (h : hasTriple (a :: l) = true) :
    (∃ b c ll, l = b :: c :: ll ∧ a = checkRun ∧ b = ['-'] ∧ c = insRun) ∨
      hasTriple l = true := by
  match l with
  | [] =>
    rw [show hasTriple [a] = false from rfl] at h
    simp at h
  | [b] =>
    rw [show hasTriple [a, b] = false from rfl] at h
    simp at h
  | b :: c :: ll =>
    rw [hasTriple_cons3] at h
    simp only [Bool.or_eq_true, Bool.and_eq_true, beq_iff_eq] at h
    rcases h with ⟨⟨h1, h2⟩, h3⟩ | h
    · exact Or.inl ⟨b, c, ll, rfl, h1, h2, h3⟩
    · exact Or.inr h

/-- The triple test only looks at the tail beyond the head run. -/
theorem hasTriple_tail {a : List Char} {l : List (List Char)}
    (h : hasTriple (a :: l) = false) : hasTriple l = false := by
  match l with
  | [] => rfl
  | [b] => rfl
  | b :: c :: ll =>
    rw [hasTriple_cons3] at h
    exact (Bool.or_eq_false_iff.mp h).2

/-- The head run of a nonempty `sub3` image is the input head or the
replacement `checkin`. -/
theorem sub3_head (x : List Char) (xs : List (List Char)) (b : List Char)
    (bs : List (List Char)) (h : sub3 (x :: xs) = b :: bs) :
    b = x ∨ b = checkinRun := by
  match xs with
  | [] => injection h with h1 _; exact Or.inl h1.symm
  | [y] => injection h with h1 _; exact Or.inl h1.symm
  | y :: z :: ws =>
    by_cases hm : x = checkRun ∧ y = ['-'] ∧ z = insRun
    · rw [show sub3 (x :: y :: z :: ws) = checkinRun :: sub3 ws from by
        obtain ⟨h1, h2, h3⟩ := hm
        subst h1; subst h2; subst h3
        simp [sub3]] at h
      injection h with h1 _
      exact Or.inr h1.symm
    · simp only [sub3, if_neg hm] at h
      injection h with h1 _
      exact Or.inl h1.symm

/-- After a `sub3` pass no triple remains. -/
theorem sub3_no_triple :
    ∀ (n : Nat) (rs : List (List Char)), rs.length ≤ n →
      hasTriple (sub3 rs) = false := by
  intro n
  induction n with
  | zero =>
    intro rs hn
    have : rs = [] := List.length_eq_zero.mp (Nat.le_zero.mp hn)
    subst this
    rfl
  | succ n ih =>
    intro rs hn
    match rs with
    | [] => rfl
    | [r] => rfl
    | [r, r'] => rfl
    | r1 :: r2 :: r3 :: rest4 =>
      simp only [List.length_cons] at hn
      by_cases hm : r1 = checkRun ∧ r2 = ['-'] ∧ r3 = insRun
      · rw [show sub3 (r1 :: r2 :: r3 :: rest4) = checkinRun :: sub3 rest4 from by
          obtain ⟨h1, h2, h3⟩ := hm
          subst h1; subst h2; subst h3
          simp [sub3]]
        cases hq : hasTriple (checkinRun :: sub3 rest4) with
        | false => rfl
        | true =>
        exfalso
        rcases hasTriple_cons_elim hq with ⟨b, c, ll, -, hA, -, -⟩ | hq2
        · exact absurd hA (by decide)
        · rw [ih rest4 (by omega)] at hq2
          exact Bool.false_ne_true hq2
      · have hx : ¬(r1 = checkRun ∧ ∃ r4, (r2 :: r3 :: rest4) = ['-'] :: insRun :: r4) := by
          rintro ⟨ha, r4, hb⟩
          injection hb with hb1 hb2
          injection hb2 with hb3 hb4
          exact hm ⟨ha, hb1, hb3⟩
        rw [sub3_cons r1 (r2 :: r3 :: rest4) hx]
        cases hq : hasTriple (r1 :: sub3 (r2 :: r3 :: rest4)) with
        | false => rfl
        | true =>
        exfalso
        rcases hasTriple_cons_elim hq with ⟨b, c, ll, hll, hA, hB, hC⟩ | hq2
        · by_cases hm2 : r2 = checkRun ∧ ∃ r5, (r3 :: rest4) = ['-'] :: insRun :: r5
          · obtain ⟨ha2, r5, hb2⟩ := hm2
            subst ha2
            injection hb2 with hb3 hb4
            subst hb3; subst hb4
            rw [show sub3 (checkRun :: ['-'] :: insRun :: r5) = checkinRun :: sub3 r5 from by
              simp [sub3]] at hll
            injection hll with hb _
            rw [← hb] at hB
            exact absurd hB (by decide)
          · rw [sub3_cons r2 (r3 :: rest4) hm2] at hll
            injection hll with hb hll2
            match rest4, hll2 with
            | [], hll2 =>
              injection hll2 with hc _
              exact hm ⟨hA, hb.trans hB, hc.trans hC⟩
            | r4 :: rest5, hll2 =>
              rcases sub3_head r3 (r4 :: rest5) c ll hll2 with hcr | hcr
              · exact hm ⟨hA, hb.trans hB, hcr.symm.trans hC⟩
              · rw [hcr] at hC
                exact absurd hC (by decide)
        · rw [ih (r2 :: r3 :: rest4) (by simp only [List.length_cons]; omega)] at hq2
          exact Bool.false_ne_true hq2

/-- A replaced run equals a given value only if the original did
(provided the substituted singular differs from that value). -/
theorem mapW_elem_eq {p s r x : List Char} (h : (if r = p then s else r) = x)
    (hs : s ≠ x) : r = x := by
  by_cases hrp : r = p
  · rw [if_pos hrp] at h
    exact absurd h hs
  · rw [if_neg hrp] at h
    exact h

/-- An all-word `mapW` pass cannot create a `check` `-` `ins` triple
when its singular is none of the three triple runs. -/
theorem mapW_triple_pres (p s : List Char) (h1 : s ≠ checkRun) (h2 : s ≠ ['-'])
    (h3 : s ≠ insRun) :
    ∀ (rs : List (List Char)), hasTriple rs = false → hasTriple (mapW p s rs) = false := by
  intro rs
  induction rs with
  | nil => intro _; rfl
  | cons r rest ih =>
    intro h
    cases hq : hasTriple (mapW p s (r :: rest)) with
    | false => rfl
    | true =>
    exfalso
    rw [show mapW p s (r :: rest) = (if r = p then s else r) :: mapW p s rest from rfl] at hq
    rcases hasTriple_cons_elim hq with ⟨b, c, ll, hll, hA, hB, hC⟩ | hq2
    · match rest, hll with
      | rb :: rc :: rll, hll =>
        simp only [mapW, List.map_cons] at hll
        injection hll with hb hll2
        injection hll2 with hc hll3
        have hr : r = checkRun := mapW_elem_eq hA h1
        have hrb : rb = ['-'] := mapW_elem_eq (hb.trans hB) h2
        have hrc : rc = insRun := mapW_elem_eq (hc.trans hC) h3
        subst hr; subst hrb; subst hrc
        rw [hasTriple_cons3] at h
        exact absurd ((Bool.or_eq_false_iff.mp h).1) (by decide)
    · rw [ih (hasTriple_tail h)] at hq2
      exact Bool.false_ne_true hq2

/-- Characters of a `subWB` image come from the input or the
replacement. -/
theorem mem_subWBFuel (p s : List Char) :
    ∀ (fuel : Nat) (w : Bool) (l : List Char) (c : Char),
      c ∈ subWBFuel p s fuel w l → c ∈ l ∨ c ∈ s := by
  intro fuel
  induction fuel with
  | zero => intro w l c hc; exact Or.inl hc
  | succ fuel ih =>
    intro w l c hc
    match l with
    | [] => cases hc
    | d :: rest =>
      simp only [subWBFuel] at hc
      split at hc
      · rcases List.mem_append.mp hc with h | h
        · exact Or.inr h
        · rcases ih true _ c h with h | h
          · exact Or.inl (List.mem_of_mem_drop h)
          · exact Or.inr h
      · rcases List.mem_cons.mp hc with h | h
        · exact Or.inl (h ▸ List.mem_cons_self _ _)
        · rcases ih (isWordChar d) rest c h with h | h
          · exact Or.inl (List.mem_cons_of_mem _ h)
          · exact Or.inr h

theorem mem_subWB {p s : List Char} {w : Bool} {l : List Char} {c : Char}
    (h : c ∈ subWB p s w l) : c ∈ l ∨ c ∈ s :=
  mem_subWBFuel p s l.length w l c h

/-- Lowercasing is idempotent characterwise. -/
theorem lowerChar_idem (c : Char) : lowerChar (lowerChar c) = lowerChar c := by
  cases hf : upperLowerTable.find? (fun pr => pr.1 == c) with
  | none =>
    have hc : lowerChar c = c := by rw [lowerChar, hf]; rfl
    rw [hc, hc]
  | some pr =>
    have hc : lowerChar c = pr.2 := by rw [lowerChar, hf]; rfl
    have hmem := List.mem_of_find?_eq_some hf
    have hnone : ∀ q ∈ upperLowerTable,
        upperLowerTable.find? (fun e => e.1 == q.2) = none := by decide
    rw [hc, lowerChar, hnone pr hmem]
    rfl

/-- A list of lowercase-fixed characters is fixed by `lowerL`. -/
theorem lowerL_eq_self_of {l : List Char} (h : ∀ c ∈ l, lowerChar c = c) :
    lowerL l = l := by
  rw [lowerL]
  conv_rhs => rw [← List.map_id l]
  exact List.map_congr_left h

/-- All characters surviving the normalization fold are
lowercase-fixed. -/
theorem foldl_subWB_chars :
    ∀ (pairs : List (String × String)) (acc : List Char),
      (∀ c ∈ acc, lowerChar c = c) →
      (∀ pr ∈ pairs, ∀ c ∈ pr.2.data, lowerChar c = c) →
      ∀ c ∈ pairs.foldl (fun a pr => subWB pr.1.data pr.2.data false a) acc,
        lowerChar c = c := by
  intro pairs
  induction pairs with
  | nil => intro acc hacc _ c hc; exact hacc c hc
  | cons pr pairs ih =>
    intro acc hacc hp c hc
    rw [List.foldl_cons] at hc
    refine ih _ ?_ (fun q hq => hp q (List.mem_cons_of_mem _ hq)) c hc
    intro d hd
    rcases mem_subWB hd with h | h
    · exact hacc d h
    · exact hp pr (List.mem_cons_self _ _) d h

/-- The normalized query is already lowercase. -/
theorem lowerL_normalizeL (l : List Char) : lowerL (normalizeL l) = normalizeL l := by
  apply lowerL_eq_self_of
  rw [normalizeL]
  apply foldl_subWB_chars
  · intro c hc
    rw [lowerL] at hc
    obtain ⟨d, -, hd⟩ := List.mem_map.mp hc
    rw [← hd]
    exact lowerChar_idem d
  · decide

/-- A fold by a function fixing the start value is the start value. -/
theorem foldl_fix {α β : Type} (f : β → α → β) (x : β) :
    ∀ (l : List α), (∀ a ∈ l, f x a = x) → l.foldl f x = x := by
  intro l
  induction l with
  | nil => intro _; rfl
  | cons a l ih =>
    intro h
    rw [List.foldl_cons, h a (List.mem_cons_self _ _)]
    exact ih (fun b hb => h b (List.mem_cons_of_mem _ hb))

/-- The character-level normalization fold is the run-level fold (and
well-formedness is preserved throughout). -/
theorem fold_bridge :
    ∀ (pairs : List (String × String)) (rs : List (List Char)),
      (∀ pr ∈ pairs, goodPair pr = true ∨ pr = ("check-ins", "checkin")) →
      wfB none rs = true →
      pairs.foldl (fun acc pr => subWB pr.1.data pr.2.data false acc) rs.flatten =
        (pairs.foldl runPass rs).flatten ∧
      wfB none (pairs.foldl runPass rs) = true := by
  intro pairs
  induction pairs with
  | nil => intro rs _ hwf; exact ⟨rfl, hwf⟩
  | cons pr pairs ih =>
    intro rs hgood hwf
    rw [List.foldl_cons, List.foldl_cons]
    cases hgp : goodPair pr with
    | true =>
      have hrp : runPass rs pr = mapW pr.1.data pr.2.data rs := by
        rw [runPass, if_pos hgp]
      simp only [goodPair, Bool.and_eq_true] at hgp
      obtain ⟨⟨⟨hpne, hpw⟩, hsne⟩, hsw⟩ := hgp
      have hb := bridgeA pr.1.data pr.2.data (by simpa using hpne)
        (fun c hc => List.all_eq_true.mp hpw c hc) rs none hwf
      rw [show flagOf none = false from rfl] at hb
      have hwf' := mapW_wf pr.1.data pr.2.data (by simpa using hpne)
        (fun c hc => List.all_eq_true.mp hpw c hc) (by simpa using hsne)
        (fun c hc => List.all_eq_true.mp hsw c hc) rs none hwf
      rw [hb, hrp]
      exact ih (mapW pr.1.data pr.2.data rs)
        (fun q hq => hgood q (List.mem_cons_of_mem _ hq)) hwf'
    | false =>
      have hpr : pr = ("check-ins", "checkin") := by
        rcases hgood pr (List.mem_cons_self _ _) with hg | hg
        · rw [hg] at hgp; cases hgp
        · exact hg
      subst hpr
      have hrp : runPass rs ("check-ins", "checkin") = sub3 rs := by
        rw [runPass, if_neg (by rw [hgp]; exact Bool.false_ne_true)]
      have hb := bridgeB rs.length rs none (Nat.le_refl _) hwf
      rw [show flagOf none = false from rfl] at hb
      have hwf' := sub3_wf rs.length rs none (Nat.le_refl _) hwf
      rw [hb, hrp]
      exact ih (sub3 rs) (fun q hq => hgood q (List.mem_cons_of_mem _ hq)) hwf'

/-- A run absent from the state and not introduced by any singular stays
absent through the run-level fold. -/
theorem foldPass_not_mem (x : List Char) :
    ∀ (pairs : List (String × String)) (rs : List (List Char)),
      (∀ pr ∈ pairs, goodPair pr = true ∨ pr = ("check-ins", "checkin")) →
      x ∉ rs → (∀ pr ∈ pairs, pr.2.data ≠ x) →
      x ∉ pairs.foldl runPass rs := by
  intro pairs
  induction pairs with
  | nil => intro rs _ hx _; exact hx
  | cons pr pairs ih =>
    intro rs hgood hx hs
    rw [List.foldl_cons]
    refine ih (runPass rs pr) (fun q hq => hgood q (List.mem_cons_of_mem _ hq)) ?_
      (fun q hq => hs q (List.mem_cons_of_mem _ hq))
    cases hgp : goodPair pr with
    | true =>
      rw [runPass, if_pos hgp]
      intro hmem
      rcases mapW_mem hmem with h | h
      · exact hs pr (List.mem_cons_self _ _) h.symm
      · exact hx h
    | false =>
      have hpr : pr = ("check-ins", "checkin") := by
        rcases hgood pr (List.mem_cons_self _ _) with hg | hg
        · rw [hg] at hgp; cases hgp
        · exact hg
      rw [runPass, if_neg (by rw [hgp]; exact Bool.false_ne_true)]
      intro hmem
      rcases sub3_mem rs.length rs x (Nat.le_refl _) hmem with h | h
      · refine hs pr (List.mem_cons_self _ _) ?_
        rw [hpr]
        rw [show ("check-ins", "checkin").2.data = checkinRun from by decide, h]
      · exact hx h

/-- Absence of the `check` `-` `ins` triple is preserved through the
run-level fold when no singular is one of the three triple runs. -/
theorem foldPass_no_triple :
    ∀ (pairs : List (String × String)) (rs : List (List Char)),
      (∀ pr ∈ pairs, pr.2.data ≠ checkRun ∧ pr.2.data ≠ ['-'] ∧ pr.2.data ≠ insRun) →
      hasTriple rs = false →
      hasTriple (pairs.foldl runPass rs) = false := by
  intro pairs
  induction pairs with
  | nil => intro rs _ ht; exact ht
  | cons pr pairs ih =>
    intro rs hcond ht
    rw [List.foldl_cons]
    refine ih (runPass rs pr) (fun q hq => hcond q (List.mem_cons_of_mem _ hq)) ?_
    cases hgp : goodPair pr with
    | true =>
      rw [runPass, if_pos hgp]
      obtain ⟨h1, h2, h3⟩ := hcond pr (List.mem_cons_self _ _)
      exact mapW_triple_pres pr.1.data pr.2.data h1 h2 h3 rs ht
    | false =>
      rw [runPass, if_neg (by rw [hgp]; exact Bool.false_ne_true)]
      exact sub3_no_triple rs.length rs (Nat.le_refl _)

/-- After the full run-level fold, no plural key occurs as a run and no
`check` `-` `ins` triple remains. -/
theorem foldPass_all_dead :
    ∀ (pairs : List (String × String)) (rs : List (List Char)),
      (∀ pr ∈ pairs, goodPair pr = true ∨ pr = ("check-ins", "checkin")) →
      (∀ pr ∈ pairs, ∀ q ∈ pairs, q.2.data ≠ pr.1.data) →
      (∀ q ∈ pairs, q.2.data ≠ checkRun ∧ q.2.data ≠ ['-'] ∧ q.2.data ≠ insRun) →
      ∀ pr ∈ pairs,
        (goodPair pr = true → pr.1.data ∉ pairs.foldl runPass rs) ∧
        (pr = ("check-ins", "checkin") → hasTriple (pairs.foldl runPass rs) = false) := by
  intro pairs
  induction pairs with
  | nil => intro rs _ _ _ pr hpr; cases hpr
  | cons p0 pairs ih =>
    intro rs hgood hinv htri pr hpr
    rw [List.foldl_cons]
    rcases List.mem_cons.mp hpr with heq | htl
    · subst heq
      constructor
      · intro hgp
        have hpost : pr.1.data ∉ runPass rs pr := by
          rw [runPass, if_pos hgp]
          exact mapW_post pr.1.data pr.2.data rs
            (hinv pr (List.mem_cons_self _ _) pr (List.mem_cons_self _ _))
        exact foldPass_not_mem pr.1.data pairs (runPass rs pr)
          (fun q hq => hgood q (List.mem_cons_of_mem _ hq)) hpost
          (fun q hq => hinv pr (List.mem_cons_self _ _) q (List.mem_cons_of_mem _ hq))
      · intro hsp
        have hgp : goodPair pr = false := by
          rw [hsp]
          decide
        have hpost : hasTriple (runPass rs pr) = false := by
          rw [runPass, if_neg (by rw [hgp]; exact Bool.false_ne_true)]
          exact sub3_no_triple rs.length rs (Nat.le_refl _)
        exact foldPass_no_triple pairs (runPass rs pr)
          (fun q hq => htri q (List.mem_cons_of_mem _ hq)) hpost
    · exact ih (runPass rs p0)
        (fun q hq => hgood q (List.mem_cons_of_mem _ hq))
        (fun q hq q' hq' => hinv q (List.mem_cons_of_mem _ hq) q' (List.mem_cons_of_mem _ hq'))
        (fun q hq => htri q (List.mem_cons_of_mem _ hq)) pr htl

/-- Every `re.sub` pass of the table fixes the fully normalized string:
its plural no longer occurs word-bounded. -/
theorem subWB_fix_normalizeL (l : List Char) :
    ∀ pr ∈ PLURAL_TO_SINGULAR,
      subWB pr.1.data pr.2.data false (normalizeL l) = normalizeL l := by
  have hcond1 : ∀ pr ∈ PLURAL_TO_SINGULAR,
      goodPair pr = true ∨ pr = ("check-ins", "checkin") := by decide
  have hcond2 : ∀ pr ∈ PLURAL_TO_SINGULAR, ∀ q ∈ PLURAL_TO_SINGULAR,
      q.2.data ≠ pr.1.data := by decide
  have hcond3 : ∀ q ∈ PLURAL_TO_SINGULAR,
      q.2.data ≠ checkRun ∧ q.2.data ≠ ['-'] ∧ q.2.data ≠ insRun := by decide
  have h0w : wfB none (runs (lowerL l)) = true := runs_wf _
  have hfb := fold_bridge PLURAL_TO_SINGULAR (runs (lowerL l)) hcond1 h0w
  have hR : normalizeL l = (PLURAL_TO_SINGULAR.foldl runPass (runs (lowerL l))).flatten := by
    rw [normalizeL]
    conv_lhs => rw [← runs_flatten (lowerL l)]
    exact hfb.1
  have hdead := foldPass_all_dead PLURAL_TO_SINGULAR (runs (lowerL l)) hcond1 hcond2 hcond3
  intro pr hpr
  rcases hcond1 pr hpr with hgp | hsp
  · -- all-word pair: bridge A, then the pass is the identity map
    have hnotmem := (hdead pr hpr).1 hgp
    simp only [goodPair, Bool.and_eq_true] at hgp
    obtain ⟨⟨⟨hpne, hpw⟩, -⟩, -⟩ := hgp
    have hb := bridgeA pr.1.data pr.2.data (by simpa using hpne)
      (fun c hc => List.all_eq_true.mp hpw c hc)
      (PLURAL_TO_SINGULAR.foldl runPass (runs (lowerL l))) none hfb.2
    rw [show flagOf none = false from rfl] at hb
    rw [hR, hb, mapW_id_of_not_mem _ _ _ hnotmem]
  · -- the hyphenated pair: bridge B, then the triple pass is the identity
    have hnt := (hdead pr hpr).2 hsp
    subst hsp
    show subWB ("check-ins".data) ("checkin".data) false (normalizeL l) = normalizeL l
    have hb := bridgeB (PLURAL_TO_SINGULAR.foldl runPass (runs (lowerL l))).length
      (PLURAL_TO_SINGULAR.foldl runPass (runs (lowerL l))) none (Nat.le_refl _) hfb.2
    rw [show flagOf none = false from rfl] at hb
    rw [hR, hb, sub3_id_of_no_triple _ _ (Nat.le_refl _) hnt]

/-- The normalization fold is idempotent on character lists. -/
theorem normalizeL_idem (l : List Char) : normalizeL (normalizeL l) = normalizeL l := by
  conv_lhs => rw [normalizeL, lowerL_normalizeL]
  exact foldl_fix _ _ PLURAL_TO_SINGULAR (subWB_fix_normalizeL l)

/-- **C9.** `normalize_query` is idempotent: lowercasing is idempotent,
the replaced singulars are lowercase, and after the full pass no plural
key of the table occurs word-bounded any more (each pass removes its own
key, no singular equals a key, and the `check-ins` triple cannot be
recreated), so a second normalization changes nothing. -/
theorem C9_normalize_query_idempotent (q : String) :
    normalize_query (normalize_query q) = normalize_query q := by
  have hd : ∀ l : List Char, (String.mk l).data = l := fun _ => rfl
  simp only [normalize_query, hd]
  exact congrArg String.mk (normalizeL_idem q.data)

end GymBot
